import Mathlib

/-!
# Buddy allocator of `kernel/buddy.c` and `kernel/buddy_my.c`

Shallow embedding of the bitmap buddy allocator (`buddy.c`) and of the
free-list variant (`buddy_my.c`).

Conventions of the embedding.

* A `char *` bitmap is a total map from byte index to byte value
  (`Nat → Nat`); the helpers `isset`, `set` and `unset` work on byte
  `index / 8` with the mask `1 << (index % 8)`, as in the source.
* `uint64` arithmetic that can wrap (`get_level`, `ROUNDUP`) is taken
  modulo `2 ^ 64`.  Loops that need not terminate carry a fuel argument and
  return `Option`.
* Block indices, levels and byte offsets inside the arena (`int` in the source) are
  natural numbers; the source computes them exactly as long as the arena is smaller
  than `2 ^ 31` bytes, and the theorems on states of the allocator carry that bound as a
  hypothesis.
* The global variables `nsizes`, `bd_base` and `bd_sizes` form the record `State`.
  The spin lock and the `printf` calls do not touch it and are left out; the diagnostic
  `print_level` is modelled by its counters.
-/

namespace Buddy

/-! ## Constants and address arithmetic -/

/-- The smallest block size, `LEAF_SIZE`. -/
def LEAF_SIZE : Nat := 16

/-- Size of a block of class `k`: `BLK_SIZE(k) = (1L << k) * LEAF_SIZE`. -/
def BLK_SIZE (k : Nat) : Nat := (1 <<< k) * LEAF_SIZE

/-- Round `n` up to the next multiple of `sz` with `uint64` arithmetic:
`ROUNDUP(n, sz) = ((n - 1) / sz + 1) * sz`, where `n - 1` wraps to `2 ^ 64 - 1` for
`n = 0`. -/
def ROUNDUP (n sz : Nat) : Nat :=
  match n with
  | 0 => (((2 ^ 64 - 1) / sz + 1) * sz) % 2 ^ 64
  | m + 1 => ((m / sz + 1) * sz) % 2 ^ 64

/-! ## Bit vectors -/

/-- Return true if the bit at position `index` of `array` is set. -/
def isset (array : Nat → Nat) (index : Nat) : Bool :=
  let b := array (index / 8)
  let m := 1 <<< (index % 8)
  (b &&& m) == m

/-- Set the bit at position `index` of `array`. -/
def set (array : Nat → Nat) (index : Nat) : Nat → Nat :=
  let b := array (index / 8)
  let m := 1 <<< (index % 8)
  Function.update array (index / 8) (b ||| m)

/-- Clear the bit at position `index` of `array`; `~m` is the complement of the
mask within the byte. -/
def unset (array : Nat → Nat) (index : Nat) : Nat → Nat :=
  let b := array (index / 8)
  let m := 1 <<< (index % 8)
  Function.update array (index / 8) (b &&& (255 ^^^ m))

/-! ## Size classes -/

/-- Loop of `get_level`: `while (size < n) { k++; size *= 2; }` on a `uint64` size. -/
def get_level_loop : Nat → Nat → Nat → Nat → Option Nat
  | 0, _, _, _ => none
  | fuel + 1, k, size, n =>
    if size < n then get_level_loop fuel (k + 1) (size * 2 % 2 ^ 64) n else some k

/-- The first `k` such that `LEAF_SIZE * 2^k >= n`; `none` when the loop does not
stop within 64 rounds (the size has then wrapped to `0` and stays there). -/
def get_level (n : Nat) : Option Nat := get_level_loop 64 0 LEAF_SIZE n

/-- The per-class record `struct sz_info`: the two bitmaps. -/
structure Sz_info where
  alloc : Nat → Nat
  split : Nat → Nat

/-- The globals of `buddy.c`. -/
structure State where
  nsizes : Nat
  bd_base : Nat
  bd_sizes : Nat → Sz_info

/-- Largest index of `bd_sizes`: `MAXENTRY = nsizes - 1`. -/
def MAXENTRY (s : State) : Nat := s.nsizes - 1

/-- The nominal arena size `HEAP_SIZE = BLK_SIZE(MAXENTRY)`. -/
def HEAP_SIZE (s : State) : Nat := BLK_SIZE (MAXENTRY s)

/-- Number of blocks of class `k`: `NBLK(k) = 1 << (MAXENTRY - k)`. -/
def NBLK (s : State) (k : Nat) : Nat := 1 <<< (MAXENTRY s - k)

/-- Block index of address `p` at class `k`: `int n = p - bd_base; return n / BLK_SIZE(k)`.
The `int` is not truncated here, so the value is the one of the code for offsets
`0 <= p - bd_base < 2^31`. -/
def blk_index (s : State) (k p : Nat) : Nat := (p - s.bd_base) / BLK_SIZE k

/-- Address of block `bi` of class `k`: `int n = bi * BLK_SIZE(k); return bd_base + n`.  The
`int` is not truncated here, so the value is the one of the code for `bi * BLK_SIZE(k) <
2^31`. -/
def addr (s : State) (k bi : Nat) : Nat := s.bd_base + bi * BLK_SIZE k

/-- Statement `set(bd_sizes[k].alloc, i)`. -/
def set_alloc (s : State) (k i : Nat) : State :=
  ⟨s.nsizes, s.bd_base, Function.update s.bd_sizes k ⟨set (s.bd_sizes k).alloc i, (s.bd_sizes k).split⟩⟩

/-- Statement `unset(bd_sizes[k].alloc, i)`. -/
def unset_alloc (s : State) (k i : Nat) : State :=
  ⟨s.nsizes, s.bd_base, Function.update s.bd_sizes k ⟨unset (s.bd_sizes k).alloc i, (s.bd_sizes k).split⟩⟩

/-- Statement `set(bd_sizes[k].split, i)`. -/
def set_split (s : State) (k i : Nat) : State :=
  ⟨s.nsizes, s.bd_base, Function.update s.bd_sizes k ⟨(s.bd_sizes k).alloc, set (s.bd_sizes k).split i⟩⟩

/-- Statement `unset(bd_sizes[k].split, i)`. -/
def unset_split (s : State) (k i : Nat) : State :=
  ⟨s.nsizes, s.bd_base, Function.update s.bd_sizes k ⟨(s.bd_sizes k).alloc, unset (s.bd_sizes k).split i⟩⟩

/-- Expression `isset(bd_sizes[k].alloc, i)`. -/
def alloc_bit (s : State) (k i : Nat) : Bool := isset (s.bd_sizes k).alloc i

/-- Expression `isset(bd_sizes[k].split, i)`. -/
def split_bit (s : State) (k i : Nat) : Bool := isset (s.bd_sizes k).split i

/-! ## Allocation -/

/-- Mark every block below `(level, p)` as allocated. -/
def set_blocks_below_as_allocated (s : State) : Nat → Nat → State
  | 0, _ => s
  | level + 1, p =>
    let current_id := blk_index s (level + 1) p
    let s1 := set_alloc s level (2 * current_id)
    let s2 := set_alloc s1 level (2 * current_id + 1)
    let s3 := set_blocks_below_as_allocated s2 level (addr s level (2 * current_id))
    set_blocks_below_as_allocated s3 level (addr s level (2 * current_id + 1))

/-- Mark every block above `(level, p)` as split; the recursion stops at
`level == MAXENTRY` only, so it is run with fuel. -/
def set_blocks_above_as_split : Nat → State → Nat → Nat → Option State
  | fuel, s, level, p =>
    if level = MAXENTRY s then some s
    else match fuel with
      | 0 => none
      | fuel + 1 =>
        let current_id := blk_index s level p
        set_blocks_above_as_split fuel (set_split s (level + 1) (current_id / 2)) (level + 1)
          (addr s (level + 1) (current_id / 2))

/-- The scanning loops of `bd_malloc`: `for (; id < n; id++) if (!busy(id)) break;`. -/
def scan (busy : Nat → Bool) (n : Nat) : Nat → Nat → Nat
  | 0, id => id
  | fuel + 1, id =>
    if id < n then (if !busy id then id else scan busy n fuel (id + 1)) else id

/-- Allocate `nbytes`: the returned pointer (`0` for failure) and the new state;
`none` when the call does not return. -/
def bd_malloc (s : State) (nbytes : Nat) : Option (Nat × State) :=
  match get_level nbytes with
  | none => none
  | some level =>
    if level ≥ s.nsizes then some (0, s)
    else
      let id :=
        if level = 0 then scan (fun id => alloc_bit s level id) (NBLK s level) (NBLK s level) 0
        else scan (fun id => alloc_bit s level id || split_bit s level id)
          (NBLK s level) (NBLK s level) 0
      if id = NBLK s level then some (0, s)
      else
        let p := addr s level id
        let s1 := set_alloc s level id
        let s2 := set_blocks_below_as_allocated s1 level p
        match set_blocks_above_as_split s.nsizes s2 level p with
        | none => none
        | some s3 => some (p, s3)

/-! ## Release -/

/-- Loop of `size`: the first `k < nsizes` whose parent class `k + 1` has the split
bit of the block containing `p` set; `0` when there is none.  For `k = nsizes - 1` the
source reads `bd_sizes[nsizes]`, one past the array; the state supplies that entry. -/
def size_loop (s : State) (p : Nat) : Nat → Nat → Nat
  | 0, _ => 0
  | fuel + 1, k =>
    if k < s.nsizes then
      (if split_bit s (k + 1) (blk_index s (k + 1) p) then k else size_loop s p fuel (k + 1))
    else 0

/-- Find the class of the block that `p` points to. -/
def size (s : State) (p : Nat) : Nat := size_loop s p s.nsizes 0

/-- Clear the alloc bit of every block below `(level, p)`. -/
def unset_blocks_below_as_allocated (s : State) : Nat → Nat → State
  | 0, _ => s
  | level + 1, p =>
    let current_id := blk_index s (level + 1) p
    let s1 := unset_alloc s level (2 * current_id)
    let s2 := unset_alloc s1 level (2 * current_id + 1)
    let s3 := unset_blocks_below_as_allocated s2 level (addr s level (2 * current_id))
    unset_blocks_below_as_allocated s3 level (addr s level (2 * current_id + 1))

/-- The merge loop of `bd_free`, `for (k = level_free; k < MAXENTRY; k++)`, with the
number of remaining rounds as fuel; it returns the state, the final `k` and the final `p`. -/
def bd_free_loop : Nat → State → Nat → Nat → State × Nat × Nat
  | 0, s, k, p => (s, k, p)
  | fuel + 1, s, k, p =>
    if k < MAXENTRY s then
      let bi := blk_index s k p
      let buddy := if bi % 2 = 0 then bi + 1 else bi - 1
      let s1 := unset_alloc s k bi
      let stop :=
        if k = 0 then alloc_bit s1 k buddy
        else alloc_bit s1 k buddy || split_bit s1 k buddy
      if stop then (s1, k, p)
      else
        let q := addr s1 k buddy
        let p1 := if buddy % 2 = 0 then q else p
        let s2 := unset_split s1 (k + 1) (blk_index s1 (k + 1) p1)
        bd_free_loop fuel s2 (k + 1) p1
    else (s, k, p)

/-- Free the block at `p`; `Except.error` is the `panic` of the source. -/
def bd_free (s : State) (p : Nat) : Except String State :=
  if p = 0 then Except.ok s
  else if p % LEAF_SIZE ≠ 0 then Except.error "bd_free: not aligned"
  else
    let level_free := size s p
    let r := bd_free_loop (MAXENTRY s - level_free) s level_free p
    Except.ok (unset_blocks_below_as_allocated r.1 r.2.1 r.2.2)

/-! ## Initialisation -/

/-- The first block of class `k` that does not contain `p`. -/
def blk_index_next (s : State) (k p : Nat) : Nat :=
  let n := (p - s.bd_base) / BLK_SIZE k
  if (p - s.bd_base) % BLK_SIZE k ≠ 0 then n + 1 else n

/-- Loop `while (n > 1) { k++; n = n >> 1; }` of `log2`. -/
def log2_loop : Nat → Nat → Nat → Nat
  | 0, k, _ => k
  | fuel + 1, k, n => if n > 1 then log2_loop fuel (k + 1) (n >>> 1) else k

/-- The function `log2` on a `uint64`; 64 rounds always reach `n <= 1`. -/
def log2 (n : Nat) : Nat := log2_loop 64 0 n

/-- Inner loop of `bd_mark`: `for (; bi < bj; bi++)` at class `k`. -/
def bd_mark_blocks (k : Nat) : Nat → State → Nat → Nat → State
  | 0, s, _, _ => s
  | fuel + 1, s, bi, bj =>
    if bi < bj then
      let s1 := if k > 0 then set_split s k bi else s
      bd_mark_blocks k fuel (set_alloc s1 k bi) (bi + 1) bj
    else s

/-- Outer loop of `bd_mark`: `for (int k = 0; k < nsizes; k++)`. -/
def bd_mark_loop (start stop : Nat) : Nat → State → Nat → State
  | 0, s, _ => s
  | fuel + 1, s, k =>
    if k < s.nsizes then
      let bi := blk_index s k start
      let bj := blk_index_next s k stop
      bd_mark_loop start stop fuel (bd_mark_blocks k (bj - bi) s bi bj) (k + 1)
    else s

/-- Mark the memory `[start, stop)` as allocated at every class. -/
def bd_mark (s : State) (start stop : Nat) : Except String State :=
  if start % LEAF_SIZE ≠ 0 ∨ stop % LEAF_SIZE ≠ 0 then Except.error "bd_mark"
  else Except.ok (bd_mark_loop start stop s.nsizes s 0)

/-- Mark the range `[bd_base, p)` as allocated. -/
def bd_mark_data_structures (s : State) (p : Nat) : Except String State :=
  bd_mark s s.bd_base p

/-- The value `unavailable` of `bd_mark_unavailable`, an `int` that is not truncated here:
it is the value of the code when `BLK_SIZE(MAXENTRY) - (end - bd_base) < 2^31`. -/
def unavailable (s : State) (end_ : Nat) : Nat :=
  let u := BLK_SIZE (MAXENTRY s) - (end_ - s.bd_base)
  if u > 0 then ROUNDUP u LEAF_SIZE else u

/-- Mark the range `[end, HEAP_SIZE)` as allocated. -/
def bd_mark_unavailable (s : State) (end_ : Nat) : Except String State :=
  let bd_end := s.bd_base + BLK_SIZE (MAXENTRY s) - unavailable s end_
  bd_mark s bd_end (s.bd_base + BLK_SIZE (MAXENTRY s))

/-- The number of classes computed by `bd_init` for an arena of `len` bytes. -/
def init_nsizes (len : Nat) : Nat :=
  let nsizes := log2 (len / LEAF_SIZE) + 1
  if len > BLK_SIZE (nsizes - 1) then nsizes + 1 else nsizes

/-- Bytes of one bitmap of class `k`: `sizeof(char) * ROUNDUP(NBLK(k), 8) / 8`. -/
def bitmap_bytes (s : State) (k : Nat) : Nat := ROUNDUP (NBLK s k) 8 / 8

/-- The loops of `bd_init` that lay out one bitmap per class `k < nsizes`, advancing the
cursor `p`. -/
def init_arrays (s : State) : Nat → Nat → Nat → Nat
  | 0, _, p => p
  | fuel + 1, k, p => if k < s.nsizes then init_arrays s fuel (k + 1) (p + bitmap_bytes s k) else p

/-- Size of `struct sz_info` (two pointers on the 64-bit target). -/
def SZ_INFO_BYTES : Nat := 16

/-- The state after the bitmaps are laid out and zeroed, before any marking. -/
def init_state (base end_ : Nat) : State :=
  let p := ROUNDUP base LEAF_SIZE
  ⟨init_nsizes (end_ - p), p, fun _ => ⟨fun _ => 0, fun _ => 0⟩⟩

/-- The cursor `p` of `bd_init` after the metadata, rounded up to `LEAF_SIZE`. -/
def meta_end (base end_ : Nat) : Nat :=
  let s := init_state base end_
  let p := s.bd_base + SZ_INFO_BYTES * s.nsizes
  let p := init_arrays s s.nsizes 0 p
  let p := init_arrays s (s.nsizes - 1) 1 p
  ROUNDUP p LEAF_SIZE

/-- Loop `for (unsigned i = 0; i < NBLK(level); i++)` of `print_level` with its three
`unsigned` counters `(alls, splits, frees)`. -/
def print_level_loop (s : State) (level : Nat) : Nat → Nat → Nat × Nat × Nat → Nat × Nat × Nat
  | 0, _, c => c
  | fuel + 1, i, (alls, splits, frees) =>
    if i < NBLK s level then
      if level ≠ 0 ∧ split_bit s level i = true then
        print_level_loop s level fuel (i + 1) (alls, (splits + 1) % 2 ^ 32, frees)
      else if alloc_bit s level i = true then
        print_level_loop s level fuel (i + 1) ((alls + 1) % 2 ^ 32, splits, frees)
      else
        print_level_loop s level fuel (i + 1) (alls, splits, (frees + 1) % 2 ^ 32)
    else (alls, splits, frees)

/-- Print the blocks of class `level`: the state, which the function only reads, and the
counts `(alls, splits, frees)` of its closing line. -/
def print_level (s : State) (level : Nat) : State × Nat × Nat × Nat :=
  (s, print_level_loop s level (NBLK s level) 0 (0, 0, 0))

/-- Initialise the allocator for the memory `[base, end)`.  The closing diagnostic
`print_level(10)` changes no state; it reads `bd_sizes[10]`, which is an entry of the array
only when there are at least 11 classes. -/
def bd_init (base end_ : Nat) : Except String State :=
  match bd_mark_data_structures (init_state base end_) (meta_end base end_) with
  | Except.error e => Except.error e
  | Except.ok s1 =>
    match bd_mark_unavailable s1 end_ with
    | Except.error e => Except.error e
    | Except.ok s2 => Except.ok (print_level s2 10).1

/-- A sequence of `bd_malloc` calls: the returned pointers, in order, and the last state. -/
def malloc_all : State → List Nat → Option (List Nat × State)
  | s, [] => some ([], s)
  | s, n :: ns =>
    match bd_malloc s n with
    | none => none
    | some (p, s1) =>
      match malloc_all s1 ns with
      | none => none
      | some (ps, s2) => some (p :: ps, s2)

/-- A sequence of `bd_free` calls. -/
def free_all : State → List Nat → Except String State
  | s, [] => Except.ok s
  | s, p :: ps =>
    match bd_free s p with
    | Except.error e => Except.error e
    | Except.ok s1 => free_all s1 ps

/-- The states reachable from `bd_init(base, end)` by `bd_malloc` calls and by `bd_free`
calls on outstanding pointers, together with the outstanding allocations: the pointers
returned and not yet freed, each with the size that was requested. -/
inductive Reachable (base end_ : Nat) : State → List (Nat × Nat) → Prop
  | init {s : State} : bd_init base end_ = Except.ok s → Reachable base end_ s []
  | malloc {s s1 : State} {out : List (Nat × Nat)} {nbytes p : Nat} :
      Reachable base end_ s out → bd_malloc s nbytes = some (p, s1) → p ≠ 0 →
      Reachable base end_ s1 ((p, nbytes) :: out)
  | malloc_fail {s s1 : State} {out : List (Nat × Nat)} {nbytes : Nat} :
      Reachable base end_ s out → bd_malloc s nbytes = some (0, s1) →
      Reachable base end_ s1 out
  | free {s s1 : State} {out : List (Nat × Nat)} {nbytes p : Nat} :
      Reachable base end_ s out → (p, nbytes) ∈ out → bd_free s p = Except.ok s1 →
      Reachable base end_ s1 (out.erase (p, nbytes))

/-- The state inside an `Except.ok`. -/
def state_of (r : Except String State) : State :=
  match r with
  | Except.ok s => s
  | Except.error _ => ⟨0, 0, fun _ => ⟨fun _ => 0, fun _ => 0⟩⟩

/-! ## Vocabulary of the proofs -/

/-- Two states with the same `nsizes` and `bd_base`. -/
def SameFrame (r s : State) : Prop := r.nsizes = s.nsizes ∧ r.bd_base = s.bd_base

/-- The block `(k, i)` lies strictly below the block `(level, c)`. -/
def Below (level c k i : Nat) : Prop := k < level ∧ i / 2 ^ (level - k) = c

/-- The block `(k, i)` is a strict ancestor of the block `(level, c)`. -/
def Above (level c k i : Nat) : Prop := level < k ∧ i = c / 2 ^ (k - level)

/-- The block `(L, id)` is free: its alloc bit is clear and, above class 0, its split bit
is clear. -/
def Free (s : State) (L id : Nat) : Prop :=
  alloc_bit s L id = false ∧ (L ≠ 0 → split_bit s L id = false)

/-- The test of the scanning loops of `bd_malloc` at class `L`. -/
def busy_at (s : State) (L : Nat) : Nat → Bool :=
  if L = 0 then fun id => alloc_bit s L id else fun id => alloc_bit s L id || split_bit s L id

/-- What a successful `bd_malloc` does to the state. -/
def MallocPost (s : State) (L id : Nat) (r : State) : Prop :=
  SameFrame r s ∧
  (∀ k i, alloc_bit r k i = true ↔ (k = L ∧ i = id) ∨ Below L id k i ∨ alloc_bit s k i = true) ∧
  (∀ k i, split_bit r k i = true ↔
    (Above L id k i ∧ k ≤ MAXENTRY s) ∨ split_bit s k i = true)

/-- The block `(k, i)` is the block `(level, c)` or lies below it. -/
def Under (level c k i : Nat) : Prop := k ≤ level ∧ i / 2 ^ (level - k) = c

/-- What the proofs need of the state `s0` left by `bd_init`: the marked blocks are the
blocks that meet the metadata or the unavailable tail. -/
structure Marked (s0 : State) : Prop where
  nsizes_pos : 1 ≤ s0.nsizes
  aligned : s0.bd_base % 16 = 0
  split_eq : ∀ k i, 1 ≤ k → k < s0.nsizes → split_bit s0 k i = alloc_bit s0 k i
  parent : ∀ k i, k + 1 < s0.nsizes →
    (alloc_bit s0 (k + 1) i = true ↔
      alloc_bit s0 k (2 * i) = true ∨ alloc_bit s0 k (2 * i + 1) = true)
  first : ∀ k, k < s0.nsizes → alloc_bit s0 k 0 = true

/-- The bitmaps of `s` are the marks of `s0` plus the footprint of the outstanding
allocations `O`: an outstanding block sets the alloc bit of itself and of every block
below it, and the split bit of every block above it. -/
structure Repr (s0 s : State) (O : Nat → Nat → Prop) : Prop where
  frame : SameFrame s s0
  alloc : ∀ k i, alloc_bit s k i = true ↔
    alloc_bit s0 k i = true ∨ ∃ L id, O L id ∧ Under L id k i
  split : ∀ k i, split_bit s k i = true ↔
    split_bit s0 k i = true ∨ ∃ L id, O L id ∧ Above L id k i ∧ k ≤ MAXENTRY s0

/-- The outstanding allocations are blocks of the arena, unmarked and pairwise disjoint. -/
structure WF (s0 : State) (O : Nat → Nat → Prop) : Prop where
  bound : ∀ L id, O L id → L < s0.nsizes ∧ id < NBLK s0 L
  unmarked : ∀ L id, O L id → alloc_bit s0 L id = false
  antichain : ∀ L id L' id', O L id → O L' id' → Under L' id' L id → L = L' ∧ id = id'

/-- The buddy of block `c`: `(bi % 2 == 0) ? bi + 1 : bi - 1`. -/
def buddy_of (c : Nat) : Nat := if c % 2 = 0 then c + 1 else c - 1

/-- The outstanding allocations without the block `(L, id)`. -/
def Without (O : Nat → Nat → Prop) (L id : Nat) : Nat → Nat → Prop :=
  fun L' id' => O L' id' ∧ ¬ (L' = L ∧ id' = id)

/-- Invariant of the merge loop when it reaches class `k` with the current block `(k, c)`,
while the outstanding block `(L, id)` is being freed. -/
structure FreeInv (s0 : State) (O : Nat → Nat → Prop) (L id : Nat) (s : State) (k c : Nat) :
    Prop where
  frame : SameFrame s s0
  cur : Under k c L id
  alloc : ∀ j i, ¬ (j = k ∧ i = c) → (alloc_bit s j i = true ↔
    alloc_bit s0 j i = true ∨ (∃ L' id', Without O L id L' id' ∧ Under L' id' j i) ∨
      Below L id j i)
  split : ∀ j i, split_bit s j i = true ↔
    split_bit s0 j i = true ∨
      (∃ L' id', Without O L id L' id' ∧ Above L' id' j i ∧ j ≤ MAXENTRY s0) ∨
      (Above L id j i ∧ k < j ∧ j ≤ MAXENTRY s0)
  clean : ∀ L' id', Without O L id L' id' → ¬ Under k c L' id'
  unmarked : alloc_bit s0 k c = false

/-- The test `is buddy allocated?` of the merge loop. -/
def buddy_busy (s1 : State) (k b : Nat) : Bool :=
  if k = 0 then alloc_bit s1 k b else alloc_bit s1 k b || split_bit s1 k b

/-- Block `i` of class `j` meets the byte range `[a, b)` (offsets from `bd_base`). -/
def Hits (j i a b : Nat) : Prop := a < (i + 1) * BLK_SIZE j ∧ i * BLK_SIZE j < b

/-- The start `bd_end` of the unavailable tail. -/
def tail_start (base end_ : Nat) : Nat :=
  (init_state base end_).bd_base + BLK_SIZE (MAXENTRY (init_state base end_)) -
    unavailable (init_state base end_) end_

/-- The list `out` of outstanding allocations names exactly the blocks of `O`: every entry
`(p, n)` is the address of a block of class `get_level n` in `O`, every block of `O` has an
entry, and no pointer occurs twice. -/
structure Tracks (s0 : State) (O : Nat → Nat → Prop) (out : List (Nat × Nat)) : Prop where
  ptrs_nodup : (out.map Prod.fst).Nodup
  of_out : ∀ p n, (p, n) ∈ out → ∃ L id, get_level n = some L ∧ O L id ∧ p = addr s0 L id
  of_block : ∀ L id, O L id → ∃ n, (addr s0 L id, n) ∈ out ∧ get_level n = some L

/-- The state of the arena `[0, end)` right after `bd_init`. -/
def demo_init (end_ : Nat) : State := state_of (bd_init 0 end_)

/-- The state after `bd_malloc(nbytes)` in state `s`. -/
def demo_state (s : State) (nbytes : Nat) : State := ((bd_malloc s nbytes).getD (0, s)).2

/-- The state with `nsizes` classes, `bd_base = 0` and every bitmap zero. -/
def zero_state (nsizes : Nat) : State := ⟨nsizes, 0, fun _ => ⟨fun _ => 0, fun _ => 0⟩⟩

/-- Block `i` of class `level` is printed as `S`. -/
def shown_split (s : State) (level i : Nat) : Bool :=
  decide (level ≠ 0) && split_bit s level i

/-- Block `i` of class `level` is printed as `A`. -/
def shown_alloc (s : State) (level i : Nat) : Bool :=
  !shown_split s level i && alloc_bit s level i

/-- Block `i` of class `level` is printed as `F`. -/
def shown_free (s : State) (level i : Nat) : Bool :=
  !shown_split s level i && !alloc_bit s level i

end Buddy

/-! # The free-list variant `buddy_my.c` -/

namespace BuddyMy

/-- The smallest block size, `LEAF_SIZE`. -/
def LEAF_SIZE : Nat := 16

/-- Bit test of `buddy_my.c`: `(array[index/8] >> (index%8)) & 1`. -/
def isset (array : Nat → Nat) (index : Nat) : Nat :=
  (array (index / 8) >>> (index % 8)) &&& 1

/-- Statement `array[index/8] |= (1 << (index%8))`. -/
def set (array : Nat → Nat) (index : Nat) : Nat → Nat :=
  Function.update array (index / 8) (array (index / 8) ||| (1 <<< (index % 8)))

/-- Statement `array[index/8] &= ~(1 << (index%8))`, the complement taken within the byte. -/
def unset (array : Nat → Nat) (index : Nat) : Nat → Nat :=
  Function.update array (index / 8) (array (index / 8) &&& (255 ^^^ (1 <<< (index % 8))))

/-- Loop of `find_a_size`: `while (size < n) { size *= 2; k++; }` on a `uint64` size. -/
def find_a_size_loop : Nat → Nat → Nat → Nat → Option Nat
  | 0, _, _, _ => none
  | fuel + 1, k, size, n =>
    if size < n then find_a_size_loop fuel (k + 1) (size * 2 % 2 ^ 64) n else some k

/-- The first `k` with `LEAF_SIZE * 2^k >= n`; `none` when the loop does not stop. -/
def find_a_size (n : Nat) : Option Nat := find_a_size_loop 64 0 LEAF_SIZE n

/-- The per-class record `struct size_info`; the intrusive free list is the list of the
addresses of its blocks, front first. -/
structure size_info where
  free_list : List Nat
  allocated : Nat → Nat
  split : Nat → Nat

/-- The globals of `buddy_my.c`. -/
structure State where
  nsizes : Nat
  start : Nat
  size_infos : Nat → size_info

/-- Block index of address `p` at class `k`: `offset / BLK_SIZE(k)`, where the macro
`BLK_SIZE(k)` expands to `((uint64)1 << (k))*LEAF_SIZE` without outer parentheses. -/
def get_block_index_from_addr (s : State) (k p : Nat) : Nat :=
  (p - s.start) / (1 <<< k) * LEAF_SIZE

/-- Address of block `i` of class `k`: `start + i * BLK_SIZE(k)`. -/
def get_addr_from_block_index (s : State) (k i : Nat) : Nat :=
  s.start + i * (1 <<< k) * LEAF_SIZE

/-- Statement `set(size_infos[k].allocated, i)`.  The bitmap of a class is a map of its own
here, which is the memory of the code as long as bit `i` lies inside that bitmap. -/
def set_allocated (s : State) (k i : Nat) : State :=
  ⟨s.nsizes, s.start, Function.update s.size_infos k
    ⟨(s.size_infos k).free_list, set (s.size_infos k).allocated i, (s.size_infos k).split⟩⟩

/-- Statement `set(size_infos[k].split, i)`, with the bitmap modelled as for
`set_allocated`. -/
def set_split (s : State) (k i : Nat) : State :=
  ⟨s.nsizes, s.start, Function.update s.size_infos k
    ⟨(s.size_infos k).free_list, (s.size_infos k).allocated, set (s.size_infos k).split i⟩⟩

/-- Modelled from the spec: `lst_push` of the list collaborator, which is not part of the
sources; it pushes the block at the front of the free list of class `k`. -/
def lst_push (s : State) (k p : Nat) : State :=
  ⟨s.nsizes, s.start, Function.update s.size_infos k
    ⟨p :: (s.size_infos k).free_list, (s.size_infos k).allocated, (s.size_infos k).split⟩⟩

/-- Modelled from the spec: `lst_empty` of the list collaborator. -/
def lst_empty (s : State) (k : Nat) : Bool := (s.size_infos k).free_list.isEmpty

/-- Modelled from the spec: `lst_pop` of the list collaborator; it removes the front block
of the free list of class `k` and returns it (`none` on an empty list). -/
def lst_pop (s : State) (k : Nat) : Option (Nat × State) :=
  match (s.size_infos k).free_list with
  | [] => none
  | p :: rest =>
    some (p, ⟨s.nsizes, s.start, Function.update s.size_infos k
      ⟨rest, (s.size_infos k).allocated, (s.size_infos k).split⟩⟩)

/-- First loop of `bd_malloc`: `for (k = first_fit; k < nsizes; k++)` until a free list is
not empty. -/
def find_list (s : State) : Nat → Nat → Nat
  | 0, k => k
  | fuel + 1, k =>
    if k < s.nsizes then (if !lst_empty s k then k else find_list s fuel (k + 1)) else k

/-- Second loop of `bd_malloc`: `for (; k > first_fit; k--)` splits the block at `p`. -/
def split_loop (first_fit p : Nat) : Nat → State → Nat → State
  | 0, s, _ => s
  | fuel + 1, s, k =>
    if k > first_fit then
      let buddy := p + (1 <<< (k - 1)) * LEAF_SIZE
      let s1 := set_split s k (get_block_index_from_addr s k p)
      let s2 := set_allocated s1 (k - 1) (get_block_index_from_addr s1 (k - 1) p)
      split_loop first_fit p fuel (lst_push s2 (k - 1) buddy) (k - 1)
    else s

/-- Allocate `num_bytes` (free-list variant): the returned pointer (`0` for failure) and the
new state; `none` when the call does not return. -/
def bd_malloc (s : State) (num_bytes : Nat) : Option (Nat × State) :=
  match find_a_size num_bytes with
  | none => none
  | some first_fit =>
    let k := find_list s (s.nsizes - first_fit) first_fit
    if k ≥ s.nsizes then some (0, s)
    else
      match lst_pop s k with
      | none => none
      | some (p, s1) =>
        let s2 := set_allocated s1 k (get_block_index_from_addr s1 k p)
        some (p, split_loop first_fit p (k - first_fit) s2 k)

/-- Macro `BLK_SIZE(k)` where its missing outer parentheses do not matter (an operand of
`+`, `-`, `>` or `!=`): `2^k * LEAF_SIZE`. -/
def BLK_SIZE (k : Nat) : Nat := (1 <<< k) * LEAF_SIZE

/-- A state of the free-list variant with four classes whose only free block is the class-2
block at offset 64. -/
def my_state : State :=
  ⟨4, 4096, fun k => if k = 2 then ⟨[4160], fun _ => 0, fun _ => 0⟩
    else ⟨[], fun _ => 0, fun _ => 0⟩⟩

end BuddyMy

/-! # Theorems -/

namespace Buddy

/-! ## Bit-vector lemmas -/

theorem mask_test (b k : Nat) : ((b &&& (1 <<< k)) == (1 <<< k)) = b.testBit k := by
  rw [Nat.one_shiftLeft, Nat.and_two_pow]
  have hpos : 0 < 2 ^ k := Nat.two_pow_pos k
  cases h : b.testBit k
  · simp [Bool.toNat]; omega
  · simp [Bool.toNat]

theorem isset_eq_testBit (a : Nat → Nat) (i : Nat) :
    isset a i = (a (i / 8)).testBit (i % 8) := by
  unfold isset
  exact mask_test _ _

theorem index_split {i j : Nat} (h1 : i / 8 = j / 8) (h2 : i % 8 = j % 8) : i = j := by
  omega

theorem isset_set (a : Nat → Nat) (i j : Nat) :
    isset (set a i) j = (decide (j = i) || isset a j) := by
  rw [isset_eq_testBit, isset_eq_testBit]
  unfold set
  by_cases hb : j / 8 = i / 8
  · rw [hb, Function.update_same, Nat.testBit_or, Nat.one_shiftLeft, Nat.testBit_two_pow]
    by_cases hm : i % 8 = j % 8
    · have : j = i := index_split hb hm.symm
      simp [this]
    · have : j ≠ i := fun h => hm (by rw [h])
      simp [hm, this, Bool.or_comm]
  · have : j ≠ i := fun h => hb (by rw [h])
    rw [Function.update_noteq hb]
    simp [this]

theorem testBit_255 (k : Nat) (hk : k < 8) : (255 : Nat).testBit k = true := by
  have : (255 : Nat) = 2 ^ 8 - 1 := by norm_num
  rw [this, Nat.testBit_two_pow_sub_one]
  simp [hk]

theorem isset_unset (a : Nat → Nat) (i j : Nat) :
    isset (unset a i) j = (!decide (j = i) && isset a j) := by
  rw [isset_eq_testBit, isset_eq_testBit]
  unfold unset
  by_cases hb : j / 8 = i / 8
  · rw [hb, Function.update_same, Nat.testBit_and, Nat.testBit_xor, Nat.one_shiftLeft,
      Nat.testBit_two_pow, testBit_255 _ (Nat.mod_lt _ (by decide))]
    by_cases hm : i % 8 = j % 8
    · have : j = i := index_split hb hm.symm
      simp [this]
    · have : j ≠ i := fun h => hm (by rw [h])
      simp [hm, this]
  · have : j ≠ i := fun h => hb (by rw [h])
    rw [Function.update_noteq hb]
    simp [this]

/-! ## Reading the state after one bitmap update -/

theorem alloc_bit_set_alloc (s : State) (k i k' i' : Nat) :
    alloc_bit (set_alloc s k i) k' i' = true ↔ (k' = k ∧ i' = i) ∨ alloc_bit s k' i' = true := by
  unfold alloc_bit set_alloc
  by_cases hk : k' = k
  · subst hk
    simp [Function.update_same, isset_set]
  · simp [Function.update_noteq hk, hk]

theorem split_bit_set_alloc (s : State) (k i k' i' : Nat) :
    split_bit (set_alloc s k i) k' i' = split_bit s k' i' := by
  unfold split_bit set_alloc
  by_cases hk : k' = k
  · subst hk
    simp [Function.update_same]
  · simp [Function.update_noteq hk]

theorem alloc_bit_unset_alloc (s : State) (k i k' i' : Nat) :
    alloc_bit (unset_alloc s k i) k' i' = true ↔ ¬ (k' = k ∧ i' = i) ∧ alloc_bit s k' i' = true := by
  unfold alloc_bit unset_alloc
  by_cases hk : k' = k
  · subst hk
    simp [Function.update_same, isset_unset]
  · simp [Function.update_noteq hk, hk]

theorem split_bit_unset_alloc (s : State) (k i k' i' : Nat) :
    split_bit (unset_alloc s k i) k' i' = split_bit s k' i' := by
  unfold split_bit unset_alloc
  by_cases hk : k' = k
  · subst hk
    simp [Function.update_same]
  · simp [Function.update_noteq hk]

theorem split_bit_set_split (s : State) (k i k' i' : Nat) :
    split_bit (set_split s k i) k' i' = true ↔ (k' = k ∧ i' = i) ∨ split_bit s k' i' = true := by
  unfold split_bit set_split
  by_cases hk : k' = k
  · subst hk
    simp [Function.update_same, isset_set]
  · simp [Function.update_noteq hk, hk]

theorem alloc_bit_set_split (s : State) (k i k' i' : Nat) :
    alloc_bit (set_split s k i) k' i' = alloc_bit s k' i' := by
  unfold alloc_bit set_split
  by_cases hk : k' = k
  · subst hk
    simp [Function.update_same]
  · simp [Function.update_noteq hk]

theorem split_bit_unset_split (s : State) (k i k' i' : Nat) :
    split_bit (unset_split s k i) k' i' = true ↔ ¬ (k' = k ∧ i' = i) ∧ split_bit s k' i' = true := by
  unfold split_bit unset_split
  by_cases hk : k' = k
  · subst hk
    simp [Function.update_same, isset_unset]
  · simp [Function.update_noteq hk, hk]

theorem alloc_bit_unset_split (s : State) (k i k' i' : Nat) :
    alloc_bit (unset_split s k i) k' i' = alloc_bit s k' i' := by
  unfold alloc_bit unset_split
  by_cases hk : k' = k
  · subst hk
    simp [Function.update_same]
  · simp [Function.update_noteq hk]

theorem SameFrame.rfl_ (s : State) : SameFrame s s := ⟨rfl, rfl⟩

theorem SameFrame.trans_ {a b c : State} (h1 : SameFrame a b) (h2 : SameFrame b c) :
    SameFrame a c := ⟨h1.1.trans h2.1, h1.2.trans h2.2⟩

theorem sameFrame_set_alloc (s : State) (k i : Nat) : SameFrame (set_alloc s k i) s := ⟨rfl, rfl⟩
theorem sameFrame_unset_alloc (s : State) (k i : Nat) : SameFrame (unset_alloc s k i) s :=
  ⟨rfl, rfl⟩
theorem sameFrame_set_split (s : State) (k i : Nat) : SameFrame (set_split s k i) s := ⟨rfl, rfl⟩
theorem sameFrame_unset_split (s : State) (k i : Nat) : SameFrame (unset_split s k i) s :=
  ⟨rfl, rfl⟩

theorem SameFrame.maxentry {r s : State} (h : SameFrame r s) : MAXENTRY r = MAXENTRY s := by
  unfold MAXENTRY; rw [h.1]

theorem SameFrame.nblk {r s : State} (h : SameFrame r s) (k : Nat) : NBLK r k = NBLK s k := by
  unfold NBLK; rw [h.maxentry]

theorem SameFrame.blk_index {r s : State} (h : SameFrame r s) (k p : Nat) :
    blk_index r k p = blk_index s k p := by
  unfold Buddy.blk_index; rw [h.2]

theorem SameFrame.addr {r s : State} (h : SameFrame r s) (k i : Nat) :
    addr r k i = addr s k i := by
  unfold Buddy.addr; rw [h.2]

/-! ## Address arithmetic -/

theorem BLK_SIZE_eq (k : Nat) : BLK_SIZE k = 16 * 2 ^ k := by
  unfold BLK_SIZE LEAF_SIZE
  rw [Nat.one_shiftLeft, Nat.mul_comm]

theorem BLK_SIZE_pos (k : Nat) : 0 < BLK_SIZE k := by
  rw [BLK_SIZE_eq]
  have := Nat.two_pow_pos k
  omega

theorem BLK_SIZE_succ (k : Nat) : BLK_SIZE (k + 1) = 2 * BLK_SIZE k := by
  rw [BLK_SIZE_eq, BLK_SIZE_eq, Nat.pow_succ]; ring

theorem NBLK_eq (s : State) (k : Nat) : NBLK s k = 2 ^ (MAXENTRY s - k) := by
  unfold NBLK
  rw [Nat.one_shiftLeft]

theorem blk_index_addr (s : State) (k i : Nat) : blk_index s k (addr s k i) = i := by
  unfold blk_index addr
  rw [Nat.add_sub_cancel_left]
  exact Nat.mul_div_cancel _ (BLK_SIZE_pos k)

/-! ## The recursive helpers of `bd_malloc` and `bd_free` -/

theorem div_pow_succ (i d : Nat) : i / 2 ^ (d + 1) = i / 2 ^ d / 2 := by
  rw [Nat.pow_succ, Nat.div_div_eq_div_mul]

theorem half_eq_iff (x c : Nat) : x / 2 = c ↔ x = 2 * c ∨ x = 2 * c + 1 := by
  omega

theorem below_succ (level c k i : Nat) :
    Below (level + 1) c k i ↔
      (k = level ∧ (i = 2 * c ∨ i = 2 * c + 1)) ∨ Below level (2 * c) k i ∨
        Below level (2 * c + 1) k i := by
  unfold Below
  constructor
  · rintro ⟨hk, hi⟩
    by_cases hkl : k = level
    · subst hkl
      left
      refine ⟨rfl, ?_⟩
      have : k + 1 - k = 1 := by omega
      rw [this, pow_one] at hi
      omega
    · right
      have hlt : k < level := by omega
      have : level + 1 - k = (level - k) + 1 := by omega
      rw [this, div_pow_succ] at hi
      rcases (half_eq_iff _ _).1 hi with h | h
      · exact Or.inl ⟨hlt, h⟩
      · exact Or.inr ⟨hlt, h⟩
  · rintro (⟨hk, hi⟩ | ⟨hk, hi⟩ | ⟨hk, hi⟩)
    · subst hk
      refine ⟨by omega, ?_⟩
      have : k + 1 - k = 1 := by omega
      rw [this, pow_one]
      omega
    · refine ⟨by omega, ?_⟩
      have : level + 1 - k = (level - k) + 1 := by omega
      rw [this, div_pow_succ, hi]; omega
    · refine ⟨by omega, ?_⟩
      have : level + 1 - k = (level - k) + 1 := by omega
      rw [this, div_pow_succ, hi]; omega

theorem set_blocks_below_spec (level : Nat) : ∀ (s : State) (p : Nat),
    SameFrame (set_blocks_below_as_allocated s level p) s ∧
    (∀ k i, split_bit (set_blocks_below_as_allocated s level p) k i = split_bit s k i) ∧
    (∀ k i, alloc_bit (set_blocks_below_as_allocated s level p) k i = true ↔
      Below level (blk_index s level p) k i ∨ alloc_bit s k i = true) := by
  induction level with
  | zero =>
    intro s p
    refine ⟨SameFrame.rfl_ s, fun _ _ => rfl, fun k i => ?_⟩
    simp [set_blocks_below_as_allocated, Below]
  | succ level ih =>
    intro s p
    simp only [set_blocks_below_as_allocated]
    generalize hc : blk_index s (level + 1) p = c
    have f1 : SameFrame (set_alloc s level (2 * c)) s := sameFrame_set_alloc _ _ _
    have f2 : SameFrame (set_alloc (set_alloc s level (2 * c)) level (2 * c + 1)) s :=
      (sameFrame_set_alloc _ _ _).trans_ f1
    obtain ⟨g3, sp3, al3⟩ := ih (set_alloc (set_alloc s level (2 * c)) level (2 * c + 1))
      (addr s level (2 * c))
    have f3 := g3.trans_ f2
    obtain ⟨g4, sp4, al4⟩ := ih (set_blocks_below_as_allocated
      (set_alloc (set_alloc s level (2 * c)) level (2 * c + 1)) level (addr s level (2 * c)))
      (addr s level (2 * c + 1))
    refine ⟨g4.trans_ f3, fun k i => ?_, fun k i => ?_⟩
    · rw [sp4, sp3, split_bit_set_alloc, split_bit_set_alloc]
    · rw [al4, al3, f3.blk_index, f2.blk_index, ← f2.addr, blk_index_addr, f2.addr, ← f3.addr,
        ← f3.blk_index, blk_index_addr, alloc_bit_set_alloc, alloc_bit_set_alloc, below_succ]
      tauto

theorem unset_blocks_below_spec (level : Nat) : ∀ (s : State) (p : Nat),
    SameFrame (unset_blocks_below_as_allocated s level p) s ∧
    (∀ k i, split_bit (unset_blocks_below_as_allocated s level p) k i = split_bit s k i) ∧
    (∀ k i, alloc_bit (unset_blocks_below_as_allocated s level p) k i = true ↔
      ¬ Below level (blk_index s level p) k i ∧ alloc_bit s k i = true) := by
  induction level with
  | zero =>
    intro s p
    refine ⟨SameFrame.rfl_ s, fun _ _ => rfl, fun k i => ?_⟩
    simp [unset_blocks_below_as_allocated, Below]
  | succ level ih =>
    intro s p
    simp only [unset_blocks_below_as_allocated]
    generalize hc : blk_index s (level + 1) p = c
    have f1 : SameFrame (unset_alloc s level (2 * c)) s := sameFrame_unset_alloc _ _ _
    have f2 : SameFrame (unset_alloc (unset_alloc s level (2 * c)) level (2 * c + 1)) s :=
      (sameFrame_unset_alloc _ _ _).trans_ f1
    obtain ⟨g3, sp3, al3⟩ := ih (unset_alloc (unset_alloc s level (2 * c)) level (2 * c + 1))
      (addr s level (2 * c))
    have f3 := g3.trans_ f2
    obtain ⟨g4, sp4, al4⟩ := ih (unset_blocks_below_as_allocated
      (unset_alloc (unset_alloc s level (2 * c)) level (2 * c + 1)) level (addr s level (2 * c)))
      (addr s level (2 * c + 1))
    refine ⟨g4.trans_ f3, fun k i => ?_, fun k i => ?_⟩
    · rw [sp4, sp3, split_bit_unset_alloc, split_bit_unset_alloc]
    · rw [al4, al3, f3.blk_index, f2.blk_index, ← f2.addr, blk_index_addr, f2.addr, ← f3.addr,
        ← f3.blk_index, blk_index_addr, alloc_bit_unset_alloc, alloc_bit_unset_alloc, below_succ]
      tauto

theorem above_step (level c k i : Nat) :
    Above level c k i ↔ (k = level + 1 ∧ i = c / 2) ∨ Above (level + 1) (c / 2) k i := by
  unfold Above
  constructor
  · rintro ⟨hk, hi⟩
    by_cases h : k = level + 1
    · left
      subst h
      have : level + 1 - level = 1 := by omega
      rw [this, pow_one] at hi
      exact ⟨rfl, hi⟩
    · right
      refine ⟨by omega, ?_⟩
      have : k - level = (k - (level + 1)) + 1 := by omega
      rw [hi, this, Nat.pow_succ, Nat.mul_comm, ← Nat.div_div_eq_div_mul]
  · rintro (⟨hk, hi⟩ | ⟨hk, hi⟩)
    · subst hk
      have : level + 1 - level = 1 := by omega
      rw [this, pow_one]
      exact ⟨by omega, hi⟩
    · refine ⟨by omega, ?_⟩
      have : k - level = (k - (level + 1)) + 1 := by omega
      rw [hi, this, Nat.pow_succ, Nat.mul_comm, ← Nat.div_div_eq_div_mul]

theorem set_blocks_above_spec (fuel : Nat) : ∀ (s : State) (level p : Nat),
    level ≤ MAXENTRY s → MAXENTRY s - level ≤ fuel →
    ∃ r, set_blocks_above_as_split fuel s level p = some r ∧ SameFrame r s ∧
      (∀ k i, alloc_bit r k i = alloc_bit s k i) ∧
      (∀ k i, split_bit r k i = true ↔
        (Above level (blk_index s level p) k i ∧ k ≤ MAXENTRY s) ∨ split_bit s k i = true) := by
  induction fuel with
  | zero =>
    intro s level p h1 h2
    have h : level = MAXENTRY s := by omega
    refine ⟨s, ?_, SameFrame.rfl_ s, fun _ _ => rfl, fun k i => ?_⟩
    · unfold set_blocks_above_as_split; simp [h]
    · unfold Above
      constructor
      · intro hs; exact Or.inr hs
      · rintro (⟨⟨h3, _⟩, h4⟩ | hs)
        · omega
        · exact hs
  | succ fuel ih =>
    intro s level p h1 h2
    by_cases h : level = MAXENTRY s
    · refine ⟨s, ?_, SameFrame.rfl_ s, fun _ _ => rfl, fun k i => ?_⟩
      · unfold set_blocks_above_as_split; simp [h]
      · unfold Above
        constructor
        · intro hs; exact Or.inr hs
        · rintro (⟨⟨h3, _⟩, h4⟩ | hs)
          · omega
          · exact hs
    · unfold set_blocks_above_as_split
      simp only [h, if_false]
      generalize hc : blk_index s level p = c
      have f1 : SameFrame (set_split s (level + 1) (c / 2)) s := sameFrame_set_split _ _ _
      obtain ⟨r, hr, fr, al, sp⟩ := ih (set_split s (level + 1) (c / 2)) (level + 1)
        (addr s (level + 1) (c / 2)) (by rw [f1.maxentry]; omega) (by rw [f1.maxentry]; omega)
      refine ⟨r, hr, fr.trans_ f1, fun k i => ?_, fun k i => ?_⟩
      · rw [al, alloc_bit_set_split]
      · rw [sp, ← f1.addr, blk_index_addr, split_bit_set_split, f1.maxentry, above_step level]
        constructor
        · rintro (⟨ha, hk⟩ | ⟨hk, hi⟩ | hs)
          · exact Or.inl ⟨Or.inr ha, hk⟩
          · exact Or.inl ⟨Or.inl ⟨hk, hi⟩, by omega⟩
          · exact Or.inr hs
        · rintro (⟨⟨hk, hi⟩ | ha, hk2⟩ | hs)
          · exact Or.inr (Or.inl ⟨hk, hi⟩)
          · exact Or.inl ⟨ha, hk2⟩
          · exact Or.inr (Or.inr hs)

/-! ## The scanning loop -/

theorem scan_spec (busy : Nat → Bool) (n : Nat) : ∀ (fuel id : Nat), id ≤ n → n - id ≤ fuel →
    id ≤ scan busy n fuel id ∧ scan busy n fuel id ≤ n ∧
    (∀ j, id ≤ j → j < scan busy n fuel id → busy j = true) ∧
    (scan busy n fuel id < n → busy (scan busy n fuel id) = false) := by
  intro fuel
  induction fuel with
  | zero =>
    intro id h1 h2
    have : id = n := by omega
    simp only [scan]
    exact ⟨le_refl _, h1, fun j a b => by omega, fun h => by omega⟩
  | succ fuel ih =>
    intro id h1 h2
    simp only [scan]
    by_cases hlt : id < n
    · simp only [hlt, if_true]
      cases hb : busy id
      · simp only [Bool.not_false, if_true]
        exact ⟨le_refl _, h1, fun j a b => by omega, fun _ => hb⟩
      · simp only [Bool.not_true, Bool.false_eq_true, if_false]
        obtain ⟨a1, a2, a3, a4⟩ := ih (id + 1) (by omega) (by omega)
        refine ⟨by omega, a2, fun j hj1 hj2 => ?_, a4⟩
        by_cases hj : j = id
        · rw [hj]; exact hb
        · exact a3 j (by omega) hj2
    · simp only [hlt, if_false]
      exact ⟨le_refl _, h1, fun j a b => by omega, fun h => False.elim h⟩

/-! ## The loop of `size` -/

theorem size_loop_spec (s : State) (p L : Nat) (hL : L < s.nsizes)
    (hset : split_bit s (L + 1) (blk_index s (L + 1) p) = true) :
    ∀ (fuel k : Nat), k ≤ L → L - k < fuel →
      (∀ j, k ≤ j → j < L → split_bit s (j + 1) (blk_index s (j + 1) p) = false) →
      size_loop s p fuel k = L := by
  intro fuel
  induction fuel with
  | zero => intro k h1 h2; omega
  | succ fuel ih =>
    intro k h1 h2 hclear
    simp only [size_loop]
    have hk : k < s.nsizes := by omega
    simp only [hk, if_true]
    by_cases hkL : k = L
    · subst hkL
      simp [hset]
    · have := hclear k (le_refl _) (by omega)
      simp only [this, Bool.false_eq_true, if_false]
      exact ih (k + 1) (by omega) (by omega) (fun j a b => hclear j (by omega) b)

/-! ## The loop of `get_level` -/

theorem get_level_loop_spec (n : Nat) (hn : n ≤ 2 ^ 63) : ∀ (fuel k : Nat),
    k ≤ 59 → 60 - k ≤ fuel → (∀ j, j < k → 16 * 2 ^ j < n) →
    ∃ r, get_level_loop fuel k (16 * 2 ^ k) n = some r ∧ r ≤ 59 ∧ n ≤ 16 * 2 ^ r ∧
      ∀ j, j < r → 16 * 2 ^ j < n := by
  intro fuel
  induction fuel with
  | zero => intro k h1 h2; omega
  | succ fuel ih =>
    intro k h1 h2 hlow
    simp only [get_level_loop]
    by_cases hlt : 16 * 2 ^ k < n
    · simp only [hlt, if_true]
      have hk : k < 59 := by
        by_contra hge
        have h59 : k = 59 := by omega
        subst h59
        norm_num at hlt
        omega
      have hpow : 16 * 2 ^ k * 2 % 2 ^ 64 = 16 * 2 ^ (k + 1) := by
        have h1 : 16 * 2 ^ k * 2 = 16 * 2 ^ (k + 1) := by rw [Nat.pow_succ]; ring
        rw [h1]
        apply Nat.mod_eq_of_lt
        have : (2:Nat) ^ (k + 1) ≤ 2 ^ 59 := Nat.pow_le_pow_right (by decide) (by omega)
        norm_num at this ⊢
        omega
      rw [hpow]
      apply ih (k + 1) (by omega) (by omega)
      intro j hj
      by_cases hjk : j = k
      · rw [hjk]; exact hlt
      · exact hlow j (by omega)
    · simp only [hlt, if_false]
      exact ⟨k, rfl, h1, by omega, hlow⟩

theorem get_level_spec (n : Nat) (hn : n ≤ 2 ^ 63) :
    ∃ r, get_level n = some r ∧ r ≤ 59 ∧ n ≤ 16 * 2 ^ r ∧ ∀ j, j < r → 16 * 2 ^ j < n := by
  have := get_level_loop_spec n hn 64 0 (by omega) (by omega) (fun j hj => by omega)
  simpa [get_level, LEAF_SIZE] using this

/-! ## Characterisation of `bd_malloc` -/

theorem busy_at_false (s : State) (L id : Nat) : busy_at s L id = false ↔ Free s L id := by
  unfold busy_at Free
  by_cases h : L = 0
  · simp [h]
  · simp [h]

theorem busy_at_true (s : State) (L id : Nat) : busy_at s L id = true ↔ ¬ Free s L id := by
  rw [← busy_at_false]; simp

theorem bd_malloc_unfold (s : State) (nbytes L : Nat) (hL : get_level nbytes = some L)
    (hlt : L < s.nsizes) :
    bd_malloc s nbytes =
      (if scan (busy_at s L) (NBLK s L) (NBLK s L) 0 = NBLK s L then some (0, s)
       else
        match set_blocks_above_as_split s.nsizes
          (set_blocks_below_as_allocated
            (set_alloc s L (scan (busy_at s L) (NBLK s L) (NBLK s L) 0)) L
            (addr s L (scan (busy_at s L) (NBLK s L) (NBLK s L) 0))) L
          (addr s L (scan (busy_at s L) (NBLK s L) (NBLK s L) 0)) with
        | none => none
        | some s3 => some (addr s L (scan (busy_at s L) (NBLK s L) (NBLK s L) 0), s3)) := by
  unfold bd_malloc
  simp only [hL]
  have h1 : ¬ (L ≥ s.nsizes) := by omega
  simp only [h1, if_false]
  unfold busy_at
  by_cases h0 : L = 0
  · simp only [h0, if_true]
    try rfl
  · simp only [h0, if_false]
    try rfl

theorem bd_malloc_cases (s : State) (nbytes L : Nat) (hL : get_level nbytes = some L) :
    (bd_malloc s nbytes = some (0, s) ∧
        (s.nsizes ≤ L ∨ ∀ id, id < NBLK s L → ¬ Free s L id)) ∨
      (L < s.nsizes ∧ ∃ id r, id < NBLK s L ∧ Free s L id ∧ (∀ j, j < id → ¬ Free s L j) ∧
        bd_malloc s nbytes = some (addr s L id, r) ∧ MallocPost s L id r) := by
  by_cases hlt : L < s.nsizes
  · rw [bd_malloc_unfold s nbytes L hL hlt]
    obtain ⟨-, a2, a3, a4⟩ := scan_spec (busy_at s L) (NBLK s L) (NBLK s L) 0 (Nat.zero_le _)
      (by omega)
    generalize scan (busy_at s L) (NBLK s L) (NBLK s L) 0 = id at a2 a3 a4
    by_cases hid : id = NBLK s L
    · left
      simp only [hid, if_true, true_and]
      right
      intro j hj
      rw [← busy_at_true]
      exact a3 j (Nat.zero_le _) (by omega)
    · right
      simp only [hid, if_false]
      have hidlt : id < NBLK s L := by omega
      obtain ⟨fb, spb, alb⟩ := set_blocks_below_spec L (set_alloc s L id) (addr s L id)
      have f1 : SameFrame (set_alloc s L id) s := sameFrame_set_alloc _ _ _
      have fb1 := fb.trans_ f1
      obtain ⟨r, hr, fr, al, sp⟩ := set_blocks_above_spec s.nsizes
        (set_blocks_below_as_allocated (set_alloc s L id) L (addr s L id)) L (addr s L id)
        (by rw [fb1.maxentry]; unfold MAXENTRY; omega)
        (by rw [fb1.maxentry]; unfold MAXENTRY; omega)
      rw [hr]
      refine ⟨hlt, id, r, hidlt, (busy_at_false _ _ _).1 (a4 hidlt),
        fun j hj => (busy_at_true _ _ _).1 (a3 j (Nat.zero_le _) hj), rfl, fr.trans_ fb1, ?_, ?_⟩
      · intro k i
        rw [al, alb, f1.blk_index, blk_index_addr, alloc_bit_set_alloc]
        tauto
      · intro k i
        rw [sp, fb1.blk_index, blk_index_addr, fb1.maxentry, spb, split_bit_set_alloc]
  · left
    refine ⟨?_, Or.inl (by omega)⟩
    unfold bd_malloc
    simp only [hL]
    have h1 : L ≥ s.nsizes := by omega
    simp only [h1, if_true]

theorem bd_malloc_spec (s : State) (nbytes : Nat) (hn : nbytes ≤ 2 ^ 63) :
    ∃ L, get_level nbytes = some L ∧ L ≤ 59 ∧ nbytes ≤ BLK_SIZE L ∧
      (∀ j, j < L → BLK_SIZE j < nbytes) ∧
      ((bd_malloc s nbytes = some (0, s) ∧
          (s.nsizes ≤ L ∨ ∀ id, id < NBLK s L → ¬ Free s L id)) ∨
        (L < s.nsizes ∧ ∃ id r, id < NBLK s L ∧ Free s L id ∧ (∀ j, j < id → ¬ Free s L j) ∧
          bd_malloc s nbytes = some (addr s L id, r) ∧ MallocPost s L id r)) := by
  obtain ⟨L, hL, h59, hle, hleast⟩ := get_level_spec nbytes hn
  exact ⟨L, hL, h59, by rw [BLK_SIZE_eq]; exact hle,
    fun j hj => by rw [BLK_SIZE_eq]; exact hleast j hj, bd_malloc_cases s nbytes L hL⟩

theorem bd_malloc_some_level {s s1 : State} {nbytes p : Nat}
    (h : bd_malloc s nbytes = some (p, s1)) : ∃ L, get_level nbytes = some L := by
  unfold bd_malloc at h
  cases hg : get_level nbytes with
  | none => rw [hg] at h; exact Option.noConfusion h
  | some L => exact ⟨L, rfl⟩

/-! ## The block tree -/

theorem under_iff (level c k i : Nat) :
    Under level c k i ↔ (k = level ∧ i = c) ∨ Below level c k i := by
  unfold Under Below
  constructor
  · rintro ⟨h1, h2⟩
    by_cases h : k = level
    · left
      subst h
      simpa using h2
    · exact Or.inr ⟨by omega, h2⟩
  · rintro (⟨h1, h2⟩ | ⟨h1, h2⟩)
    · subst h1; subst h2
      simp
    · exact ⟨by omega, h2⟩

theorem under_refl (k i : Nat) : Under k i k i := (under_iff _ _ _ _).2 (Or.inl ⟨rfl, rfl⟩)

theorem below_iff (level c k i : Nat) : Below level c k i ↔ Under level c k i ∧ k < level := by
  unfold Under Below
  constructor
  · rintro ⟨h1, h2⟩; exact ⟨⟨by omega, h2⟩, h1⟩
  · rintro ⟨⟨_, h2⟩, h1⟩; exact ⟨h1, h2⟩

theorem above_iff_below (level c k i : Nat) : Above level c k i ↔ Below k i level c := by
  unfold Above Below
  constructor
  · rintro ⟨h1, h2⟩; exact ⟨h1, h2.symm⟩
  · rintro ⟨h1, h2⟩; exact ⟨h1, h2.symm⟩

theorem under_trans {a b c d e f : Nat} (h1 : Under a b c d) (h2 : Under c d e f) :
    Under a b e f := by
  unfold Under at *
  obtain ⟨h1, h3⟩ := h1
  obtain ⟨h2, h4⟩ := h2
  refine ⟨by omega, ?_⟩
  have : a - e = (c - e) + (a - c) := by omega
  rw [this, Nat.pow_add, ← Nat.div_div_eq_div_mul, h4, h3]

theorem under_comparable {a b c d j i : Nat} (h1 : Under a b j i) (h2 : Under c d j i)
    (hac : a ≤ c) : Under c d a b := by
  unfold Under at *
  obtain ⟨h1, h3⟩ := h1
  obtain ⟨h2, h4⟩ := h2
  refine ⟨hac, ?_⟩
  have : c - j = (a - j) + (c - a) := by omega
  rw [this, Nat.pow_add, ← Nat.div_div_eq_div_mul, h3] at h4
  exact h4

theorem under_succ (level c k i : Nat) :
    Under (level + 1) c k i ↔
      (k = level + 1 ∧ i = c) ∨ Under level (2 * c) k i ∨ Under level (2 * c + 1) k i := by
  rw [under_iff, below_succ, under_iff, under_iff]
  constructor
  · rintro (h | ⟨h1, h2 | h2⟩ | h | h)
    · exact Or.inl h
    · exact Or.inr (Or.inl (Or.inl ⟨h1, h2⟩))
    · exact Or.inr (Or.inr (Or.inl ⟨h1, h2⟩))
    · exact Or.inr (Or.inl (Or.inr h))
    · exact Or.inr (Or.inr (Or.inr h))
  · rintro (h | (⟨h1, h2⟩ | h) | (⟨h1, h2⟩ | h))
    · exact Or.inl h
    · exact Or.inr (Or.inl ⟨h1, Or.inl h2⟩)
    · exact Or.inr (Or.inr (Or.inl h))
    · exact Or.inr (Or.inl ⟨h1, Or.inr h2⟩)
    · exact Or.inr (Or.inr (Or.inr h))

theorem under_lt_nblk {s : State} {L id k i : Nat} (h : Under L id k i) (hL : L ≤ MAXENTRY s)
    (hid : id < NBLK s L) : i < NBLK s k := by
  obtain ⟨h1, h2⟩ := h
  rw [NBLK_eq] at *
  have e : MAXENTRY s - k = (MAXENTRY s - L) + (L - k) := by omega
  rw [e, Nat.pow_add]
  rw [← h2] at hid
  exact (Nat.div_lt_iff_lt_mul (Nat.two_pow_pos _)).1 hid

theorem addr_double (s : State) (k m : Nat) : addr s k (2 * m) = addr s (k + 1) m := by
  unfold addr
  rw [BLK_SIZE_succ]; ring

/-! ## The marked blocks and the outstanding allocations -/

theorem Marked.up {s0 : State} (hm : Marked s0) : ∀ (d L id k i : Nat), L - k = d →
    Under L id k i → L < s0.nsizes → alloc_bit s0 k i = true → alloc_bit s0 L id = true := by
  intro d
  induction d with
  | zero =>
    intro L id k i hd hu hL ha
    obtain ⟨h1, h2⟩ := hu
    have : k = L := by omega
    subst this
    simp at h2
    rw [← h2]; exact ha
  | succ d ih =>
    intro L id k i hd hu hL ha
    obtain ⟨L', rfl⟩ : ∃ L', L = L' + 1 := ⟨L - 1, by omega⟩
    rw [under_succ] at hu
    rw [hm.parent L' id hL]
    rcases hu with ⟨h, _⟩ | h | h
    · omega
    · exact Or.inl (ih L' (2 * id) k i (by omega) h (by omega) ha)
    · exact Or.inr (ih L' (2 * id + 1) k i (by omega) h (by omega) ha)

theorem Marked.up_ {s0 : State} (hm : Marked s0) {L id k i : Nat}
    (hu : Under L id k i) (hL : L < s0.nsizes) (ha : alloc_bit s0 k i = true) :
    alloc_bit s0 L id = true := hm.up (L - k) L id k i rfl hu hL ha

theorem repr_init (s0 : State) : Repr s0 s0 (fun _ _ => False) :=
  ⟨SameFrame.rfl_ s0, fun k i => by simp, fun k i => by simp⟩

theorem wf_init (s0 : State) : WF s0 (fun _ _ => False) :=
  ⟨fun _ _ h => h.elim, fun _ _ h => h.elim, fun _ _ _ _ h => h.elim⟩

theorem malloc_repr {s0 s r : State} {O : Nat → Nat → Prop} {L id : Nat}
    (hr : Repr s0 s O) (hw : WF s0 O) (hL : L < s.nsizes) (hid : id < NBLK s L)
    (hfree : Free s L id) (hpost : MallocPost s L id r) :
    Repr s0 r (fun L' id' => O L' id' ∨ (L' = L ∧ id' = id)) ∧
    WF s0 (fun L' id' => O L' id' ∨ (L' = L ∧ id' = id)) ∧ ¬ O L id := by
  obtain ⟨pf, pa, ps⟩ := hpost
  have hnotO : ∀ L' id', O L' id' → ¬ Under L' id' L id := by
    intro L' id' ho hu
    have := (hr.alloc L id).2 (Or.inr ⟨L', id', ho, hu⟩)
    rw [hfree.1] at this
    exact Bool.noConfusion this
  have hnotbelow : ∀ L' id', O L' id' → ¬ Under L id L' id' := by
    intro L' id' ho hu
    rcases (under_iff _ _ _ _).1 hu with ⟨h1, h2⟩ | hb
    · subst h1; subst h2
      exact hnotO _ _ ho (under_refl _ _)
    · have hL0 : L ≠ 0 := by
        have := hb.1; omega
      have hmax : L ≤ MAXENTRY s0 := by
        rw [← hr.frame.maxentry]; unfold MAXENTRY; omega
      have := (hr.split L id).2 (Or.inr ⟨L', id', ho, (above_iff_below _ _ _ _).2 hb, hmax⟩)
      rw [hfree.2 hL0] at this
      exact Bool.noConfusion this
  refine ⟨⟨pf.trans_ hr.frame, fun k i => ?_, fun k i => ?_⟩, ⟨?_, ?_, ?_⟩, ?_⟩
  · rw [pa, hr.alloc, ← or_assoc, ← under_iff]
    constructor
    · rintro (h | h | ⟨L', id', ho, hu⟩)
      · exact Or.inr ⟨L, id, Or.inr ⟨rfl, rfl⟩, h⟩
      · exact Or.inl h
      · exact Or.inr ⟨L', id', Or.inl ho, hu⟩
    · rintro (h | ⟨L', id', ho | ⟨h1, h2⟩, hu⟩)
      · exact Or.inr (Or.inl h)
      · exact Or.inr (Or.inr ⟨L', id', ho, hu⟩)
      · subst h1; subst h2
        exact Or.inl hu
  · rw [ps, hr.split, hr.frame.maxentry]
    constructor
    · rintro (h | h | ⟨L', id', ho, hu⟩)
      · exact Or.inr ⟨L, id, Or.inr ⟨rfl, rfl⟩, h⟩
      · exact Or.inl h
      · exact Or.inr ⟨L', id', Or.inl ho, hu⟩
    · rintro (h | ⟨L', id', ho | ⟨h1, h2⟩, hu⟩)
      · exact Or.inr (Or.inl h)
      · exact Or.inr (Or.inr ⟨L', id', ho, hu⟩)
      · subst h1; subst h2
        exact Or.inl hu
  · rintro L' id' (ho | ⟨h1, h2⟩)
    · exact hw.bound _ _ ho
    · subst h1; subst h2
      rw [← hr.frame.1, ← hr.frame.nblk]
      exact ⟨hL, hid⟩
  · rintro L' id' (ho | ⟨h1, h2⟩)
    · exact hw.unmarked _ _ ho
    · subst h1; subst h2
      cases h : alloc_bit s0 L' id'
      · rfl
      · have := (hr.alloc L' id').2 (Or.inl h)
        rw [hfree.1] at this
        exact Bool.noConfusion this
  · rintro L1 id1 L2 id2 (ho1 | ⟨h1, h2⟩) (ho2 | ⟨h3, h4⟩) hu
    · exact hw.antichain _ _ _ _ ho1 ho2 hu
    · subst h3; subst h4
      exact absurd hu (hnotbelow _ _ ho1)
    · subst h1; subst h2
      exact absurd hu (hnotO _ _ ho2)
    · exact ⟨h1.trans h3.symm, h2.trans h4.symm⟩
  · intro ho
    exact hnotO _ _ ho (under_refl _ _)

/-! ## The merge loop of `bd_free` -/

theorem buddy_ne (c : Nat) : buddy_of c ≠ c := by
  unfold buddy_of; split <;> omega

theorem buddy_half (c : Nat) : buddy_of c / 2 = c / 2 := by
  unfold buddy_of; split <;> omega

theorem children_half (c x : Nat) :
    (x = 2 * (c / 2) ∨ x = 2 * (c / 2) + 1) ↔ (x = c ∨ x = buddy_of c) := by
  unfold buddy_of; split <;> omega

theorem under_parent (k c j i : Nat) :
    Under (k + 1) (c / 2) j i ↔
      (j = k + 1 ∧ i = c / 2) ∨ Under k c j i ∨ Under k (buddy_of c) j i := by
  rw [under_succ]
  by_cases h : c % 2 = 0
  · have e1 : 2 * (c / 2) = c := by omega
    have e2 : buddy_of c = c + 1 := by unfold buddy_of; simp [h]
    rw [e1, e2]
  · have e1 : 2 * (c / 2) + 1 = c := by omega
    have e2 : 2 * (c / 2) = buddy_of c := by unfold buddy_of; simp [h]; omega
    rw [e1, e2]
    tauto

theorem under_parent_of {k c L id : Nat} (h : Under k c L id) : Under (k + 1) (c / 2) L id :=
  (under_parent k c L id).2 (Or.inr (Or.inl h))

section
variable {s0 : State} {O : Nat → Nat → Prop} {L id : Nat}

theorem not_under_of_wf (hw : WF s0 O) (hO : O L id) {k c : Nat} (hc : Under k c L id)
    {L' id' : Nat} (ho : Without O L id L' id') : ¬ Under L' id' k c := by
  intro hu
  have := hw.antichain L id L' id' hO ho.1 (under_trans hu hc)
  exact ho.2 ⟨this.1.symm, this.2.symm⟩

theorem freeInv_start {s : State} (hr : Repr s0 s O) (hw : WF s0 O) (hO : O L id) :
    FreeInv s0 O L id s L id := by
  have hsplit : ∀ (P : Nat → Nat → Prop), (∃ L' id', O L' id' ∧ P L' id') ↔
      ((∃ L' id', Without O L id L' id' ∧ P L' id') ∨ P L id) := by
    intro P
    constructor
    · rintro ⟨L', id', ho, hp⟩
      by_cases h : L' = L ∧ id' = id
      · obtain ⟨h1, h2⟩ := h
        subst h1; subst h2
        exact Or.inr hp
      · exact Or.inl ⟨L', id', ⟨ho, h⟩, hp⟩
    · rintro (⟨L', id', ho, hp⟩ | hp)
      · exact ⟨L', id', ho.1, hp⟩
      · exact ⟨L, id, hO, hp⟩
  refine ⟨hr.frame, under_refl _ _, fun j i hne => ?_, fun j i => ?_, ?_, hw.unmarked _ _ hO⟩
  · rw [hr.alloc, hsplit (fun L' id' => Under L' id' j i), under_iff]
    constructor
    · rintro (h | h | h | h)
      · exact Or.inl h
      · exact Or.inr (Or.inl h)
      · exact absurd h hne
      · exact Or.inr (Or.inr h)
    · rintro (h | h | h)
      · exact Or.inl h
      · exact Or.inr (Or.inl h)
      · exact Or.inr (Or.inr (Or.inr h))
  · rw [hr.split, hsplit (fun L' id' => Above L' id' j i ∧ j ≤ MAXENTRY s0)]
    constructor
    · rintro (h | h | ⟨h1, h2⟩)
      · exact Or.inl h
      · exact Or.inr (Or.inl h)
      · exact Or.inr (Or.inr ⟨h1, h1.1, h2⟩)
    · rintro (h | h | ⟨h1, _, h2⟩)
      · exact Or.inl h
      · exact Or.inr (Or.inl h)
      · exact Or.inr (Or.inr ⟨h1, h2⟩)
  · intro L' id' ho hu
    have := hw.antichain L' id' L id ho.1 hO hu
    exact ho.2 this

theorem anc_lt_nblk {s : State} {k c L id : Nat} (h : Under k c L id) (hk : k ≤ MAXENTRY s)
    (hid : id < NBLK s L) : c < NBLK s k := by
  obtain ⟨h1, h2⟩ := h
  rw [NBLK_eq] at *
  rw [← h2]
  apply Nat.div_lt_of_lt_mul
  rw [← Nat.pow_add]
  have : k - L + (MAXENTRY s - k) = MAXENTRY s - L := by omega
  rw [this]
  exact hid

theorem freeInv_lt_max {s : State} {k c : Nat} (hm : Marked s0) (hw : WF s0 O) (hO : O L id)
    (hi : FreeInv s0 O L id s k c) (hk : k ≤ MAXENTRY s0) : k < MAXENTRY s0 := by
  by_contra hge
  have hk' : k = MAXENTRY s0 := by omega
  have hc : c < NBLK s0 k := anc_lt_nblk hi.cur hk (hw.bound L id hO).2
  rw [NBLK_eq, hk', Nat.sub_self, pow_zero] at hc
  have hc0 : c = 0 := by omega
  have := hm.first k (by rw [hk']; unfold MAXENTRY; have := hm.nsizes_pos; omega)
  rw [← hc0, hi.unmarked] at this
  exact Bool.noConfusion this

theorem under_buddy {j i k c : Nat} (hkj : k < j) :
    Under j i k c ↔ Under j i k (buddy_of c) := by
  unfold Under
  have e : j - k = (j - k - 1) + 1 := by omega
  rw [e, Nat.pow_succ, Nat.mul_comm, ← Nat.div_div_eq_div_mul, ← Nat.div_div_eq_div_mul,
    buddy_half]

theorem bool_ne_true {b : Bool} (h : ¬ b = true) : b = false := by
  cases b
  · rfl
  · exact absurd rfl h

theorem free_stop {s : State} {k c : Nat} (hm : Marked s0) (hw : WF s0 O) (hO : O L id)
    (hi : FreeInv s0 O L id s k c) (hk : k < MAXENTRY s0)
    (hstop : alloc_bit (unset_alloc s k c) k (buddy_of c) = true ∨
      (k ≠ 0 ∧ split_bit (unset_alloc s k c) k (buddy_of c) = true)) :
    Repr s0 (unset_blocks_below_as_allocated (unset_alloc s k c) k (addr s0 k c))
      (Without O L id) := by
  have f1 : SameFrame (unset_alloc s k c) s0 := (sameFrame_unset_alloc _ _ _).trans_ hi.frame
  obtain ⟨fb, spb, alb⟩ := unset_blocks_below_spec k (unset_alloc s k c) (addr s0 k c)
  rw [f1.blk_index, blk_index_addr] at alb
  have hkn : k < s0.nsizes := by unfold MAXENTRY at hk; omega
  have hLk : L ≤ k := hi.cur.1
  -- a marked or outstanding buddy marks every block above the current one
  have hbud : alloc_bit s0 k (buddy_of c) = true ∨
      (∃ L' id', Without O L id L' id' ∧ Under k (buddy_of c) L' id') := by
    rcases hstop with h | ⟨hk0, h⟩
    · rw [alloc_bit_unset_alloc] at h
      rcases (hi.alloc k (buddy_of c) (fun e => buddy_ne c e.2)).1 h.2 with h | h | h
      · exact Or.inl h
      · obtain ⟨L', id', ho, hu⟩ := h
        by_cases hL' : L' = k
        · subst hL'
          have e : buddy_of c = id' := by simpa using hu.2
          rw [e]
          exact Or.inr ⟨L', id', ho, under_refl _ _⟩
        · have hlt : k < L' := by have := hu.1; omega
          exact absurd ((under_buddy hlt).2 hu) (not_under_of_wf hw hO hi.cur ho)
      · have := h.1; omega
    · rw [split_bit_unset_alloc] at h
      rcases (hi.split k (buddy_of c)).1 h with h | h | h
      · rw [hm.split_eq k _ (by omega) hkn] at h
        exact Or.inl h
      · obtain ⟨L', id', ho, ha, _⟩ := h
        exact Or.inr ⟨L', id', ho, ((below_iff _ _ _ _).1 ((above_iff_below _ _ _ _).1 ha)).1⟩
      · omega
  refine ⟨fb.trans_ f1, fun j i => ?_, fun j i => ?_⟩
  · rw [alb, alloc_bit_unset_alloc]
    constructor
    · rintro ⟨hnb, hne, ha⟩
      rcases (hi.alloc j i hne).1 ha with h | h | h
      · exact Or.inl h
      · exact Or.inr h
      · exfalso
        apply hnb
        have h' := (below_iff _ _ _ _).1 h
        exact (below_iff _ _ _ _).2 ⟨under_trans hi.cur h'.1, by omega⟩
    · intro h
      have hnu : ¬ Under k c j i := by
        intro hu
        rcases h with h | ⟨L', id', ho, hu'⟩
        · have := hm.up_ hu hkn h
          rw [hi.unmarked] at this
          exact Bool.noConfusion this
        · by_cases hle : L' ≤ k
          · exact hi.clean _ _ ho (under_comparable hu' hu hle)
          · exact not_under_of_wf hw hO hi.cur ho (under_comparable hu hu' (by omega))
      rw [under_iff] at hnu
      have hne : ¬ (j = k ∧ i = c) := fun e => hnu (Or.inl e)
      refine ⟨fun e => hnu (Or.inr e), hne, (hi.alloc j i hne).2 ?_⟩
      rcases h with h | h
      · exact Or.inl h
      · exact Or.inr (Or.inl h)
  · rw [spb, split_bit_unset_alloc, hi.split]
    constructor
    · rintro (h | h | ⟨ha, hkj, hjm⟩)
      · exact Or.inl h
      · exact Or.inr h
      · have hjn : j < s0.nsizes := by unfold MAXENTRY at hjm; omega
        have hu1 : Under j i L id := ((below_iff _ _ _ _).1 ((above_iff_below _ _ _ _).1 ha)).1
        have hu2 : Under j i k c := under_comparable hi.cur hu1 (by omega)
        have hu3 : Under j i k (buddy_of c) := (under_buddy hkj).1 hu2
        rcases hbud with h | ⟨L', id', ho, hu⟩
        · left
          rw [hm.split_eq j i (by omega) hjn]
          exact hm.up_ hu3 hjn h
        · right
          refine ⟨L', id', ho, (above_iff_below _ _ _ _).2 ((below_iff _ _ _ _).2
            ⟨under_trans hu3 hu, ?_⟩), hjm⟩
          have := hu.1; omega
    · rintro (h | h)
      · exact Or.inl h
      · exact Or.inr (Or.inl h)

theorem free_continue {s : State} {k c : Nat} (hm : Marked s0) (hw : WF s0 O) (hO : O L id)
    (hi : FreeInv s0 O L id s k c) (hk : k < MAXENTRY s0)
    (ha : alloc_bit (unset_alloc s k c) k (buddy_of c) = false)
    (hs : k ≠ 0 → split_bit (unset_alloc s k c) k (buddy_of c) = false) :
    FreeInv s0 O L id (unset_split (unset_alloc s k c) (k + 1) (c / 2)) (k + 1) (c / 2) := by
  have f1 : SameFrame (unset_alloc s k c) s0 := (sameFrame_unset_alloc _ _ _).trans_ hi.frame
  have hkn : k + 1 < s0.nsizes := by unfold MAXENTRY at hk; omega
  have hLk : L ≤ k := hi.cur.1
  -- the buddy is neither marked nor touched by an outstanding allocation
  have hb0 : alloc_bit s0 k (buddy_of c) = false := by
    apply bool_ne_true
    intro h
    have := (alloc_bit_unset_alloc s k c k (buddy_of c)).2
      ⟨fun e => buddy_ne c e.2, (hi.alloc k _ (fun e => buddy_ne c e.2)).2 (Or.inl h)⟩
    rw [ha] at this
    exact Bool.noConfusion this
  have hbclean : ∀ L' id', Without O L id L' id' → ¬ Under k (buddy_of c) L' id' := by
    intro L' id' ho hu
    rcases (under_iff _ _ _ _).1 hu with ⟨h1, h2⟩ | hb
    · subst h1; subst h2
      have := (alloc_bit_unset_alloc s L' c L' (buddy_of c)).2
        ⟨fun e => buddy_ne c e.2, (hi.alloc L' _ (fun e => buddy_ne c e.2)).2
          (Or.inr (Or.inl ⟨L', buddy_of c, ho, under_refl _ _⟩))⟩
      rw [ha] at this
      exact Bool.noConfusion this
    · have hk0 : k ≠ 0 := by have := hb.1; omega
      have := (hi.split k (buddy_of c)).2
        (Or.inr (Or.inl ⟨L', id', ho, (above_iff_below _ _ _ _).2 hb, by omega⟩))
      rw [← split_bit_unset_alloc s k c, hs hk0] at this
      exact Bool.noConfusion this
  have hpclean : ∀ L' id', Without O L id L' id' → ¬ Under (k + 1) (c / 2) L' id' := by
    intro L' id' ho hu
    rcases (under_parent _ _ _ _).1 hu with ⟨h1, h2⟩ | h | h
    · subst h1; subst h2
      exact not_under_of_wf hw hO (under_parent_of hi.cur) ho (under_refl _ _)
    · exact hi.clean _ _ ho h
    · exact hbclean _ _ ho h
  have hp0 : alloc_bit s0 (k + 1) (c / 2) = false := by
    apply bool_ne_true
    intro h
    rw [hm.parent k _ hkn] at h
    have e := children_half c
    rcases h with h | h
    · rcases (e _).1 (Or.inl rfl) with e1 | e1
      · rw [e1, hi.unmarked] at h; exact Bool.noConfusion h
      · rw [e1, hb0] at h; exact Bool.noConfusion h
    · rcases (e _).1 (Or.inr rfl) with e1 | e1
      · rw [e1, hi.unmarked] at h; exact Bool.noConfusion h
      · rw [e1, hb0] at h; exact Bool.noConfusion h
  refine ⟨(sameFrame_unset_split _ _ _).trans_ f1, under_parent_of hi.cur, fun j i hne => ?_,
    fun j i => ?_, hpclean, hp0⟩
  · rw [alloc_bit_unset_split, alloc_bit_unset_alloc]
    by_cases hcur : j = k ∧ i = c
    · obtain ⟨h1, h2⟩ := hcur
      subst h1; subst h2
      constructor
      · rintro ⟨h, _⟩; exact absurd ⟨rfl, rfl⟩ h
      · rintro (h | ⟨L', id', ho, hu⟩ | h)
        · rw [hi.unmarked] at h; exact Bool.noConfusion h
        · exact absurd hu (not_under_of_wf hw hO hi.cur ho)
        · have := h.1; omega
    · rw [hi.alloc j i hcur]
      constructor
      · rintro ⟨_, h⟩; exact h
      · intro h; exact ⟨hcur, h⟩
  · rw [split_bit_unset_split, split_bit_unset_alloc, hi.split]
    by_cases hpar : j = k + 1 ∧ i = c / 2
    · obtain ⟨h1, h2⟩ := hpar
      subst h1; subst h2
      constructor
      · rintro ⟨h, _⟩; exact absurd ⟨rfl, rfl⟩ h
      · rintro (h | ⟨L', id', ho, hab, _⟩ | ⟨_, h, _⟩)
        · rw [hm.split_eq _ _ (by omega) hkn, hp0] at h; exact Bool.noConfusion h
        · exact absurd ((below_iff _ _ _ _).1 ((above_iff_below _ _ _ _).1 hab)).1
            (hpclean _ _ ho)
        · omega
    · constructor
      · rintro ⟨_, h | h | ⟨hab, h1, h2⟩⟩
        · exact Or.inl h
        · exact Or.inr (Or.inl h)
        · refine Or.inr (Or.inr ⟨hab, ?_, h2⟩)
          by_contra hnot
          have hj : j = k + 1 := by omega
          apply hpar
          refine ⟨hj, ?_⟩
          have hu1 : Under j i L id :=
            ((below_iff _ _ _ _).1 ((above_iff_below _ _ _ _).1 hab)).1
          have hu2 := under_comparable (under_parent_of hi.cur) hu1 (by omega)
          subst hj
          have := hu2.2
          simpa using this.symm
      · rintro (h | h | ⟨hab, h1, h2⟩)
        · exact ⟨hpar, Or.inl h⟩
        · exact ⟨hpar, Or.inr (Or.inl h)⟩
        · exact ⟨hpar, Or.inr (Or.inr ⟨hab, by omega, h2⟩)⟩

end

section
variable {s0 : State} {O : Nat → Nat → Prop} {L id : Nat}

theorem buddy_busy_true {s1 : State} {k b : Nat} (h : buddy_busy s1 k b = true) :
    alloc_bit s1 k b = true ∨ (k ≠ 0 ∧ split_bit s1 k b = true) := by
  unfold buddy_busy at h
  by_cases hk0 : k = 0
  · simp only [hk0, if_true] at h
    left; rw [hk0]; exact h
  · simp only [hk0, if_false, Bool.or_eq_true] at h
    rcases h with h | h
    · exact Or.inl h
    · exact Or.inr ⟨hk0, h⟩

theorem buddy_busy_false {s1 : State} {k b : Nat} (h : ¬ buddy_busy s1 k b = true) :
    alloc_bit s1 k b = false ∧ (k ≠ 0 → split_bit s1 k b = false) := by
  unfold buddy_busy at h
  by_cases hk0 : k = 0
  · simp only [hk0, if_true] at h
    refine ⟨by rw [hk0]; exact bool_ne_true h, fun h' => absurd hk0 h'⟩
  · simp only [hk0, if_false, Bool.or_eq_true, not_or] at h
    exact ⟨bool_ne_true h.1, fun _ => bool_ne_true h.2⟩

theorem bd_free_loop_succ (fuel : Nat) (s : State) (k p c : Nat) (hlt : k < MAXENTRY s)
    (hbi : blk_index s k p = c) :
    bd_free_loop (fuel + 1) s k p =
      if buddy_busy (unset_alloc s k c) k (buddy_of c) = true then (unset_alloc s k c, k, p)
      else bd_free_loop fuel
        (unset_split (unset_alloc s k c) (k + 1)
          (blk_index (unset_alloc s k c) (k + 1)
            (if buddy_of c % 2 = 0 then addr (unset_alloc s k c) k (buddy_of c) else p)))
        (k + 1) (if buddy_of c % 2 = 0 then addr (unset_alloc s k c) k (buddy_of c) else p) := by
  simp only [bd_free_loop, hlt, if_true, hbi]
  rfl

theorem bd_free_loop_spec (hm : Marked s0) (hw : WF s0 O) (hO : O L id) :
    ∀ (fuel : Nat) (s : State) (k c : Nat), FreeInv s0 O L id s k c → k ≤ MAXENTRY s0 →
      MAXENTRY s0 - k ≤ fuel →
      Repr s0 (unset_blocks_below_as_allocated (bd_free_loop fuel s k (addr s0 k c)).1
        (bd_free_loop fuel s k (addr s0 k c)).2.1 (bd_free_loop fuel s k (addr s0 k c)).2.2)
        (Without O L id) := by
  intro fuel
  induction fuel with
  | zero =>
    intro s k c hi hk hf
    have := freeInv_lt_max hm hw hO hi hk
    omega
  | succ fuel ih =>
    intro s k c hi hk hf
    have hlt := freeInv_lt_max hm hw hO hi hk
    have hlt' : k < MAXENTRY s := by rw [hi.frame.maxentry]; exact hlt
    have f1 : SameFrame (unset_alloc s k c) s0 := (sameFrame_unset_alloc _ _ _).trans_ hi.frame
    have hbi : blk_index s k (addr s0 k c) = c := by rw [hi.frame.blk_index, blk_index_addr]
    have hp1 : (if buddy_of c % 2 = 0 then addr (unset_alloc s k c) k (buddy_of c)
        else addr s0 k c) = addr s0 (k + 1) (c / 2) := by
      rw [f1.addr, ← addr_double]
      unfold buddy_of
      by_cases h : c % 2 = 0
      · have h2 : ¬ ((c + 1) % 2 = 0) := by omega
        simp only [h, if_true, h2, if_false]
        congr 1; omega
      · have h2 : (c - 1) % 2 = 0 := by omega
        simp only [h, if_false, h2, if_true]
        congr 1; omega
    rw [bd_free_loop_succ fuel s k _ c hlt' hbi, hp1, f1.blk_index, blk_index_addr]
    by_cases hstop : buddy_busy (unset_alloc s k c) k (buddy_of c) = true
    · rw [if_pos hstop]
      exact free_stop hm hw hO hi hlt (buddy_busy_true hstop)
    · rw [if_neg hstop]
      apply ih _ _ _ _ (by omega) (by omega)
      exact free_continue hm hw hO hi hlt (buddy_busy_false hstop).1 (buddy_busy_false hstop).2

theorem blk_index_addr_parent (s : State) (k i : Nat) :
    blk_index s (k + 1) (addr s k i) = i / 2 := by
  unfold blk_index addr
  rw [Nat.add_sub_cancel_left, BLK_SIZE_succ, Nat.mul_comm 2, ← Nat.div_div_eq_div_mul,
    Nat.mul_div_cancel _ (BLK_SIZE_pos k)]

theorem blk_index_addr_under (s : State) (L id j : Nat) (hj : j ≤ L) :
    Under L id j (blk_index s j (addr s L id)) := by
  refine ⟨hj, ?_⟩
  unfold blk_index addr
  rw [Nat.add_sub_cancel_left, BLK_SIZE_eq, BLK_SIZE_eq]
  have e : L = j + (L - j) := by omega
  have h : id * (16 * 2 ^ L) = id * 2 ^ (L - j) * (16 * 2 ^ j) := by
    conv_lhs => rw [e, Nat.pow_add]
    ring
  rw [h, Nat.mul_div_cancel _ (by have := Nat.two_pow_pos j; omega),
    Nat.mul_div_cancel _ (Nat.two_pow_pos _)]

theorem size_of_outstanding {s : State} (hm : Marked s0) (hr : Repr s0 s O) (hw : WF s0 O)
    (hO : O L id) : size s (addr s0 L id) = L := by
  have hlt : L < MAXENTRY s0 :=
    freeInv_lt_max hm hw hO (freeInv_start hr hw hO)
      (by have := (hw.bound L id hO).1; unfold MAXENTRY; omega)
  have hn : s.nsizes = s0.nsizes := hr.frame.1
  unfold size
  apply size_loop_spec s _ L (by rw [hn]; unfold MAXENTRY at hlt; omega) _ _ _ (Nat.zero_le _)
    (by rw [hn]; unfold MAXENTRY at hlt; omega)
  · intro j _ hjL
    apply bool_ne_true
    intro h
    have hu : Under L id (j + 1) (blk_index s (j + 1) (addr s0 L id)) := by
      rw [← hr.frame.addr]
      exact blk_index_addr_under s L id (j + 1) (by omega)
    rcases (hr.split _ _).1 h with h | ⟨L', id', ho, hab, _⟩
    · rw [hm.split_eq _ _ (by omega) (by unfold MAXENTRY at hlt; omega)] at h
      have := hm.up_ hu (by unfold MAXENTRY at hlt; omega) h
      rw [hw.unmarked L id hO] at this
      exact Bool.noConfusion this
    · have hb := (above_iff_below _ _ _ _).1 hab
      have hu' := under_trans hu ((below_iff _ _ _ _).1 hb).1
      have := hw.antichain L' id' L id ho hO hu'
      have := hb.1
      omega
  · rw [← hr.frame.addr, blk_index_addr_parent]
    apply (hr.split _ _).2
    right
    refine ⟨L, id, hO, ⟨by omega, ?_⟩, by omega⟩
    simp

theorem addr_outstanding (hm : Marked s0) (hw : WF s0 O) (hO : O L id) :
    addr s0 L id ≠ 0 ∧ addr s0 L id % LEAF_SIZE = 0 := by
  have hid : id ≠ 0 := by
    intro h
    have := hm.first L (hw.bound L id hO).1
    rw [← h, hw.unmarked L id hO] at this
    exact Bool.noConfusion this
  have hpos := BLK_SIZE_pos L
  unfold addr LEAF_SIZE
  constructor
  · have : 1 * BLK_SIZE L ≤ id * BLK_SIZE L := Nat.mul_le_mul_right _ (by omega)
    omega
  · have := hm.aligned
    rw [BLK_SIZE_eq]
    have e : id * (16 * 2 ^ L) = 16 * (id * 2 ^ L) := by ring
    rw [e]
    omega

theorem wf_without (hw : WF s0 O) : WF s0 (Without O L id) :=
  ⟨fun _ _ h => hw.bound _ _ h.1, fun _ _ h => hw.unmarked _ _ h.1,
    fun _ _ _ _ h1 h2 hu => hw.antichain _ _ _ _ h1.1 h2.1 hu⟩

theorem free_repr {s : State} (hm : Marked s0) (hr : Repr s0 s O) (hw : WF s0 O)
    (hO : O L id) :
    ∃ r, bd_free s (addr s0 L id) = Except.ok r ∧ Repr s0 r (Without O L id) ∧
      WF s0 (Without O L id) := by
  obtain ⟨hp0, hpa⟩ := addr_outstanding hm hw hO
  have hsz := size_of_outstanding hm hr hw hO
  unfold bd_free
  simp only [hp0, if_false, hpa, ne_eq, not_true_eq_false, hsz]
  refine ⟨_, rfl, ?_, wf_without hw⟩
  rw [hr.frame.maxentry]
  exact bd_free_loop_spec hm hw hO _ s L id (freeInv_start hr hw hO)
    (by have := (hw.bound L id hO).1; unfold MAXENTRY; omega) (le_refl _)

end

/-! ## Arithmetic of `bd_init` -/

theorem ROUNDUP_spec (x sz : Nat) (hsz : 0 < sz) (hx1 : 1 ≤ x) (hx2 : x + sz ≤ 2 ^ 64) :
    ROUNDUP x sz % sz = 0 ∧ x ≤ ROUNDUP x sz ∧ ROUNDUP x sz < x + sz := by
  obtain ⟨m, rfl⟩ : ∃ m, x = m + 1 := ⟨x - 1, by omega⟩
  simp only [ROUNDUP]
  have hdm := Nat.div_add_mod m sz
  have hlt := Nat.mod_lt m hsz
  have e2 : (m / sz + 1) * sz = sz * (m / sz) + sz := by ring
  have hb : (m / sz + 1) * sz < 2 ^ 64 := by rw [e2]; omega
  rw [Nat.mod_eq_of_lt hb]
  refine ⟨Nat.mul_mod_left _ _, ?_, ?_⟩
  · rw [e2]; omega
  · rw [e2]; omega

theorem ROUNDUP_mod (x : Nat) : ROUNDUP x 16 % 16 = 0 := by
  cases x with
  | zero => decide
  | succ m =>
    simp only [ROUNDUP]
    omega

theorem log2_loop_spec : ∀ (fuel k n : Nat), n < 2 ^ fuel →
    k ≤ log2_loop fuel k n ∧
      (1 ≤ n → 2 ^ (log2_loop fuel k n - k) ≤ n ∧ n < 2 ^ (log2_loop fuel k n - k + 1)) := by
  intro fuel
  induction fuel with
  | zero =>
    intro k n hn
    simp only [log2_loop]
    exact ⟨le_refl _, fun h => by simp at hn; omega⟩
  | succ fuel ih =>
    intro k n hn
    simp only [log2_loop]
    by_cases h1 : n > 1
    · simp only [h1, if_true]
      have hhalf : n >>> 1 = n / 2 := by rw [Nat.shiftRight_eq_div_pow]
      rw [hhalf]
      have hn2 : n / 2 < 2 ^ fuel := by
        rw [Nat.pow_succ] at hn; omega
      obtain ⟨a1, a2⟩ := ih (k + 1) (n / 2) hn2
      refine ⟨by omega, fun _ => ?_⟩
      obtain ⟨b1, b2⟩ := a2 (by omega)
      generalize log2_loop fuel (k + 1) (n / 2) = r at a1 b1 b2
      have e1 : r - k = (r - (k + 1)) + 1 := by omega
      rw [e1, Nat.pow_succ, Nat.pow_succ]
      rw [Nat.pow_succ] at b2
      omega
    · simp only [h1, if_false]
      refine ⟨le_refl _, fun h => ?_⟩
      have : n = 1 := by omega
      simp [this]

theorem log2_spec (n : Nat) (hn : n < 2 ^ 64) :
    1 ≤ n → 2 ^ log2 n ≤ n ∧ n < 2 ^ (log2 n + 1) := by
  have := (log2_loop_spec 64 0 n hn).2
  simpa [log2] using this

theorem log2_le (n b : Nat) (hb : b ≤ 63) (hn : n < 2 ^ (b + 1)) : log2 n ≤ b := by
  by_cases h : 1 ≤ n
  · have hlt : n < 2 ^ 64 :=
      lt_of_lt_of_le hn (Nat.pow_le_pow_right (by decide) (by omega))
    obtain ⟨h1, _⟩ := log2_spec n hlt h
    by_contra hgt
    have : 2 ^ (b + 1) ≤ 2 ^ log2 n := Nat.pow_le_pow_right (by decide) (by omega)
    omega
  · have : n = 0 := by omega
    subst this
    have : log2 0 = 0 := by decide
    omega

theorem init_nsizes_bounds (len : Nat) (hlen : len < 2 ^ 62) :
    1 ≤ init_nsizes len ∧ init_nsizes len ≤ 59 := by
  unfold init_nsizes LEAF_SIZE
  have h := log2_le (len / 16) 57 (by omega) (by
    have : (2:Nat) ^ (57 + 1) = 2 ^ 58 := rfl
    have : (2:Nat) ^ 62 = 16 * 2 ^ 58 := by norm_num
    omega)
  simp only []
  split <;> omega

/-! ## The marking routine -/

theorem bd_mark_blocks_spec (k : Nat) : ∀ (fuel : Nat) (s : State) (bi bj : Nat),
    bj - bi ≤ fuel →
    SameFrame (bd_mark_blocks k fuel s bi bj) s ∧
    (∀ j i, alloc_bit (bd_mark_blocks k fuel s bi bj) j i = true ↔
      (j = k ∧ bi ≤ i ∧ i < bj) ∨ alloc_bit s j i = true) ∧
    (∀ j i, split_bit (bd_mark_blocks k fuel s bi bj) j i = true ↔
      (j = k ∧ 0 < k ∧ bi ≤ i ∧ i < bj) ∨ split_bit s j i = true) := by
  intro fuel
  induction fuel with
  | zero =>
    intro s bi bj h
    simp only [bd_mark_blocks]
    refine ⟨SameFrame.rfl_ s, fun j i => ?_, fun j i => ?_⟩
    · constructor
      · intro h'; exact Or.inr h'
      · rintro (⟨_, h1, h2⟩ | h')
        · omega
        · exact h'
    · constructor
      · intro h'; exact Or.inr h'
      · rintro (⟨_, _, h1, h2⟩ | h')
        · omega
        · exact h'
  | succ fuel ih =>
    intro s bi bj h
    simp only [bd_mark_blocks]
    by_cases hlt : bi < bj
    · simp only [hlt, if_true]
      obtain ⟨f, al, sp⟩ := ih (set_alloc (if k > 0 then set_split s k bi else s) k bi) (bi + 1) bj
        (by omega)
      have f0 : SameFrame (if k > 0 then set_split s k bi else s) s := by
        split
        · exact sameFrame_set_split _ _ _
        · exact SameFrame.rfl_ s
      refine ⟨f.trans_ ((sameFrame_set_alloc _ _ _).trans_ f0), fun j i => ?_, fun j i => ?_⟩
      · rw [al, alloc_bit_set_alloc]
        have e : alloc_bit (if k > 0 then set_split s k bi else s) j i = alloc_bit s j i := by
          split
          · exact alloc_bit_set_split _ _ _ _ _
          · rfl
        rw [e]
        constructor
        · rintro (⟨h1, h2, h3⟩ | ⟨h1, h2⟩ | h')
          · exact Or.inl ⟨h1, by omega, h3⟩
          · exact Or.inl ⟨h1, by omega, by omega⟩
          · exact Or.inr h'
        · rintro (⟨h1, h2, h3⟩ | h')
          · by_cases hi : i = bi
            · exact Or.inr (Or.inl ⟨h1, hi⟩)
            · exact Or.inl ⟨h1, by omega, h3⟩
          · exact Or.inr (Or.inr h')
      · rw [sp, split_bit_set_alloc]
        by_cases hk : k > 0
        · rw [if_pos hk, split_bit_set_split]
          constructor
          · rintro (⟨h1, _, h2, h3⟩ | ⟨h1, h2⟩ | h')
            · exact Or.inl ⟨h1, hk, by omega, h3⟩
            · exact Or.inl ⟨h1, hk, by omega, by omega⟩
            · exact Or.inr h'
          · rintro (⟨h1, _, h2, h3⟩ | h')
            · by_cases hi : i = bi
              · exact Or.inr (Or.inl ⟨h1, hi⟩)
              · exact Or.inl ⟨h1, hk, by omega, h3⟩
            · exact Or.inr (Or.inr h')
        · rw [if_neg hk]
          constructor
          · rintro (⟨_, h0, _⟩ | h')
            · exact absurd h0 hk
            · exact Or.inr h'
          · rintro (⟨_, h0, _⟩ | h')
            · exact absurd h0 hk
            · exact Or.inr h'
    · simp only [hlt, if_false]
      refine ⟨SameFrame.rfl_ s, fun j i => ?_, fun j i => ?_⟩
      · constructor
        · intro h'; exact Or.inr h'
        · rintro (⟨_, h1, h2⟩ | h')
          · omega
          · exact h'
      · constructor
        · intro h'; exact Or.inr h'
        · rintro (⟨_, _, h1, h2⟩ | h')
          · omega
          · exact h'

theorem SameFrame.blk_index_next {r s : State} (h : SameFrame r s) (k p : Nat) :
    blk_index_next r k p = blk_index_next s k p := by
  unfold Buddy.blk_index_next; rw [h.2]

theorem bd_mark_loop_spec (start stop : Nat) : ∀ (fuel : Nat) (s : State) (k : Nat),
    s.nsizes - k ≤ fuel →
    SameFrame (bd_mark_loop start stop fuel s k) s ∧
    (∀ j i, alloc_bit (bd_mark_loop start stop fuel s k) j i = true ↔
      (k ≤ j ∧ j < s.nsizes ∧ blk_index s j start ≤ i ∧ i < blk_index_next s j stop) ∨
        alloc_bit s j i = true) ∧
    (∀ j i, split_bit (bd_mark_loop start stop fuel s k) j i = true ↔
      (k ≤ j ∧ j < s.nsizes ∧ 0 < j ∧ blk_index s j start ≤ i ∧
        i < blk_index_next s j stop) ∨ split_bit s j i = true) := by
  intro fuel
  induction fuel with
  | zero =>
    intro s k h
    simp only [bd_mark_loop]
    refine ⟨SameFrame.rfl_ s, fun j i => ?_, fun j i => ?_⟩
    · constructor
      · intro h'; exact Or.inr h'
      · rintro (⟨h1, h2, _⟩ | h')
        · omega
        · exact h'
    · constructor
      · intro h'; exact Or.inr h'
      · rintro (⟨h1, h2, _⟩ | h')
        · omega
        · exact h'
  | succ fuel ih =>
    intro s k h
    simp only [bd_mark_loop]
    by_cases hlt : k < s.nsizes
    · simp only [hlt, if_true]
      obtain ⟨f1, al1, sp1⟩ := bd_mark_blocks_spec k
        (blk_index_next s k stop - blk_index s k start) s (blk_index s k start)
        (blk_index_next s k stop) (le_refl _)
      obtain ⟨f, al, sp⟩ := ih (bd_mark_blocks k (blk_index_next s k stop - blk_index s k start)
        s (blk_index s k start) (blk_index_next s k stop)) (k + 1) (by rw [f1.1]; omega)
      refine ⟨f.trans_ f1, fun j i => ?_, fun j i => ?_⟩
      · rw [al, al1, f1.1, f1.blk_index, f1.blk_index_next]
        constructor
        · rintro (⟨h1, h2, h3⟩ | ⟨h1, h2⟩ | h')
          · exact Or.inl ⟨by omega, h2, h3⟩
          · subst h1; exact Or.inl ⟨le_refl _, hlt, h2⟩
          · exact Or.inr h'
        · rintro (⟨h1, h2, h3⟩ | h')
          · by_cases hj : j = k
            · subst hj; exact Or.inr (Or.inl ⟨rfl, h3⟩)
            · exact Or.inl ⟨by omega, h2, h3⟩
          · exact Or.inr (Or.inr h')
      · rw [sp, sp1, f1.1, f1.blk_index, f1.blk_index_next]
        constructor
        · rintro (⟨h1, h2, h3⟩ | ⟨h1, h2, h3⟩ | h')
          · exact Or.inl ⟨by omega, h2, h3⟩
          · subst h1; exact Or.inl ⟨le_refl _, hlt, h2, h3⟩
          · exact Or.inr h'
        · rintro (⟨h1, h2, h3, h4⟩ | h')
          · by_cases hj : j = k
            · subst hj; exact Or.inr (Or.inl ⟨rfl, h3, h4⟩)
            · exact Or.inl ⟨by omega, h2, h3, h4⟩
          · exact Or.inr (Or.inr h')
    · simp only [hlt, if_false]
      refine ⟨SameFrame.rfl_ s, fun j i => ?_, fun j i => ?_⟩
      · constructor
        · intro h'; exact Or.inr h'
        · rintro (⟨h1, h2, _⟩ | h')
          · omega
          · exact h'
      · constructor
        · intro h'; exact Or.inr h'
        · rintro (⟨h1, h2, _⟩ | h')
          · omega
          · exact h'

/-! ## The marks left by `bd_init` -/

theorem blk_index_le_iff (s : State) (j p i : Nat) :
    blk_index s j p ≤ i ↔ p - s.bd_base < (i + 1) * BLK_SIZE j := by
  unfold blk_index
  rw [← Nat.lt_succ_iff, Nat.div_lt_iff_lt_mul (BLK_SIZE_pos j)]

theorem lt_blk_index_next_iff (s : State) (j p i : Nat) :
    i < blk_index_next s j p ↔ i * BLK_SIZE j < p - s.bd_base := by
  have hpos := BLK_SIZE_pos j
  have key : ∀ x b : Nat, 0 < b → (i < (if x % b ≠ 0 then x / b + 1 else x / b) ↔ i * b < x) := by
    intro x b hb
    have hdm := Nat.div_add_mod x b
    have hlt := Nat.mod_lt x hb
    have e : b * (x / b) = x / b * b := Nat.mul_comm _ _
    by_cases hr : x % b ≠ 0
    · rw [if_pos hr]
      constructor
      · intro h
        have : i * b ≤ (x / b) * b := Nat.mul_le_mul_right _ (by omega)
        omega
      · intro h
        by_contra hge
        have : (x / b + 1) * b ≤ i * b := Nat.mul_le_mul_right _ (by omega)
        have e2 : (x / b + 1) * b = x / b * b + b := by ring
        omega
    · rw [if_neg hr]
      constructor
      · intro h
        have : (i + 1) * b ≤ (x / b) * b := Nat.mul_le_mul_right _ (by omega)
        have e2 : (i + 1) * b = i * b + b := by ring
        omega
      · intro h
        by_contra hge
        have : (x / b) * b ≤ i * b := Nat.mul_le_mul_right _ (by omega)
        omega
  exact key (p - s.bd_base) (BLK_SIZE j) hpos

theorem mark_range_iff (s : State) (j i start stop : Nat) :
    (blk_index s j start ≤ i ∧ i < blk_index_next s j stop) ↔
      Hits j i (start - s.bd_base) (stop - s.bd_base) := by
  rw [blk_index_le_iff, lt_blk_index_next_iff]
  rfl

theorem hits_parent (j i a b : Nat) (hab : a < b) :
    Hits (j + 1) i a b ↔ Hits j (2 * i) a b ∨ Hits j (2 * i + 1) a b := by
  unfold Hits
  rw [BLK_SIZE_succ]
  generalize BLK_SIZE j = B
  have e1 : (i + 1) * (2 * B) = (2 * i + 1 + 1) * B := by ring
  have e2 : i * (2 * B) = 2 * i * B := by ring
  have e3 : (2 * i + 1) * B = 2 * i * B + B := by ring
  have e4 : (2 * i + 1 + 1) * B = 2 * i * B + B + B := by ring
  rw [e1, e2, e3, e4]
  omega

theorem hits_parent_end (j i a H N : Nat) (hH : H = N * BLK_SIZE (j + 1)) :
    Hits (j + 1) i a H ↔ Hits j (2 * i) a H ∨ Hits j (2 * i + 1) a H := by
  by_cases hab : a < H
  · exact hits_parent j i a H hab
  · have hHa : H ≤ a := not_lt.1 hab
    have hpos := BLK_SIZE_pos j
    have no : ∀ (m c : Nat), ¬ (a < (m + 1) * BLK_SIZE c ∧ m * BLK_SIZE c < H ∧
        ∃ M, H = M * BLK_SIZE c) := by
      rintro m c ⟨h1, h2, M, hM⟩
      rw [hM] at hHa h2
      have h3 := Nat.lt_of_mul_lt_mul_right h2
      have h4 := Nat.lt_of_mul_lt_mul_right (lt_of_le_of_lt hHa h1)
      omega
    have hH2 : H = (2 * N) * BLK_SIZE j := by rw [hH, BLK_SIZE_succ]; ring
    unfold Hits
    constructor
    · rintro ⟨h1, h2⟩
      exact absurd ⟨h1, h2, N, hH⟩ (no i (j + 1))
    · rintro (⟨h1, h2⟩ | ⟨h1, h2⟩)
      · exact absurd ⟨h1, h2, 2 * N, hH2⟩ (no (2 * i) j)
      · exact absurd ⟨h1, h2, 2 * N, hH2⟩ (no (2 * i + 1) j)

theorem isset_zero (i : Nat) : isset (fun _ => 0) i = false := by
  rw [isset_eq_testBit]
  exact Nat.zero_testBit _

theorem alloc_bit_init_state (base end_ j i : Nat) :
    alloc_bit (init_state base end_) j i = false := isset_zero i

theorem split_bit_init_state (base end_ j i : Nat) :
    split_bit (init_state base end_) j i = false := isset_zero i

theorem tail_start_mod (base end_ : Nat) : tail_start base end_ % 16 = 0 := by
  unfold tail_start unavailable
  have hb : (init_state base end_).bd_base % 16 = 0 := ROUNDUP_mod base
  have hH : BLK_SIZE (MAXENTRY (init_state base end_)) % 16 = 0 := by
    rw [BLK_SIZE_eq]; omega
  generalize (init_state base end_).bd_base = b at *
  generalize BLK_SIZE (MAXENTRY (init_state base end_)) = H at *
  simp only [LEAF_SIZE]
  split
  · have := ROUNDUP_mod (H - (end_ - b))
    omega
  · omega

/-- The state that `bd_init` returns. -/
theorem bd_init_ok (base end_ : Nat) :
    ∃ s, bd_init base end_ = Except.ok s ∧ SameFrame s (init_state base end_) ∧
      (∀ j i, alloc_bit s j i = true ↔ j < s.nsizes ∧
        (Hits j i 0 (meta_end base end_ - s.bd_base) ∨
          Hits j i (tail_start base end_ - s.bd_base) (HEAP_SIZE s))) ∧
      (∀ j i, split_bit s j i = true ↔ 0 < j ∧ alloc_bit s j i = true) := by
  have hb : (init_state base end_).bd_base % 16 = 0 := ROUNDUP_mod base
  have hme : meta_end base end_ % 16 = 0 := by unfold meta_end; exact ROUNDUP_mod _
  have hH : BLK_SIZE (MAXENTRY (init_state base end_)) % 16 = 0 := by
    rw [BLK_SIZE_eq]; omega
  obtain ⟨f1, al1, sp1⟩ := bd_mark_loop_spec (init_state base end_).bd_base (meta_end base end_)
    (init_state base end_).nsizes (init_state base end_) 0 (by omega)
  generalize hs1 : bd_mark_loop (init_state base end_).bd_base (meta_end base end_)
    (init_state base end_).nsizes (init_state base end_) 0 = s1 at f1 al1 sp1
  have e1 : bd_mark_data_structures (init_state base end_) (meta_end base end_) =
      Except.ok s1 := by
    unfold bd_mark_data_structures bd_mark
    simp only [LEAF_SIZE, hb, hme, ne_eq, not_true_eq_false, or_self, if_false, hs1]
  have ets : s1.bd_base + BLK_SIZE (MAXENTRY s1) - unavailable s1 end_ = tail_start base end_ := by
    unfold tail_start unavailable
    rw [f1.2, f1.maxentry]
  obtain ⟨f2, al2, sp2⟩ := bd_mark_loop_spec (tail_start base end_)
    (s1.bd_base + BLK_SIZE (MAXENTRY s1)) s1.nsizes s1 0 (by omega)
  generalize hs2 : bd_mark_loop (tail_start base end_)
    (s1.bd_base + BLK_SIZE (MAXENTRY s1)) s1.nsizes s1 0 = s2 at f2 al2 sp2
  have e2 : bd_mark_unavailable s1 end_ = Except.ok s2 := by
    unfold bd_mark_unavailable bd_mark
    simp only [ets]
    have h1 := tail_start_mod base end_
    have h2 : (s1.bd_base + BLK_SIZE (MAXENTRY s1)) % 16 = 0 := by
      rw [f1.2, f1.maxentry]; omega
    simp only [LEAF_SIZE, h1, h2, ne_eq, not_true_eq_false, or_self, if_false, hs2]
  refine ⟨s2, ?_, f2.trans_ f1, ?_, ?_⟩
  · have e0 : bd_init base end_ =
        (match bd_mark_data_structures (init_state base end_) (meta_end base end_) with
          | Except.error e => Except.error e
          | Except.ok s1 =>
            match bd_mark_unavailable s1 end_ with
            | Except.error e => Except.error e
            | Except.ok s2 => Except.ok (print_level s2 10).1) := rfl
    rw [e0, e1]
    simp only [e2]
    try rfl
  · intro j i
    have hb1 : s1.bd_base = s2.bd_base := f2.2.symm
    have hb0 : (init_state base end_).bd_base = s2.bd_base := (f2.trans_ f1).2.symm
    have hn1 : s1.nsizes = s2.nsizes := f2.1.symm
    have hn0 : (init_state base end_).nsizes = s2.nsizes := (f2.trans_ f1).1.symm
    have hm1 : MAXENTRY s1 = MAXENTRY s2 := f2.maxentry.symm
    rw [al2, al1, alloc_bit_init_state, mark_range_iff, mark_range_iff, Nat.add_sub_cancel_left,
      Nat.sub_self, hb1, hb0, hn1, hn0, hm1]
    unfold HEAP_SIZE
    constructor
    · rintro (⟨_, h1, h2⟩ | ⟨_, h1, h2⟩ | h)
      · exact ⟨h1, Or.inr h2⟩
      · exact ⟨h1, Or.inl h2⟩
      · exact Bool.noConfusion h
    · rintro ⟨h1, h2 | h2⟩
      · exact Or.inr (Or.inl ⟨Nat.zero_le _, h1, h2⟩)
      · exact Or.inl ⟨Nat.zero_le _, h1, h2⟩
  · intro j i
    rw [sp2, sp1, split_bit_init_state, al2, al1, alloc_bit_init_state]
    constructor
    · rintro (⟨h0, h1, h2, h3⟩ | ⟨h0, h1, h2, h3⟩ | h)
      · exact ⟨h2, Or.inl ⟨h0, h1, h3⟩⟩
      · exact ⟨h2, Or.inr (Or.inl ⟨h0, h1, h3⟩)⟩
      · exact Bool.noConfusion h
    · rintro ⟨hj, ⟨h0, h1, h3⟩ | ⟨h0, h1, h3⟩ | h⟩
      · exact Or.inl ⟨h0, h1, hj, h3⟩
      · exact Or.inr (Or.inl ⟨h0, h1, hj, h3⟩)
      · exact Bool.noConfusion h

theorem bitmap_bytes_le (s : State) (k : Nat) (hn : s.nsizes ≤ 59) :
    bitmap_bytes s k ≤ NBLK s k := by
  unfold bitmap_bytes
  have hpos : 1 ≤ NBLK s k := by rw [NBLK_eq]; exact Nat.two_pow_pos _
  have hle : NBLK s k ≤ 2 ^ 59 := by
    rw [NBLK_eq]
    exact Nat.pow_le_pow_right (by decide) (by unfold MAXENTRY; omega)
  obtain ⟨_, _, h3⟩ := ROUNDUP_spec (NBLK s k) 8 (by decide) hpos (by norm_num at hle ⊢; omega)
  omega

theorem init_arrays_bounds (s : State) (hn : s.nsizes ≤ 59) : ∀ (fuel k p : Nat),
    k ≤ s.nsizes →
    p ≤ init_arrays s fuel k p ∧ init_arrays s fuel k p + 1 ≤ p + 2 ^ (s.nsizes - k) := by
  intro fuel
  induction fuel with
  | zero =>
    intro k p _
    simp only [init_arrays]
    have := Nat.two_pow_pos (s.nsizes - k)
    omega
  | succ fuel ih =>
    intro k p hk
    simp only [init_arrays]
    by_cases hlt : k < s.nsizes
    · simp only [hlt, if_true]
      obtain ⟨a1, a2⟩ := ih (k + 1) (p + bitmap_bytes s k) (by omega)
      have hb := bitmap_bytes_le s k hn
      rw [NBLK_eq] at hb
      have e : s.nsizes - k = (s.nsizes - (k + 1)) + 1 := by omega
      have e2 : MAXENTRY s - k = s.nsizes - (k + 1) := by unfold MAXENTRY; omega
      rw [e2] at hb
      rw [e, Nat.pow_succ]
      omega
    · simp only [hlt, if_false]
      have := Nat.two_pow_pos (s.nsizes - k)
      omega

section
variable {base end_ : Nat}

theorem init_frame_bounds (h1 : ROUNDUP base LEAF_SIZE ≤ end_) (h2 : end_ < 2 ^ 62) :
    1 ≤ (init_state base end_).nsizes ∧ (init_state base end_).nsizes ≤ 59 ∧
      (init_state base end_).bd_base = ROUNDUP base LEAF_SIZE ∧
      HEAP_SIZE (init_state base end_) ≤ 2 ^ 62 := by
  have hb := init_nsizes_bounds (end_ - ROUNDUP base LEAF_SIZE) (by omega)
  refine ⟨hb.1, hb.2, rfl, ?_⟩
  unfold HEAP_SIZE
  rw [BLK_SIZE_eq]
  have : (2:Nat) ^ MAXENTRY (init_state base end_) ≤ 2 ^ 58 :=
    Nat.pow_le_pow_right (by decide) (by
      unfold MAXENTRY
      have : (init_state base end_).nsizes ≤ 59 := hb.2
      omega)
  norm_num at this ⊢
  omega

theorem meta_end_bounds (h1 : ROUNDUP base LEAF_SIZE ≤ end_) (h2 : end_ < 2 ^ 62) :
    (init_state base end_).bd_base + 16 ≤ meta_end base end_ ∧ meta_end base end_ < 2 ^ 64 := by
  obtain ⟨n1, n2, hb, _⟩ := init_frame_bounds h1 h2
  unfold meta_end
  simp only []
  generalize hs : init_state base end_ = s at *
  obtain ⟨a1, a2⟩ := init_arrays_bounds s n2 s.nsizes 0 (s.bd_base + SZ_INFO_BYTES * s.nsizes)
    (Nat.zero_le _)
  obtain ⟨b1, b2⟩ := init_arrays_bounds s n2 (s.nsizes - 1) 1
    (init_arrays s s.nsizes 0 (s.bd_base + SZ_INFO_BYTES * s.nsizes)) n1
  generalize init_arrays s (s.nsizes - 1) 1
    (init_arrays s s.nsizes 0 (s.bd_base + SZ_INFO_BYTES * s.nsizes)) = p3 at b1 b2
  generalize init_arrays s s.nsizes 0 (s.bd_base + SZ_INFO_BYTES * s.nsizes) = p2 at a1 a2 b1 b2
  have hp1 : (2:Nat) ^ (s.nsizes - 0) ≤ 2 ^ 59 := Nat.pow_le_pow_right (by decide) (by omega)
  have hp2 : (2:Nat) ^ (s.nsizes - 1) ≤ 2 ^ 59 := Nat.pow_le_pow_right (by decide) (by omega)
  unfold SZ_INFO_BYTES at *
  unfold LEAF_SIZE at *
  generalize (2:Nat) ^ (s.nsizes - 0) = x1 at *
  generalize (2:Nat) ^ (s.nsizes - 1) = x2 at *
  norm_num at hp1 hp2 h2
  obtain ⟨_, r2, r3⟩ := ROUNDUP_spec p3 16 (by decide) (by omega) (by norm_num; omega)
  norm_num
  omega

theorem heap_size_nblk (s : State) (j : Nat) (hj : j ≤ MAXENTRY s) :
    HEAP_SIZE s = NBLK s j * BLK_SIZE j := by
  unfold HEAP_SIZE
  rw [NBLK_eq, BLK_SIZE_eq, BLK_SIZE_eq]
  have e : MAXENTRY s = (MAXENTRY s - j) + j := by omega
  conv_lhs => rw [e, Nat.pow_add]
  ring

theorem marked_init {s0 : State} (h1 : ROUNDUP base LEAF_SIZE ≤ end_) (h2 : end_ < 2 ^ 62)
    (h : bd_init base end_ = Except.ok s0) : Marked s0 := by
  obtain ⟨s, hs, f, al, sp⟩ := bd_init_ok base end_
  rw [h] at hs
  injection hs with hs
  subst hs
  obtain ⟨n1, n2, hb, _⟩ := init_frame_bounds h1 h2
  obtain ⟨m1, _⟩ := meta_end_bounds h1 h2
  rw [← f.1] at n1 n2
  rw [← f.2] at m1
  refine ⟨n1, ?_, fun k i hk1 hk2 => ?_, fun k i hk => ?_, fun k hk => ?_⟩
  · rw [f.2, hb]; exact ROUNDUP_mod base
  · cases ha : alloc_bit s0 k i
    · apply bool_ne_true
      intro hsp
      rw [sp, ha] at hsp
      exact Bool.noConfusion hsp.2
    · exact (sp k i).2 ⟨hk1, ha⟩
  · rw [al, al, al]
    have hm : 0 < meta_end base end_ - s0.bd_base := by omega
    rw [hits_parent k i 0 _ hm, hits_parent_end k i _ (HEAP_SIZE s0) (NBLK s0 (k + 1))
      (heap_size_nblk s0 (k + 1) (by unfold MAXENTRY; omega))]
    constructor
    · rintro ⟨_, (h | h) | (h | h)⟩
      · exact Or.inl ⟨by omega, Or.inl h⟩
      · exact Or.inr ⟨by omega, Or.inl h⟩
      · exact Or.inl ⟨by omega, Or.inr h⟩
      · exact Or.inr ⟨by omega, Or.inr h⟩
    · rintro (⟨_, h | h⟩ | ⟨_, h | h⟩)
      · exact ⟨hk, Or.inl (Or.inl h)⟩
      · exact ⟨hk, Or.inr (Or.inl h)⟩
      · exact ⟨hk, Or.inl (Or.inr h)⟩
      · exact ⟨hk, Or.inr (Or.inr h)⟩
  · rw [al]
    refine ⟨hk, Or.inl ⟨?_, ?_⟩⟩
    · have := BLK_SIZE_pos k
      omega
    · omega

theorem tail_start_le (h1 : ROUNDUP base LEAF_SIZE ≤ end_) (h2 : end_ < 2 ^ 62) :
    tail_start base end_ ≤ end_ := by
  obtain ⟨_, _, hb, hH⟩ := init_frame_bounds h1 h2
  unfold tail_start unavailable
  unfold HEAP_SIZE at hH
  rw [hb]
  generalize BLK_SIZE (MAXENTRY (init_state base end_)) = H at *
  simp only []
  by_cases hu : H - (end_ - ROUNDUP base LEAF_SIZE) > 0
  · simp only [hu, if_true]
    obtain ⟨_, r2, _⟩ := ROUNDUP_spec (H - (end_ - ROUNDUP base LEAF_SIZE)) LEAF_SIZE
      (by decide) (by omega) (by unfold LEAF_SIZE; norm_num at hH ⊢; omega)
    omega
  · simp only [hu, if_false]
    omega

/-- A block that `bd_init` left unmarked lies between the metadata and the end of the
memory handed to `bd_init`. -/
theorem unmarked_inside {s0 : State} (h1 : ROUNDUP base LEAF_SIZE ≤ end_) (h2 : end_ < 2 ^ 62)
    (h : bd_init base end_ = Except.ok s0) {L id : Nat} (hL : L < s0.nsizes)
    (hid : id < NBLK s0 L) (hfree : alloc_bit s0 L id = false) :
    meta_end base end_ ≤ addr s0 L id ∧ addr s0 L id + BLK_SIZE L ≤ end_ := by
  obtain ⟨s, hs, f, al, sp⟩ := bd_init_ok base end_
  rw [h] at hs
  injection hs with hs
  subst hs
  obtain ⟨m1, _⟩ := meta_end_bounds h1 h2
  rw [← f.2] at m1
  have hts := tail_start_le h1 h2
  have hnot : ¬ (alloc_bit s0 L id = true) := by rw [hfree]; exact Bool.noConfusion
  rw [al] at hnot
  have hH := heap_size_nblk s0 L (by unfold MAXENTRY; omega)
  have hpos := BLK_SIZE_pos L
  have hlt : (id + 1) * BLK_SIZE L ≤ NBLK s0 L * BLK_SIZE L := Nat.mul_le_mul_right _ hid
  have e : (id + 1) * BLK_SIZE L = id * BLK_SIZE L + BLK_SIZE L := by ring
  unfold Hits at hnot
  unfold addr
  rw [e] at hnot hlt
  constructor
  · by_contra hc
    apply hnot
    exact ⟨hL, Or.inl ⟨by omega, by omega⟩⟩
  · by_contra hc
    apply hnot
    exact ⟨hL, Or.inr ⟨by omega, by omega⟩⟩

end

theorem find_a_size_loop_eq : ∀ (fuel k size n : Nat),
    BuddyMy.find_a_size_loop fuel k size n = get_level_loop fuel k size n := by
  intro fuel
  induction fuel with
  | zero => intro k size n; rfl
  | succ fuel ih =>
    intro k size n
    simp only [BuddyMy.find_a_size_loop, get_level_loop, ih]

theorem find_a_size_eq (n : Nat) : BuddyMy.find_a_size n = get_level n :=
  find_a_size_loop_eq 64 0 16 n

theorem BLK_SIZE_mono {j k : Nat} (h : j ≤ k) : BLK_SIZE j ≤ BLK_SIZE k := by
  rw [BLK_SIZE_eq, BLK_SIZE_eq]
  have := Nat.pow_le_pow_right (show 0 < 2 by decide) h
  omega

theorem level_ge_nsizes {nsizes nbytes L : Nat} (h1 : BLK_SIZE (nsizes - 1) < nbytes)
    (h2 : nbytes ≤ BLK_SIZE L) : nsizes ≤ L := by
  by_contra hlt
  have := BLK_SIZE_mono (show L ≤ nsizes - 1 by omega)
  omega

/-- C2: for every state with `nsizes >= 1` and `HEAP_SIZE <= 2^31` (so that the `int` offset
of `addr` is exact) and every `nbytes <= 2^63`, `bd_malloc` returns,
and a non-null result `p` is the block `id < NBLK(L)` of class `L = get_level(nbytes)`:
`p = bd_base + id * BLK_SIZE(L)`, `BLK_SIZE(L) >= nbytes`, `p - bd_base` is a multiple of
`BLK_SIZE(L)` and of `LEAF_SIZE`, the block lies in `[bd_base, bd_base + HEAP_SIZE)`, and
before the call its alloc bit was clear and, for `L >= 1`, its split bit was clear. -/
theorem bd_malloc_returns_class_block (s : State) (nbytes : Nat) (_hns : 1 ≤ s.nsizes)
    (_hH : HEAP_SIZE s ≤ 2 ^ 31)
    (hn : nbytes ≤ 2 ^ 63) :
    ∃ L p s1, get_level nbytes = some L ∧ bd_malloc s nbytes = some (p, s1) ∧
      (p ≠ 0 → ∃ id, id < NBLK s L ∧ p = s.bd_base + id * BLK_SIZE L ∧
        nbytes ≤ BLK_SIZE L ∧ BLK_SIZE L ∣ (p - s.bd_base) ∧ LEAF_SIZE ∣ (p - s.bd_base) ∧
        s.bd_base ≤ p ∧ p + BLK_SIZE L ≤ s.bd_base + HEAP_SIZE s ∧
        alloc_bit s L id = false ∧ (1 ≤ L → split_bit s L id = false)) := by
  obtain ⟨L, hL, _, hle, _, h⟩ := bd_malloc_spec s nbytes hn
  rcases h with ⟨hm, _⟩ | ⟨hlt, id, r, hid, hfree, _, hm, _⟩
  · exact ⟨L, 0, s, hL, hm, fun h => absurd rfl h⟩
  · refine ⟨L, addr s L id, r, hL, hm, fun _ => ⟨id, hid, rfl, hle, ?_, ?_, ?_, ?_, hfree.1,
      fun h1 => hfree.2 (by omega)⟩⟩
    · unfold addr
      rw [Nat.add_sub_cancel_left]
      exact Dvd.intro_left _ rfl
    · unfold addr LEAF_SIZE
      rw [Nat.add_sub_cancel_left, BLK_SIZE_eq]
      exact ⟨id * 2 ^ L, by ring⟩
    · unfold addr; omega
    · have hH := heap_size_nblk s L (by unfold MAXENTRY; omega)
      have hmul : (id + 1) * BLK_SIZE L ≤ NBLK s L * BLK_SIZE L := Nat.mul_le_mul_right _ hid
      have e : (id + 1) * BLK_SIZE L = id * BLK_SIZE L + BLK_SIZE L := by ring
      unfold addr
      omega

/-- Witness of C2: a request of 100 bytes in the arena `[0, 16384)` right after `bd_init`. -/
theorem bd_malloc_returns_class_block_witness :
    ∃ L p s1, get_level 100 = some L ∧
      bd_malloc (state_of (bd_init 0 16384)) 100 = some (p, s1) ∧
      (p ≠ 0 → ∃ id, id < NBLK (state_of (bd_init 0 16384)) L ∧
        p = (state_of (bd_init 0 16384)).bd_base + id * BLK_SIZE L ∧
        100 ≤ BLK_SIZE L ∧ BLK_SIZE L ∣ (p - (state_of (bd_init 0 16384)).bd_base) ∧
        LEAF_SIZE ∣ (p - (state_of (bd_init 0 16384)).bd_base) ∧
        (state_of (bd_init 0 16384)).bd_base ≤ p ∧
        p + BLK_SIZE L ≤
          (state_of (bd_init 0 16384)).bd_base + HEAP_SIZE (state_of (bd_init 0 16384)) ∧
        alloc_bit (state_of (bd_init 0 16384)) L id = false ∧
        (1 ≤ L → split_bit (state_of (bd_init 0 16384)) L id = false)) :=
  bd_malloc_returns_class_block (state_of (bd_init 0 16384)) 100 (by decide) (by decide)
    (by decide)

/-- C7: a request larger than the top class, `BLK_SIZE(nsizes-1) < nbytes <= 2^63`,
makes `bd_malloc` return 0 with the state (all bitmaps and, in `buddy_my.c`, all free
lists) unchanged, in `buddy.c` and in `buddy_my.c`. -/
theorem bd_malloc_too_large (s : State) (t : BuddyMy.State) (nbytes : Nat)
    (hs : BLK_SIZE (s.nsizes - 1) < nbytes) (ht : BLK_SIZE (t.nsizes - 1) < nbytes)
    (hn : nbytes ≤ 2 ^ 63) :
    bd_malloc s nbytes = some (0, s) ∧ BuddyMy.bd_malloc t nbytes = some (0, t) := by
  obtain ⟨L, hL, _, hle, _⟩ := get_level_spec nbytes hn
  rw [← BLK_SIZE_eq] at hle
  constructor
  · have hge := level_ge_nsizes hs hle
    unfold bd_malloc
    simp only [hL, ge_iff_le, hge, if_true]
  · have hge := level_ge_nsizes ht hle
    unfold BuddyMy.bd_malloc
    rw [find_a_size_eq, hL]
    have h0 : t.nsizes - L = 0 := by omega
    simp only [h0, BuddyMy.find_list, ge_iff_le, hge, if_true]

/-- Witness of C7: one byte more than the top class of 1024 bytes, with seven classes. -/
theorem bd_malloc_too_large_witness :
    bd_malloc (state_of (bd_init 0 1024)) 1025 = some (0, state_of (bd_init 0 1024)) ∧
      BuddyMy.bd_malloc ⟨7, 0, fun _ => ⟨[], fun _ => 0, fun _ => 0⟩⟩ 1025 =
        some (0, ⟨7, 0, fun _ => ⟨[], fun _ => 0, fun _ => 0⟩⟩) :=
  bd_malloc_too_large (state_of (bd_init 0 1024)) ⟨7, 0, fun _ => ⟨[], fun _ => 0, fun _ => 0⟩⟩
    1025 (by decide) (by decide) (by decide)

/-- C9: for every `n <= 2^63`, `get_level(n)` and `find_a_size(n)` terminate and return the
least `k` with `16 * 2^k >= n`; 100 maps to class 3, and 900 and 1000 map to class 6. -/
theorem get_level_least :
    (∀ n, n ≤ 2 ^ 63 → ∃ k, get_level n = some k ∧ BuddyMy.find_a_size n = some k ∧
      n ≤ 16 * 2 ^ k ∧ ∀ j, j < k → 16 * 2 ^ j < n) ∧
    get_level 100 = some 3 ∧ BuddyMy.find_a_size 100 = some 3 ∧
    get_level 900 = some 6 ∧ BuddyMy.find_a_size 900 = some 6 ∧
    get_level 1000 = some 6 ∧ BuddyMy.find_a_size 1000 = some 6 := by
  refine ⟨fun n hn => ?_, by decide, by decide, by decide, by decide, by decide, by decide⟩
  obtain ⟨k, hk, _, h1, h2⟩ := get_level_spec n hn
  exact ⟨k, hk, by rw [find_a_size_eq]; exact hk, h1, h2⟩

/-- Witness of C9 at `n = 2^63`, the largest request for which the loops stop. -/
theorem get_level_least_witness :
    ∃ k, get_level (2 ^ 63) = some k ∧ BuddyMy.find_a_size (2 ^ 63) = some k ∧
      2 ^ 63 ≤ 16 * 2 ^ k ∧ ∀ j, j < k → 16 * 2 ^ j < 2 ^ 63 :=
  get_level_least.1 (2 ^ 63) (le_refl _)

/-- C10: `bd_free(0)` returns without changing the state; a non-null pointer that is not a
multiple of 16 makes `bd_free` panic with "bd_free: not aligned" before any bit changes; a
non-null multiple of 16 does not take the panic branch. -/
theorem bd_free_guard (s : State) (p : Nat) :
    bd_free s 0 = Except.ok s ∧
    (p ≠ 0 → p % 16 ≠ 0 → bd_free s p = Except.error "bd_free: not aligned") ∧
    (p ≠ 0 → p % 16 = 0 → ∃ s1, bd_free s p = Except.ok s1) := by
  refine ⟨rfl, fun h0 ha => ?_, fun h0 ha => ?_⟩
  · unfold bd_free LEAF_SIZE
    simp only [h0, if_false, ne_eq, ha, not_false_eq_true, if_true]
  · unfold bd_free LEAF_SIZE
    simp only [h0, if_false, ne_eq, ha, not_true_eq_false]
    exact ⟨_, rfl⟩

/-- Witness of C10: the misaligned pointer 8 panics, the aligned pointer 144 does not. -/
theorem bd_free_guard_witness :
    bd_free (state_of (bd_init 0 1024)) 8 = Except.error "bd_free: not aligned" ∧
      ∃ s1, bd_free (state_of (bd_init 0 1024)) 144 = Except.ok s1 :=
  ⟨(bd_free_guard (state_of (bd_init 0 1024)) 8).2.1 (by decide) (by decide),
    (bd_free_guard (state_of (bd_init 0 1024)) 144).2.2 (by decide) (by decide)⟩

theorem under_of_addr_eq {s : State} {L id L' id' : Nat} (hLL : L ≤ L')
    (h : addr s L id = addr s L' id') : Under L' id' L id := by
  refine ⟨hLL, ?_⟩
  unfold addr at h
  rw [BLK_SIZE_eq, BLK_SIZE_eq] at h
  have e : L' = L + (L' - L) := by omega
  have h2 : id * (16 * 2 ^ L) = id' * 2 ^ (L' - L) * (16 * 2 ^ L) := by
    have : id' * (16 * 2 ^ L') = id' * 2 ^ (L' - L) * (16 * 2 ^ L) := by
      conv_lhs => rw [e, Nat.pow_add]
      ring
    omega
  have hpos : 0 < 16 * 2 ^ L := by have := Nat.two_pow_pos L; omega
  have h3 := Nat.eq_of_mul_eq_mul_right hpos h2
  rw [h3, Nat.mul_div_cancel _ (Nat.two_pow_pos _)]

theorem addr_inj {s0 : State} {O : Nat → Nat → Prop} (hw : WF s0 O) {L id L' id' : Nat}
    (h1 : O L id) (h2 : O L' id') (h : addr s0 L id = addr s0 L' id') : L = L' ∧ id = id' := by
  by_cases hLL : L ≤ L'
  · exact hw.antichain L id L' id' h1 h2 (under_of_addr_eq hLL h)
  · have := hw.antichain L' id' L id h2 h1 (under_of_addr_eq (by omega) h.symm)
    exact ⟨this.1.symm, this.2.symm⟩

theorem blocks_disjoint_le (s : State) {L id L' id' : Nat} (hLL : L ≤ L')
    (hnu : ¬ Under L' id' L id) :
    addr s L id + BLK_SIZE L ≤ addr s L' id' ∨ addr s L' id' + BLK_SIZE L' ≤ addr s L id := by
  unfold Under at hnu
  have hne : id / 2 ^ (L' - L) ≠ id' := fun h => hnu ⟨hLL, h⟩
  have hd : BLK_SIZE L' = 2 ^ (L' - L) * BLK_SIZE L := by
    rw [BLK_SIZE_eq, BLK_SIZE_eq]
    have e : L' = L + (L' - L) := by omega
    conv_lhs => rw [e, Nat.pow_add]
    ring
  have hpos := Nat.two_pow_pos (L' - L)
  have hdm := Nat.div_add_mod id (2 ^ (L' - L))
  have hlt := Nat.mod_lt id hpos
  unfold addr
  rw [hd]
  generalize 2 ^ (L' - L) = D at *
  generalize BLK_SIZE L = B at *
  generalize id / D = a at *
  rcases Nat.lt_or_gt_of_ne hne with h | h
  · left
    have h1 : id + 1 ≤ id' * D := by
      have : (a + 1) * D ≤ id' * D := Nat.mul_le_mul_right _ h
      have e : (a + 1) * D = D * a + D := by ring
      omega
    have h2 : (id + 1) * B ≤ id' * D * B := Nat.mul_le_mul_right _ h1
    have e1 : (id + 1) * B = id * B + B := by ring
    have e2 : id' * (D * B) = id' * D * B := by ring
    omega
  · right
    have h1 : (id' + 1) * D ≤ id := by
      have : (id' + 1) * D ≤ a * D := Nat.mul_le_mul_right _ h
      have e : a * D = D * a := Nat.mul_comm _ _
      omega
    have h2 : (id' + 1) * D * B ≤ id * B := Nat.mul_le_mul_right _ h1
    have e1 : (id' + 1) * D * B = id' * (D * B) + D * B := by ring
    omega

theorem blocks_disjoint (s : State) {L id L' id' : Nat} (h1 : ¬ Under L' id' L id)
    (h2 : ¬ Under L id L' id') :
    addr s L id + BLK_SIZE L ≤ addr s L' id' ∨ addr s L' id' + BLK_SIZE L' ≤ addr s L id := by
  by_cases hLL : L ≤ L'
  · exact blocks_disjoint_le s hLL h1
  · exact (blocks_disjoint_le s (show L' ≤ L by omega) h2).symm

theorem free_index_pos {s0 s : State} {O : Nat → Nat → Prop} (hm : Marked s0)
    (hr : Repr s0 s O) {L id : Nat} (hL : L < s.nsizes) (hfree : Free s L id) : id ≠ 0 := by
  intro h
  subst h
  have := (hr.alloc L 0).2 (Or.inl (hm.first L (by rw [← hr.frame.1]; exact hL)))
  rw [hfree.1] at this
  exact Bool.noConfusion this

theorem addr_pos (s : State) (L : Nat) {id : Nat} (hid : id ≠ 0) : addr s L id ≠ 0 := by
  have hpos := BLK_SIZE_pos L
  have : 1 * BLK_SIZE L ≤ id * BLK_SIZE L := Nat.mul_le_mul_right _ (by omega)
  unfold addr
  omega

/-- What a `bd_malloc` call does in a state that represents the outstanding set `O`. -/
theorem malloc_step {s0 s s1 : State} {O : Nat → Nat → Prop} {nbytes p : Nat}
    (hm : Marked s0) (hr : Repr s0 s O) (hw : WF s0 O)
    (h : bd_malloc s nbytes = some (p, s1)) :
    (p = 0 ∧ s1 = s) ∨
      (p ≠ 0 ∧ ∃ L id, get_level nbytes = some L ∧ L < s.nsizes ∧ id < NBLK s L ∧
        Free s L id ∧ (∀ j, j < id → ¬ Free s L j) ∧ p = addr s0 L id ∧ ¬ O L id ∧
        Repr s0 s1 (fun L' id' => O L' id' ∨ (L' = L ∧ id' = id)) ∧
        WF s0 (fun L' id' => O L' id' ∨ (L' = L ∧ id' = id))) := by
  obtain ⟨L, hL⟩ := bd_malloc_some_level h
  rcases bd_malloc_cases s nbytes L hL with ⟨hm0, _⟩ | ⟨hlt, id, r, hid, hfree, hleast, hm1, hpost⟩
  · rw [hm0] at h
    injection h with h
    injection h with h1 h2
    exact Or.inl ⟨h1.symm, h2.symm⟩
  · rw [hm1] at h
    injection h with h
    injection h with h1 h2
    subst h1; subst h2
    obtain ⟨a1, a2, a3⟩ := malloc_repr hr hw hlt hid hfree hpost
    exact Or.inr ⟨addr_pos s L (free_index_pos hm hr hlt hfree), L, id, hL, hlt, hid, hfree,
      hleast, hr.frame.addr L id, a3, a1, a2⟩

theorem tracks_malloc {s0 : State} {O : Nat → Nat → Prop} {out : List (Nat × Nat)}
    {L id nbytes : Nat} (ht : Tracks s0 O out) (hL : get_level nbytes = some L)
    (hnew : ¬ O L id) (hw : WF s0 (fun L' id' => O L' id' ∨ (L' = L ∧ id' = id))) :
    Tracks s0 (fun L' id' => O L' id' ∨ (L' = L ∧ id' = id)) ((addr s0 L id, nbytes) :: out) := by
  refine ⟨?_, ?_, ?_⟩
  · rw [List.map_cons, List.nodup_cons]
    refine ⟨?_, ht.ptrs_nodup⟩
    intro hmem
    obtain ⟨⟨q, m⟩, hqm, hq⟩ := List.mem_map.1 hmem
    simp only at hq
    subst hq
    obtain ⟨L', id', _, ho, hp⟩ := ht.of_out _ _ hqm
    have := addr_inj hw (Or.inl ho) (Or.inr ⟨rfl, rfl⟩) hp.symm
    rw [this.1, this.2] at ho
    exact hnew ho
  · intro q m hqm
    rcases List.mem_cons.1 hqm with h | h
    · injection h with h1 h2
      subst h1; subst h2
      exact ⟨L, id, hL, Or.inr ⟨rfl, rfl⟩, rfl⟩
    · obtain ⟨L', id', a, b, c⟩ := ht.of_out _ _ h
      exact ⟨L', id', a, Or.inl b, c⟩
  · rintro L' id' (ho | ⟨h1, h2⟩)
    · obtain ⟨m, a, b⟩ := ht.of_block _ _ ho
      exact ⟨m, List.mem_cons_of_mem _ a, b⟩
    · subst h1; subst h2
      exact ⟨nbytes, List.mem_cons_self _ _, hL⟩

theorem tracks_free {s0 : State} {O : Nat → Nat → Prop} {out : List (Nat × Nat)}
    {L id nbytes : Nat} (ht : Tracks s0 O out) (hw : WF s0 O) (hO : O L id)
    (hmem : (addr s0 L id, nbytes) ∈ out) :
    Tracks s0 (Without O L id) (out.erase (addr s0 L id, nbytes)) := by
  have hnd : out.Nodup := List.Nodup.of_map _ ht.ptrs_nodup
  refine ⟨?_, ?_, ?_⟩
  · exact List.Nodup.sublist ((List.erase_sublist _ _).map _) ht.ptrs_nodup
  · intro q m hqm
    rw [List.Nodup.mem_erase_iff hnd] at hqm
    obtain ⟨L', id', a, b, c⟩ := ht.of_out _ _ hqm.2
    refine ⟨L', id', a, ⟨b, ?_⟩, c⟩
    rintro ⟨h1, h2⟩
    subst h1; subst h2
    -- the same pointer would occur with two sizes
    apply hqm.1
    have hq : q = addr s0 L' id' := c
    subst hq
    have := List.inj_on_of_nodup_map ht.ptrs_nodup hqm.2 hmem rfl
    exact this
  · intro L' id' ho
    obtain ⟨m, a, b⟩ := ht.of_block _ _ ho.1
    refine ⟨m, ?_, b⟩
    rw [List.Nodup.mem_erase_iff hnd]
    refine ⟨?_, a⟩
    intro h
    injection h with h1 h2
    have := addr_inj hw ho.1 hO h1
    exact ho.2 this

/-- Every reachable state represents its outstanding allocations. -/
theorem reachable_inv {base end_ : Nat} (h1 : ROUNDUP base LEAF_SIZE ≤ end_)
    (h2 : end_ < 2 ^ 62) {s : State} {out : List (Nat × Nat)}
    (h : Reachable base end_ s out) :
    ∃ s0 O, bd_init base end_ = Except.ok s0 ∧ Marked s0 ∧ Repr s0 s O ∧ WF s0 O ∧
      Tracks s0 O out := by
  induction h with
  | init hi =>
    exact ⟨_, fun _ _ => False, hi, marked_init h1 h2 hi, repr_init _, wf_init _,
      ⟨List.nodup_nil, fun _ _ h => absurd h (List.not_mem_nil _), fun _ _ h => h.elim⟩⟩
  | malloc _ hmal hp ih =>
    obtain ⟨s0, O, hi, hm, hr, hw, ht⟩ := ih
    rcases malloc_step hm hr hw hmal with ⟨h0, _⟩ | ⟨_, L, id, hL, _, _, _, _, hpa, hnew, hr1, hw1⟩
    · exact absurd h0 hp
    · rw [hpa]
      exact ⟨s0, _, hi, hm, hr1, hw1, tracks_malloc ht hL hnew hw1⟩
  | malloc_fail _ hmal ih =>
    obtain ⟨s0, O, hi, hm, hr, hw, ht⟩ := ih
    rcases malloc_step hm hr hw hmal with ⟨_, hs⟩ | ⟨hp, _⟩
    · rw [hs]
      exact ⟨s0, O, hi, hm, hr, hw, ht⟩
    · exact absurd rfl hp
  | free _ hmem hfree ih =>
    obtain ⟨s0, O, hi, hm, hr, hw, ht⟩ := ih
    obtain ⟨L, id, _, hO, hpa⟩ := ht.of_out _ _ hmem
    subst hpa
    obtain ⟨r, hr1, hrep, hw1⟩ := free_repr hm hr hw hO
    rw [hr1] at hfree
    injection hfree with hfree
    subst hfree
    exact ⟨s0, _, hi, hm, hrep, hw1, tracks_free ht hw hO hmem⟩

theorem unmarked_before_tail {base end_ : Nat} {s0 : State}
    (h : bd_init base end_ = Except.ok s0) {L id : Nat} (hL : L < s0.nsizes)
    (hid : id < NBLK s0 L) (hfree : alloc_bit s0 L id = false) :
    addr s0 L id + BLK_SIZE L ≤ tail_start base end_ := by
  obtain ⟨s, hs, f, al, sp⟩ := bd_init_ok base end_
  rw [h] at hs
  injection hs with hs
  subst hs
  have hnot : ¬ (alloc_bit s0 L id = true) := by rw [hfree]; exact Bool.noConfusion
  rw [al] at hnot
  have hH := heap_size_nblk s0 L (by unfold MAXENTRY; omega)
  have hpos := BLK_SIZE_pos L
  have hlt : (id + 1) * BLK_SIZE L ≤ NBLK s0 L * BLK_SIZE L := Nat.mul_le_mul_right _ hid
  have e : (id + 1) * BLK_SIZE L = id * BLK_SIZE L + BLK_SIZE L := by ring
  unfold Hits at hnot
  unfold addr
  rw [e] at hnot hlt
  by_contra hc
  apply hnot
  exact ⟨hL, Or.inr ⟨by omega, by omega⟩⟩

theorem repr_unmarked {s0 s : State} {O : Nat → Nat → Prop} (hr : Repr s0 s O) {L id : Nat}
    (h : alloc_bit s L id = false) : alloc_bit s0 L id = false := by
  apply bool_ne_true
  intro h0
  have := (hr.alloc L id).2 (Or.inl h0)
  rw [h] at this
  exact Bool.noConfusion this

/-- C1: for an arena of fewer than `2^31` bytes (the range in which the `int` offsets of
the code are exact), in every state reachable from `bd_init(base, end)`, a block returned by a
successful `bd_malloc(nbytes)` lies inside `[meta_end, end)`, below the start of the
unavailable tail, and is disjoint from every other outstanding block. -/
theorem bd_malloc_block_exclusive (base end_ : Nat) (h1 : ROUNDUP base LEAF_SIZE ≤ end_)
    (h2 : end_ < 2 ^ 62)
    (_h3 : end_ - ROUNDUP base LEAF_SIZE < 2 ^ 31) (_hcls : 2 ≤ (init_state base end_).nsizes)
    (_hmeta : meta_end base end_ ≤ end_) (s : State) (out : List (Nat × Nat))
    (hreach : Reachable base end_ s out) (nbytes p : Nat) (s1 : State)
    (hmal : bd_malloc s nbytes = some (p, s1)) (hp : p ≠ 0) :
    ∃ L, get_level nbytes = some L ∧ meta_end base end_ ≤ p ∧ p + BLK_SIZE L ≤ end_ ∧
      p + BLK_SIZE L ≤ tail_start base end_ ∧
      ∀ q m L', (q, m) ∈ out → get_level m = some L' →
        p + BLK_SIZE L ≤ q ∨ q + BLK_SIZE L' ≤ p := by
  obtain ⟨s0, O, hi, hm, hr, hw, ht⟩ := reachable_inv h1 h2 hreach
  rcases malloc_step hm hr hw hmal with ⟨h0, _⟩ |
    ⟨_, L, id, hL, hlt, hid, hfree, _, hpa, hnew, _, hw1⟩
  · exact absurd h0 hp
  · have hlt0 : L < s0.nsizes := by rw [← hr.frame.1]; exact hlt
    have hid0 : id < NBLK s0 L := by rw [← hr.frame.nblk]; exact hid
    have hun := repr_unmarked hr hfree.1
    obtain ⟨a1, a2⟩ := unmarked_inside h1 h2 hi hlt0 hid0 hun
    have a3 := unmarked_before_tail hi hlt0 hid0 hun
    subst hpa
    refine ⟨L, hL, a1, a2, a3, fun q m L' hqm hL' => ?_⟩
    obtain ⟨L2, id2, hL2, ho, hq⟩ := ht.of_out _ _ hqm
    rw [hL'] at hL2
    injection hL2 with hL2
    subst hL2
    subst hq
    apply blocks_disjoint
    · intro hu
      have := hw1.antichain L id L' id2 (Or.inr ⟨rfl, rfl⟩) (Or.inl ho) hu
      rw [← this.1, ← this.2] at ho
      exact hnew ho
    · intro hu
      have := hw1.antichain L' id2 L id (Or.inl ho) (Or.inr ⟨rfl, rfl⟩) hu
      rw [this.1, this.2] at ho
      exact hnew ho

theorem reachable_heap_le {base end_ : Nat} (h1 : ROUNDUP base LEAF_SIZE ≤ end_)
    (h2 : end_ < 2 ^ 62) {s s0 : State} {O : Nat → Nat → Prop}
    (hi : bd_init base end_ = Except.ok s0) (hr : Repr s0 s O) :
    BLK_SIZE (MAXENTRY s) ≤ 2 ^ 62 := by
  obtain ⟨s', hs, f, _, _⟩ := bd_init_ok base end_
  rw [hi] at hs
  injection hs with hs
  subst hs
  have := (init_frame_bounds h1 h2).2.2.2
  unfold HEAP_SIZE at this
  rw [hr.frame.maxentry, f.maxentry]
  exact this

theorem bits_eq_of_repr {s0 a b : State} {O1 O2 : Nat → Nat → Prop} (ha : Repr s0 a O1)
    (hb : Repr s0 b O2) (h : ∀ L id, O1 L id ↔ O2 L id) (k i : Nat) :
    alloc_bit a k i = alloc_bit b k i ∧ split_bit a k i = split_bit b k i := by
  constructor
  · rw [Bool.eq_iff_iff, ha.alloc, hb.alloc]
    constructor
    · rintro (h0 | ⟨L, id, ho, hu⟩)
      · exact Or.inl h0
      · exact Or.inr ⟨L, id, (h L id).1 ho, hu⟩
    · rintro (h0 | ⟨L, id, ho, hu⟩)
      · exact Or.inl h0
      · exact Or.inr ⟨L, id, (h L id).2 ho, hu⟩
  · rw [Bool.eq_iff_iff, ha.split, hb.split]
    constructor
    · rintro (h0 | ⟨L, id, ho, hu⟩)
      · exact Or.inl h0
      · exact Or.inr ⟨L, id, (h L id).1 ho, hu⟩
    · rintro (h0 | ⟨L, id, ho, hu⟩)
      · exact Or.inl h0
      · exact Or.inr ⟨L, id, (h L id).2 ho, hu⟩

theorem without_added {O : Nat → Nat → Prop} {L id : Nat} (hnew : ¬ O L id) (L' id' : Nat) :
    Without (fun a b => O a b ∨ (a = L ∧ b = id)) L id L' id' ↔ O L' id' := by
  unfold Without
  constructor
  · rintro ⟨ho | h, hne⟩
    · exact ho
    · exact absurd h hne
  · intro ho
    refine ⟨Or.inl ho, ?_⟩
    rintro ⟨e1, e2⟩
    subst e1; subst e2
    exact hnew ho

/-- C3: for an arena of fewer than `2^31` bytes, in every reachable state, for
`0 < nbytes <= BLK_SIZE(MAXENTRY)`, the call
`p = bd_malloc(nbytes)` followed by `bd_free(p)` returns and leaves every alloc bit and
every split bit as it was, also when `bd_malloc` fails and `p = 0`. -/
theorem malloc_free_round_trip (base end_ : Nat) (h1 : ROUNDUP base LEAF_SIZE ≤ end_)
    (h2 : end_ < 2 ^ 62)
    (_h3 : end_ - ROUNDUP base LEAF_SIZE < 2 ^ 31) (s : State) (out : List (Nat × Nat))
    (hreach : Reachable base end_ s out) (nbytes : Nat) (_hpos : 0 < nbytes)
    (hle : nbytes ≤ BLK_SIZE (MAXENTRY s)) :
    ∃ p s1 s2, bd_malloc s nbytes = some (p, s1) ∧ bd_free s1 p = Except.ok s2 ∧
      ∀ k i, alloc_bit s2 k i = alloc_bit s k i ∧ split_bit s2 k i = split_bit s k i := by
  obtain ⟨s0, O, hi, hm, hr, hw, ht⟩ := reachable_inv h1 h2 hreach
  have hH := reachable_heap_le h1 h2 hi hr
  have hn : nbytes ≤ 2 ^ 63 := by
    have : (2:Nat) ^ 62 ≤ 2 ^ 63 := Nat.pow_le_pow_right (by decide) (by decide)
    omega
  obtain ⟨L, _, _, _, _, hcase⟩ := bd_malloc_spec s nbytes hn
  rcases hcase with ⟨hm0, _⟩ | ⟨_, id, r, _, _, _, hm1, _⟩
  · exact ⟨0, s, s, hm0, rfl, fun k i => ⟨rfl, rfl⟩⟩
  · rcases malloc_step hm hr hw hm1 with ⟨h0, hs⟩ | ⟨_, L', id', _, _, _, _, _, hpa, hnew, hr1, hw1⟩
    · rw [h0, hs] at hm1
      exact ⟨0, s, s, hm1, rfl, fun k i => ⟨rfl, rfl⟩⟩
    · obtain ⟨r2, hf, hr2, _⟩ := free_repr hm hr1 hw1 (Or.inr ⟨rfl, rfl⟩)
      rw [← hpa] at hf
      exact ⟨_, r, r2, hm1, hf, bits_eq_of_repr hr2 hr (without_added hnew)⟩

theorem free_descends {s0 s : State} {O : Nat → Nat → Prop} (hm : Marked s0)
    (hr : Repr s0 s O) {j i L : Nat} (hLj : L ≤ j) (hj : j < s.nsizes) (hfree : Free s j i) :
    Free s L (i * 2 ^ (j - L)) := by
  have hn : s.nsizes = s0.nsizes := hr.frame.1
  have hu : Under j i L (i * 2 ^ (j - L)) :=
    ⟨hLj, Nat.mul_div_cancel _ (Nat.two_pow_pos _)⟩
  have hjmax : j ≤ MAXENTRY s0 := by unfold MAXENTRY; omega
  have no_alloc : ¬ alloc_bit s j i = true := by rw [hfree.1]; exact Bool.noConfusion
  have no_split : j ≠ 0 → ¬ split_bit s j i = true := by
    intro h0; rw [hfree.2 h0]; exact Bool.noConfusion
  have no_marked : ¬ alloc_bit s0 L (i * 2 ^ (j - L)) = true := by
    intro h
    exact no_alloc ((hr.alloc j i).2 (Or.inl (hm.up_ hu (by omega) h)))
  constructor
  · apply bool_ne_true
    intro h
    rcases (hr.alloc _ _).1 h with h | ⟨L', id', ho, hu'⟩
    · exact no_marked h
    · by_cases hc : j ≤ L'
      · exact no_alloc ((hr.alloc j i).2 (Or.inr ⟨L', id', ho, under_comparable hu hu' hc⟩))
      · have hb : Below j i L' id' :=
          (below_iff _ _ _ _).2 ⟨under_comparable hu' hu (by omega), by omega⟩
        exact no_split (by omega)
          ((hr.split j i).2 (Or.inr ⟨L', id', ho, (above_iff_below _ _ _ _).2 hb, hjmax⟩))
  · intro hL0
    apply bool_ne_true
    intro h
    rcases (hr.split _ _).1 h with h | ⟨L', id', ho, hab, _⟩
    · rw [hm.split_eq _ _ (by omega) (by omega)] at h
      exact no_marked h
    · have hb := (below_iff _ _ _ _).1 ((above_iff_below _ _ _ _).1 hab)
      have hb2 : Below j i L' id' := (below_iff _ _ _ _).2 ⟨under_trans hu hb.1, by omega⟩
      exact no_split (by omega)
        ((hr.split j i).2 (Or.inr ⟨L', id', ho, (above_iff_below _ _ _ _).2 hb2, hjmax⟩))

/-- C6: for an arena of fewer than `2^31` bytes, in every reachable state and for every
`nbytes <= 2^63`, `bd_malloc(nbytes)` returns,
and it returns 0 exactly when no class `j` with `get_level(nbytes) <= j <= MAXENTRY` has a
free block; when it returns 0 the state is unchanged. -/
theorem bd_malloc_fails_iff_exhausted (base end_ : Nat) (h1 : ROUNDUP base LEAF_SIZE ≤ end_)
    (h2 : end_ < 2 ^ 62)
    (_h3 : end_ - ROUNDUP base LEAF_SIZE < 2 ^ 31) (s : State) (out : List (Nat × Nat))
    (hreach : Reachable base end_ s out) (nbytes : Nat) (hn : nbytes ≤ 2 ^ 63) :
    ∃ L p s1, get_level nbytes = some L ∧ bd_malloc s nbytes = some (p, s1) ∧
      (p = 0 ↔ ∀ j i, L ≤ j → j ≤ MAXENTRY s → i < NBLK s j → ¬ Free s j i) ∧
      (p = 0 → s1 = s) := by
  obtain ⟨s0, O, hi, hm, hr, hw, ht⟩ := reachable_inv h1 h2 hreach
  have hpos : 1 ≤ s.nsizes := by rw [hr.frame.1]; exact hm.nsizes_pos
  obtain ⟨L, hL, _, _, _, hcase⟩ := bd_malloc_spec s nbytes hn
  rcases hcase with ⟨hm0, hnone⟩ | ⟨hlt, id, r, hid, hfree, _, hm1, _⟩
  · refine ⟨L, 0, s, hL, hm0, ⟨fun _ j i hLj hj hi hf => ?_, fun _ => rfl⟩, fun _ => rfl⟩
    rcases hnone with hge | hnone
    · unfold MAXENTRY at hj; omega
    · have hjn : j < s.nsizes := by unfold MAXENTRY at hj; omega
      refine hnone (i * 2 ^ (j - L)) ?_ (free_descends hm hr hLj hjn hf)
      exact under_lt_nblk ⟨hLj, Nat.mul_div_cancel _ (Nat.two_pow_pos _)⟩ hj hi
  · have hne : addr s L id ≠ 0 := addr_pos s L (free_index_pos hm hr hlt hfree)
    refine ⟨L, addr s L id, r, hL, hm1, ⟨fun h => absurd h hne, fun h => ?_⟩,
      fun h => absurd h hne⟩
    exact absurd hfree (h L id (le_refl _) (by unfold MAXENTRY; omega) hid)

theorem get_level_blk_size (k : Nat) (hk : k ≤ 59) : get_level (BLK_SIZE k) = some k := by
  have hle : BLK_SIZE k ≤ 2 ^ 63 := by
    rw [BLK_SIZE_eq]
    have := Nat.pow_le_pow_right (show 0 < 2 by decide) hk
    norm_num at this ⊢
    omega
  obtain ⟨r, hr, _, h1, h2⟩ := get_level_spec (BLK_SIZE k) hle
  rw [BLK_SIZE_eq] at h1 h2
  have hrk : r = k := by
    rcases Nat.lt_trichotomy r k with h | h | h
    · have := Nat.pow_le_pow_right (show 0 < 2 by decide) (show r + 1 ≤ k by omega)
      rw [Nat.pow_succ] at this
      have := Nat.two_pow_pos r
      omega
    · exact h
    · have := h2 k h
      omega
  rw [hr, hrk]

theorem top_request_fails {s0 : State} (hm : Marked s0) (hn : s0.nsizes ≤ 59) :
    bd_malloc s0 (BLK_SIZE (MAXENTRY s0)) = some (0, s0) := by
  have hL := get_level_blk_size (MAXENTRY s0) (by unfold MAXENTRY; omega)
  rcases bd_malloc_cases s0 _ _ hL with ⟨h, _⟩ | ⟨hlt, id, r, hid, hfree, _, _, _⟩
  · exact h
  · rw [NBLK_eq, Nat.sub_self, pow_zero] at hid
    have h0 : id = 0 := by omega
    subst h0
    have := hm.first (MAXENTRY s0) hlt
    rw [hfree.1] at this
    exact Bool.noConfusion this

/-- C8 as amended: for an arena of fewer than `2^31` bytes, in the state produced by
`bd_init(base, end)` the top-class block holds
the metadata and is marked, so `bd_malloc(BLK_SIZE(MAXENTRY))` returns 0 and leaves the
state unchanged, for the first request and for a second identical one. -/
theorem top_class_request_after_init (base end_ : Nat) (h1 : ROUNDUP base LEAF_SIZE ≤ end_)
    (h2 : end_ < 2 ^ 62)
    (_h3 : end_ - ROUNDUP base LEAF_SIZE < 2 ^ 31) (s : State)
    (hi : bd_init base end_ = Except.ok s) :
    bd_malloc s (BLK_SIZE (MAXENTRY s)) = some (0, s) ∧
      malloc_all s [BLK_SIZE (MAXENTRY s), BLK_SIZE (MAXENTRY s)] = some ([0, 0], s) := by
  have hm := marked_init h1 h2 hi
  have hn : s.nsizes ≤ 59 := by
    obtain ⟨s', hs, f, _, _⟩ := bd_init_ok base end_
    rw [hi] at hs
    injection hs with hs
    subst hs
    rw [f.1]
    exact (init_frame_bounds h1 h2).2.1
  have h := top_request_fails hm hn
  refine ⟨h, ?_⟩
  simp only [malloc_all, h]

theorem repr_congr {s0 s : State} {O O' : Nat → Nat → Prop} (hr : Repr s0 s O)
    (h : ∀ L id, O L id ↔ O' L id) : Repr s0 s O' := by
  have e : O = O' := funext fun L => funext fun id => propext (h L id)
  rw [← e]; exact hr

theorem wf_congr {s0 : State} {O O' : Nat → Nat → Prop} (hw : WF s0 O)
    (h : ∀ L id, O L id ↔ O' L id) : WF s0 O' := by
  have e : O = O' := funext fun L => funext fun id => propext (h L id)
  rw [← e]; exact hw

theorem malloc_all_repr {s0 : State} (hm : Marked s0) : ∀ (sizes : List Nat) (s : State)
    (O : Nat → Nat → Prop) (ptrs : List Nat) (s1 : State), Repr s0 s O → WF s0 O →
    malloc_all s sizes = some (ptrs, s1) → (∀ p, p ∈ ptrs → p ≠ 0) →
    ∃ O1, Repr s0 s1 O1 ∧ WF s0 O1 ∧ ptrs.Nodup ∧
      (∀ L id, O L id → O1 L id ∧ addr s0 L id ∉ ptrs) ∧
      (∀ L id, O1 L id → O L id ∨ addr s0 L id ∈ ptrs) ∧
      (∀ p, p ∈ ptrs → ∃ L id, O1 L id ∧ p = addr s0 L id) := by
  intro sizes
  induction sizes with
  | nil =>
    intro s O ptrs s1 hr hw hall _
    simp only [malloc_all] at hall
    injection hall with hall
    injection hall with e1 e2
    subst e1; subst e2
    exact ⟨O, hr, hw, List.nodup_nil, fun L id ho => ⟨ho, List.not_mem_nil _⟩,
      fun L id ho => Or.inl ho, fun p hp => absurd hp (List.not_mem_nil _)⟩
  | cons n ns ih =>
    intro s O ptrs s1 hr hw hall hnz
    simp only [malloc_all] at hall
    cases hb : bd_malloc s n with
    | none => rw [hb] at hall; exact Option.noConfusion hall
    | some r =>
      obtain ⟨p, sa⟩ := r
      rw [hb] at hall
      simp only at hall
      cases hrest : malloc_all sa ns with
      | none => rw [hrest] at hall; exact Option.noConfusion hall
      | some r2 =>
        obtain ⟨ps, sb⟩ := r2
        rw [hrest] at hall
        simp only at hall
        injection hall with hall
        injection hall with e1 e2
        subst e1; subst e2
        have hp : p ≠ 0 := hnz p (List.mem_cons_self _ _)
        rcases malloc_step hm hr hw hb with ⟨h0, _⟩ |
          ⟨_, L, id, _, _, _, _, _, hpa, hnew, hr1, hw1⟩
        · exact absurd h0 hp
        · obtain ⟨O1, a1, a2, a3, a4, a5, a6⟩ := ih sa _ ps sb hr1 hw1 hrest
            (fun q hq => hnz q (List.mem_cons_of_mem _ hq))
          refine ⟨O1, a1, a2, ?_, ?_, ?_, ?_⟩
          · rw [List.nodup_cons]
            refine ⟨?_, a3⟩
            rw [hpa]
            exact (a4 L id (Or.inr ⟨rfl, rfl⟩)).2
          · intro L' id' ho
            refine ⟨(a4 L' id' (Or.inl ho)).1, ?_⟩
            intro hmem
            rcases List.mem_cons.1 hmem with h | h
            · rw [hpa] at h
              have := addr_inj hw1 (Or.inl ho) (Or.inr ⟨rfl, rfl⟩) h
              rw [this.1, this.2] at ho
              exact hnew ho
            · exact (a4 L' id' (Or.inl ho)).2 h
          · intro L' id' ho
            rcases a5 L' id' ho with (h | ⟨e1, e2⟩) | h
            · exact Or.inl h
            · right
              rw [e1, e2, ← hpa]
              exact List.mem_cons_self _ _
            · exact Or.inr (List.mem_cons_of_mem _ h)
          · intro q hq
            rcases List.mem_cons.1 hq with h | h
            · exact ⟨L, id, (a4 L id (Or.inr ⟨rfl, rfl⟩)).1, by rw [h, hpa]⟩
            · exact a6 q h

theorem free_all_repr {s0 : State} (hm : Marked s0) : ∀ (ptrs : List Nat) (s : State)
    (O : Nat → Nat → Prop), Repr s0 s O → WF s0 O → ptrs.Nodup →
    (∀ p, p ∈ ptrs → ∃ L id, O L id ∧ p = addr s0 L id) →
    ∃ s2, free_all s ptrs = Except.ok s2 ∧
      Repr s0 s2 (fun L id => O L id ∧ addr s0 L id ∉ ptrs) := by
  intro ptrs
  induction ptrs with
  | nil =>
    intro s O hr _ _ _
    exact ⟨s, rfl, repr_congr hr (fun L id => ⟨fun h => ⟨h, List.not_mem_nil _⟩, fun h => h.1⟩)⟩
  | cons p ps ih =>
    intro s O hr hw hnd hblk
    obtain ⟨L, id, hO, hpa⟩ := hblk p (List.mem_cons_self _ _)
    subst hpa
    obtain ⟨r, hf, hr1, hw1⟩ := free_repr hm hr hw hO
    rw [List.nodup_cons] at hnd
    obtain ⟨s2, hfa, hr2⟩ := ih r _ hr1 hw1 hnd.2 (by
      intro q hq
      obtain ⟨L', id', ho, hqa⟩ := hblk q (List.mem_cons_of_mem _ hq)
      refine ⟨L', id', ⟨ho, ?_⟩, hqa⟩
      rintro ⟨e1, e2⟩
      subst e1; subst e2
      rw [hqa] at hq
      exact hnd.1 hq)
    refine ⟨s2, ?_, repr_congr hr2 (fun L' id' => ?_)⟩
    · simp only [free_all, hf, hfa]
    · constructor
      · rintro ⟨⟨ho, hne⟩, hmem⟩
        refine ⟨ho, ?_⟩
        intro h
        rcases List.mem_cons.1 h with h | h
        · exact hne (addr_inj hw ho hO h)
        · exact hmem h
      · rintro ⟨ho, hmem⟩
        refine ⟨⟨ho, ?_⟩, fun h => hmem (List.mem_cons_of_mem _ h)⟩
        rintro ⟨e1, e2⟩
        subst e1; subst e2
        exact hmem (List.mem_cons_self _ _)

/-- C4: for an arena of fewer than `2^31` bytes, from every reachable state, when the
requests of a list all succeed in order,
freeing the returned pointers in any order returns, and leaves every alloc bit and every
split bit as it was before the requests. -/
theorem free_order_irrelevant (base end_ : Nat) (h1 : ROUNDUP base LEAF_SIZE ≤ end_)
    (h2 : end_ < 2 ^ 62)
    (_h3 : end_ - ROUNDUP base LEAF_SIZE < 2 ^ 31) (s : State) (out : List (Nat × Nat))
    (hreach : Reachable base end_ s out) (sizes ptrs : List Nat) (s1 : State)
    (hall : malloc_all s sizes = some (ptrs, s1)) (hok : ∀ p, p ∈ ptrs → p ≠ 0)
    (order : List Nat) (hperm : List.Perm order ptrs) :
    ∃ s2, free_all s1 order = Except.ok s2 ∧
      ∀ k i, alloc_bit s2 k i = alloc_bit s k i ∧ split_bit s2 k i = split_bit s k i := by
  obtain ⟨s0, O, hi, hm, hr, hw, ht⟩ := reachable_inv h1 h2 hreach
  obtain ⟨O1, a1, a2, a3, a4, a5, a6⟩ := malloc_all_repr hm sizes s O ptrs s1 hr hw hall hok
  obtain ⟨s2, hf, hr2⟩ := free_all_repr hm order s1 O1 a1 a2 (hperm.nodup_iff.2 a3)
    (fun p hp => a6 p (hperm.mem_iff.1 hp))
  refine ⟨s2, hf, bits_eq_of_repr hr2 hr (fun L id => ?_)⟩
  constructor
  · rintro ⟨ho, hmem⟩
    rcases a5 L id ho with h | h
    · exact h
    · exact absurd (hperm.mem_iff.2 h) hmem
  · intro ho
    exact ⟨(a4 L id ho).1, fun h => (a4 L id ho).2 (hperm.mem_iff.1 h)⟩

theorem addr_level_inj {s : State} {k a b : Nat} (h : addr s k a = addr s k b) : a = b := by
  unfold addr at h
  exact Nat.eq_of_mul_eq_mul_right (BLK_SIZE_pos k) (by omega)

section
variable {s0 : State} {O : Nat → Nat → Prop}

theorem free_first_buddy {s : State} {k c : Nat} (hm : Marked s0) (hr : Repr s0 s O)
    (hw : WF s0 O) (hc : O k c) (hb : O k (buddy_of c)) (hk : k < MAXENTRY s0) :
    ∃ sa, bd_free s (addr s0 k c) = Except.ok sa ∧ Repr s0 sa (Without O k c) ∧
      WF s0 (Without O k c) ∧ alloc_bit sa k c = false ∧
      alloc_bit sa k (buddy_of c) = true ∧ split_bit sa (k + 1) (c / 2) = true := by
  obtain ⟨sa, hf, hra, hwa⟩ := free_repr hm hr hw hc
  have hbw : Without O k c k (buddy_of c) := ⟨hb, fun e => buddy_ne c e.2⟩
  refine ⟨sa, hf, hra, hwa, ?_, ?_, ?_⟩
  · apply bool_ne_true
    intro h
    rcases (hra.alloc k c).1 h with h | ⟨L', id', ho, hu⟩
    · rw [hw.unmarked k c hc] at h
      exact Bool.noConfusion h
    · have := hw.antichain k c L' id' hc ho.1 hu
      exact ho.2 ⟨this.1.symm, this.2.symm⟩
  · exact (hra.alloc _ _).2 (Or.inr ⟨k, buddy_of c, hbw, under_refl _ _⟩)
  · refine (hra.split _ _).2 (Or.inr ⟨k, buddy_of c, hbw, ⟨by omega, ?_⟩, by omega⟩)
    have : k + 1 - k = 1 := by omega
    rw [this, pow_one, buddy_half]

theorem free_second_buddy {sa : State} {k c : Nat} (hm : Marked s0) (hw : WF s0 O)
    (hc : O k c) (hb : O k (buddy_of c)) (hk : k < MAXENTRY s0)
    (hra : Repr s0 sa (Without O k c)) :
    ∃ sab, bd_free sa (addr s0 k (buddy_of c)) = Except.ok sab ∧
      Repr s0 sab (Without (Without O k c) k (buddy_of c)) ∧
      alloc_bit sab (k + 1) (c / 2) = false ∧ split_bit sab (k + 1) (c / 2) = false := by
  have hbw : Without O k c k (buddy_of c) := ⟨hb, fun e => buddy_ne c e.2⟩
  obtain ⟨sab, hf, hrab, _⟩ := free_repr hm hra (wf_without hw) hbw
  have hkn : k + 1 < s0.nsizes := by unfold MAXENTRY at hk; omega
  have hpar0 : ¬ alloc_bit s0 (k + 1) (c / 2) = true := by
    intro h
    rw [hm.parent k _ hkn] at h
    have e := children_half c
    rcases h with h | h
    · rcases (e _).1 (Or.inl rfl) with e1 | e1
      · rw [e1, hw.unmarked k c hc] at h; exact Bool.noConfusion h
      · rw [e1, hw.unmarked _ _ hb] at h; exact Bool.noConfusion h
    · rcases (e _).1 (Or.inr rfl) with e1 | e1
      · rw [e1, hw.unmarked k c hc] at h; exact Bool.noConfusion h
      · rw [e1, hw.unmarked _ _ hb] at h; exact Bool.noConfusion h
  refine ⟨sab, hf, hrab, ?_, ?_⟩
  · apply bool_ne_true
    intro h
    rcases (hrab.alloc _ _).1 h with h | ⟨L', id', ho, hu⟩
    · exact hpar0 h
    · have hu2 : Under L' id' k c := under_trans hu (under_parent_of (under_refl k c))
      have := hw.antichain k c L' id' hc ho.1.1 hu2
      have := hu.1
      omega
  · apply bool_ne_true
    intro h
    rcases (hrab.split _ _).1 h with h | ⟨L', id', ho, hab, _⟩
    · rw [hm.split_eq _ _ (by omega) hkn] at h
      exact hpar0 h
    · have hbel := (below_iff _ _ _ _).1 ((above_iff_below _ _ _ _).1 hab)
      rcases (under_parent _ _ _ _).1 hbel.1 with ⟨e1, _⟩ | hu | hu
      · omega
      · exact ho.1.2 (hw.antichain L' id' k c ho.1.1 hc hu)
      · exact ho.2 (hw.antichain L' id' k (buddy_of c) ho.1.1 hb hu)

end

theorem buddy_of_even (i : Nat) : buddy_of (2 * i) = 2 * i + 1 := by
  unfold buddy_of
  have : 2 * i % 2 = 0 := by omega
  simp [this]

theorem buddy_of_odd (i : Nat) : buddy_of (2 * i + 1) = 2 * i := by
  unfold buddy_of
  have : ¬ ((2 * i + 1) % 2 = 0) := by omega
  simp [this]

/-- C5: for an arena of fewer than `2^31` bytes, in a reachable state in which the buddies
`2i` and `2i+1` of a class
`k < MAXENTRY` are both outstanding allocations of class `k`: (1) freeing one of them
clears its alloc bit, leaves the alloc bit of the other set and leaves the split bit of
the parent `i` at class `k+1` set; (2) freeing both, in either order, leaves the parent
with its alloc bit and its split bit clear, and the two orders give the same bitmaps. -/
theorem free_buddy_pair (base end_ : Nat) (h1 : ROUNDUP base LEAF_SIZE ≤ end_)
    (h2 : end_ < 2 ^ 62)
    (_h3 : end_ - ROUNDUP base LEAF_SIZE < 2 ^ 31) (s : State) (out : List (Nat × Nat))
    (hreach : Reachable base end_ s out) (k i na nb : Nat) (hk : k < MAXENTRY s)
    (ha : (addr s k (2 * i), na) ∈ out) (hb : (addr s k (2 * i + 1), nb) ∈ out)
    (hla : get_level na = some k) (hlb : get_level nb = some k) :
    ∃ sa sb sab sba,
      bd_free s (addr s k (2 * i)) = Except.ok sa ∧
      bd_free s (addr s k (2 * i + 1)) = Except.ok sb ∧
      (alloc_bit sa k (2 * i) = false ∧ alloc_bit sa k (2 * i + 1) = true ∧
        split_bit sa (k + 1) i = true) ∧
      (alloc_bit sb k (2 * i + 1) = false ∧ alloc_bit sb k (2 * i) = true ∧
        split_bit sb (k + 1) i = true) ∧
      bd_free sa (addr s k (2 * i + 1)) = Except.ok sab ∧
      bd_free sb (addr s k (2 * i)) = Except.ok sba ∧
      (alloc_bit sab (k + 1) i = false ∧ split_bit sab (k + 1) i = false) ∧
      (alloc_bit sba (k + 1) i = false ∧ split_bit sba (k + 1) i = false) ∧
      ∀ j m, alloc_bit sab j m = alloc_bit sba j m ∧ split_bit sab j m = split_bit sba j m := by
  obtain ⟨s0, O, hi, hm, hr, hw, ht⟩ := reachable_inv h1 h2 hreach
  have hk0 : k < MAXENTRY s0 := by rw [← hr.frame.maxentry]; exact hk
  have blk : ∀ c n, (addr s k c, n) ∈ out → get_level n = some k → O k c := by
    intro c n hmem hl
    obtain ⟨L, id, hL, ho, hp⟩ := ht.of_out _ _ hmem
    rw [hl] at hL
    injection hL with hL
    subst hL
    rw [hr.frame.addr] at hp
    rw [addr_level_inj hp]
    exact ho
  have hOa := blk _ _ ha hla
  have hOb := blk _ _ hb hlb
  have e1 : (2 * i) / 2 = i := by omega
  have e2 : (2 * i + 1) / 2 = i := by omega
  have hOa' : O k (buddy_of (2 * i + 1)) := by rw [buddy_of_odd]; exact hOa
  have hOb' : O k (buddy_of (2 * i)) := by rw [buddy_of_even]; exact hOb
  obtain ⟨sa, fa, ra, _, a1, a2, a3⟩ := free_first_buddy hm hr hw hOa hOb' hk0
  obtain ⟨sb, fb, rb, _, b1, b2, b3⟩ := free_first_buddy hm hr hw hOb hOa' hk0
  obtain ⟨sab, fab, rab, c1, c2⟩ := free_second_buddy hm hw hOa hOb' hk0 ra
  obtain ⟨sba, fba, rba, d1, d2⟩ := free_second_buddy hm hw hOb hOa' hk0 rb
  rw [buddy_of_even] at a2 fab rab
  rw [buddy_of_odd] at b2 fba rba
  rw [e1] at a3 c1 c2
  rw [e2] at b3 d1 d2
  rw [← hr.frame.addr] at fa fb fab fba
  refine ⟨sa, sb, sab, sba, fa, fb, ⟨a1, a2, a3⟩, ⟨b1, b2, b3⟩, fab, fba, ⟨c1, c2⟩, ⟨d1, d2⟩,
    bits_eq_of_repr rab rba (fun L id => ?_)⟩
  unfold Without
  tauto

theorem demo_init_ok : bd_init 0 16384 = Except.ok (demo_init 16384) := rfl

theorem demo_reach100 : Reachable 0 16384 (demo_state (demo_init 16384) 100) [(640, 100)] :=
  Reachable.malloc (Reachable.init demo_init_ok) rfl (by decide)

theorem demo_reach1 : Reachable 0 16384 (demo_state (demo_init 16384) 900) [(1024, 900)] :=
  Reachable.malloc (Reachable.init demo_init_ok) rfl (by decide)

theorem demo_reach2 : Reachable 0 16384 (demo_state (demo_state (demo_init 16384) 900) 900)
    [(2048, 900), (1024, 900)] :=
  Reachable.malloc demo_reach1 rfl (by decide)

theorem demo_reach3 :
    Reachable 0 16384 (demo_state (demo_state (demo_state (demo_init 16384) 900) 900) 900)
      [(3072, 900), (2048, 900), (1024, 900)] :=
  Reachable.malloc demo_reach2 rfl (by decide)

/-- Witness of C1: with the block at 640 outstanding in the arena `[0, 16384)` (11 classes,
metadata in `[0, 576)`), a request of 900 bytes returns the block `[1024, 2048)`. -/
theorem bd_malloc_block_exclusive_witness :
    ∃ L, get_level 900 = some L ∧ meta_end 0 16384 ≤ 1024 ∧ 1024 + BLK_SIZE L ≤ 16384 ∧
      1024 + BLK_SIZE L ≤ tail_start 0 16384 ∧
      ∀ q m L', (q, m) ∈ [(640, 100)] → get_level m = some L' →
        1024 + BLK_SIZE L ≤ q ∨ q + BLK_SIZE L' ≤ 1024 :=
  bd_malloc_block_exclusive 0 16384 (by decide) (by decide) (by decide) (by decide) (by decide)
    (demo_state (demo_init 16384) 100) [(640, 100)] demo_reach100 900 1024
    (demo_state (demo_state (demo_init 16384) 100) 900) rfl (by decide)

/-- Witness of C3: a request of 100 bytes right after `bd_init(0, 16384)`. -/
theorem malloc_free_round_trip_witness :
    ∃ p s1 s2, bd_malloc (demo_init 16384) 100 = some (p, s1) ∧
      bd_free s1 p = Except.ok s2 ∧
      ∀ k i, alloc_bit s2 k i = alloc_bit (demo_init 16384) k i ∧
        split_bit s2 k i = split_bit (demo_init 16384) k i :=
  malloc_free_round_trip 0 16384 (by decide) (by decide) (by decide) (demo_init 16384) []
    (Reachable.init demo_init_ok) 100 (by decide) (by decide)

theorem demo_malloc1 :
    bd_malloc (demo_init 16384) 100 = some (640, demo_state (demo_init 16384) 100) := rfl

theorem demo_malloc2 : bd_malloc (demo_state (demo_init 16384) 100) 900 =
    some (1024, demo_state (demo_state (demo_init 16384) 100) 900) := rfl

theorem demo_malloc3 : bd_malloc (demo_state (demo_state (demo_init 16384) 100) 900) 1000 =
    some (2048, demo_state (demo_state (demo_state (demo_init 16384) 100) 900) 1000) := rfl

theorem demo_malloc4 :
    bd_malloc (demo_state (demo_state (demo_state (demo_init 16384) 100) 900) 1000) 1000 =
      some (3072,
        demo_state (demo_state (demo_state (demo_state (demo_init 16384) 100) 900) 1000) 1000) :=
  rfl

theorem demo_malloc_all : malloc_all (demo_init 16384) [100, 900, 1000, 1000] =
    some ([640, 1024, 2048, 3072],
      demo_state (demo_state (demo_state (demo_state (demo_init 16384) 100) 900) 1000) 1000) := by
  simp only [malloc_all, demo_malloc1, demo_malloc2, demo_malloc3, demo_malloc4]

/-- Witness of C4: the requests 100, 900, 1000, 1000 of `sys_demo` in the arena
`[0, 16384)`, released in the reverse order. -/
theorem free_order_irrelevant_witness :
    ∃ s2, free_all
        (demo_state (demo_state (demo_state (demo_state (demo_init 16384) 100) 900) 1000) 1000)
        [3072, 2048, 1024, 640] = Except.ok s2 ∧
      ∀ k i, alloc_bit s2 k i = alloc_bit (demo_init 16384) k i ∧
        split_bit s2 k i = split_bit (demo_init 16384) k i :=
  free_order_irrelevant 0 16384 (by decide) (by decide) (by decide) (demo_init 16384) []
    (Reachable.init demo_init_ok) [100, 900, 1000, 1000] [640, 1024, 2048, 3072]
    (demo_state (demo_state (demo_state (demo_state (demo_init 16384) 100) 900) 1000) 1000)
    demo_malloc_all (by decide) [3072, 2048, 1024, 640]
    (List.reverse_perm [640, 1024, 2048, 3072])

/-- Witness of C5: three 900-byte requests in the arena `[0, 16384)` return the blocks 1, 2
and 3 of class 6; the blocks 2 and 3 are buddies. -/
theorem free_buddy_pair_witness :
    ∃ sa sb sab sba,
      bd_free (demo_state (demo_state (demo_state (demo_init 16384) 900) 900) 900)
        (addr (demo_state (demo_state (demo_state (demo_init 16384) 900) 900) 900) 6 (2 * 1)) =
          Except.ok sa ∧
      bd_free (demo_state (demo_state (demo_state (demo_init 16384) 900) 900) 900)
        (addr (demo_state (demo_state (demo_state (demo_init 16384) 900) 900) 900) 6
          (2 * 1 + 1)) = Except.ok sb ∧
      (alloc_bit sa 6 (2 * 1) = false ∧ alloc_bit sa 6 (2 * 1 + 1) = true ∧
        split_bit sa (6 + 1) 1 = true) ∧
      (alloc_bit sb 6 (2 * 1 + 1) = false ∧ alloc_bit sb 6 (2 * 1) = true ∧
        split_bit sb (6 + 1) 1 = true) ∧
      bd_free sa
        (addr (demo_state (demo_state (demo_state (demo_init 16384) 900) 900) 900) 6
          (2 * 1 + 1)) = Except.ok sab ∧
      bd_free sb
        (addr (demo_state (demo_state (demo_state (demo_init 16384) 900) 900) 900) 6 (2 * 1)) =
          Except.ok sba ∧
      (alloc_bit sab (6 + 1) 1 = false ∧ split_bit sab (6 + 1) 1 = false) ∧
      (alloc_bit sba (6 + 1) 1 = false ∧ split_bit sba (6 + 1) 1 = false) ∧
      ∀ j m, alloc_bit sab j m = alloc_bit sba j m ∧ split_bit sab j m = split_bit sba j m :=
  free_buddy_pair 0 16384 (by decide) (by decide) (by decide)
    (demo_state (demo_state (demo_state (demo_init 16384) 900) 900) 900)
    [(3072, 900), (2048, 900), (1024, 900)] demo_reach3 6 1 900 900 (by decide) (by decide)
    (by decide) (by decide) (by decide)

/-- Witness of C6: a request of 100 bytes right after `bd_init(0, 16384)`. -/
theorem bd_malloc_fails_iff_exhausted_witness :
    ∃ L p s1, get_level 100 = some L ∧ bd_malloc (demo_init 16384) 100 = some (p, s1) ∧
      (p = 0 ↔ ∀ j i, L ≤ j → j ≤ MAXENTRY (demo_init 16384) → i < NBLK (demo_init 16384) j →
        ¬ Free (demo_init 16384) j i) ∧
      (p = 0 → s1 = demo_init 16384) :=
  bd_malloc_fails_iff_exhausted 0 16384 (by decide) (by decide) (by decide) (demo_init 16384) []
    (Reachable.init demo_init_ok) 100 (by decide)

/-- Witness of C8 as amended, in the arena `[0, 16384)`. -/
theorem top_class_request_after_init_witness :
    bd_malloc (demo_init 16384) (BLK_SIZE (MAXENTRY (demo_init 16384))) =
        some (0, demo_init 16384) ∧
      malloc_all (demo_init 16384)
        [BLK_SIZE (MAXENTRY (demo_init 16384)), BLK_SIZE (MAXENTRY (demo_init 16384))] =
        some ([0, 0], demo_init 16384) :=
  top_class_request_after_init 0 16384 (by decide) (by decide) (by decide) (demo_init 16384)
    demo_init_ok

/-- Counterexample to C8 as stated: `bd_init(0, 16384)` gives 11 classes (so that the
closing `print_level(10)` reads an entry of the array) and a top class of 16384 bytes, and
the first request `bd_malloc(16384)` returns 0. -/
theorem top_class_request_counterexample :
    bd_init 0 16384 = Except.ok (demo_init 16384) ∧ (demo_init 16384).nsizes = 11 ∧
      BLK_SIZE (MAXENTRY (demo_init 16384)) = 16384 ∧
      (bd_malloc (demo_init 16384) (BLK_SIZE (MAXENTRY (demo_init 16384)))).map Prod.fst =
        some 0 :=
  ⟨rfl, by decide, by decide, by decide⟩

/-! ## Block arithmetic, marking and class recovery -/

/-- C11: with `HEAP_SIZE < 2^31`, for every class `k <= MAXENTRY`: (i) `blk_index(k,
addr(k, i)) = i` for every `i < NBLK(k)`; (ii) for every address `q` of the arena,
`i = blk_index(k, q)` satisfies `i < NBLK(k)` and `addr(k, i) <= q < addr(k, i) +
BLK_SIZE(k)`, and it is the only index whose block contains `q`. -/
theorem blocks_tile_arena (s : State) (k : Nat) (_hH : HEAP_SIZE s < 2 ^ 31)
    (hk : k ≤ MAXENTRY s) :
    (∀ i, i < NBLK s k → blk_index s k (addr s k i) = i) ∧
    (∀ q, s.bd_base ≤ q → q < s.bd_base + HEAP_SIZE s →
      blk_index s k q < NBLK s k ∧ addr s k (blk_index s k q) ≤ q ∧
      q < addr s k (blk_index s k q) + BLK_SIZE k ∧
      ∀ i, addr s k i ≤ q → q < addr s k i + BLK_SIZE k → i = blk_index s k q) := by
  refine ⟨fun i _ => blk_index_addr s k i, fun q hq1 hq2 => ?_⟩
  have hpos := BLK_SIZE_pos k
  have hH := heap_size_nblk s k hk
  have hdm := Nat.div_add_mod (q - s.bd_base) (BLK_SIZE k)
  have hlt := Nat.mod_lt (q - s.bd_base) hpos
  have e : BLK_SIZE k * ((q - s.bd_base) / BLK_SIZE k) =
      (q - s.bd_base) / BLK_SIZE k * BLK_SIZE k := Nat.mul_comm _ _
  unfold blk_index addr
  refine ⟨?_, by omega, by omega, fun i h1 h2 => ?_⟩
  · rw [Nat.div_lt_iff_lt_mul hpos, ← hH]
    omega
  · have h3 : i * BLK_SIZE k ≤ q - s.bd_base := by omega
    have h4 : q - s.bd_base < (i + 1) * BLK_SIZE k := by
      have : (i + 1) * BLK_SIZE k = i * BLK_SIZE k + BLK_SIZE k := by ring
      omega
    apply Nat.le_antisymm
    · exact (Nat.le_div_iff_mul_le hpos).2 h3
    · exact Nat.lt_succ_iff.1 ((Nat.div_lt_iff_lt_mul hpos).2 h4)

/-- Witness of C11: class 3 of the arena `[0, 1024)`. -/
theorem blocks_tile_arena_witness :
    (∀ i, i < NBLK (demo_init 1024) 3 →
      blk_index (demo_init 1024) 3 (addr (demo_init 1024) 3 i) = i) ∧
    (∀ q, (demo_init 1024).bd_base ≤ q →
      q < (demo_init 1024).bd_base + HEAP_SIZE (demo_init 1024) →
      blk_index (demo_init 1024) 3 q < NBLK (demo_init 1024) 3 ∧
      addr (demo_init 1024) 3 (blk_index (demo_init 1024) 3 q) ≤ q ∧
      q < addr (demo_init 1024) 3 (blk_index (demo_init 1024) 3 q) + BLK_SIZE 3 ∧
      ∀ i, addr (demo_init 1024) 3 i ≤ q → q < addr (demo_init 1024) 3 i + BLK_SIZE 3 →
        i = blk_index (demo_init 1024) 3 q) :=
  blocks_tile_arena (demo_init 1024) 3 (by decide) (by decide)

/-- C14: in a state with `nsizes >= 1` and `HEAP_SIZE <= 2^31` (so that the `int` values of
`blk_index` and `addr` are exact), `set_blocks_above_as_split` returns for every class `L <= MAXENTRY`
(`set_blocks_below_as_allocated` is a total function), and after a `bd_malloc(nbytes)` that
returns the non-null block `id` of class `L = get_level(nbytes)`: the alloc bit of `(L, id)`
and of every `(j, i)` with `j < L` and `i / 2^(L-j) = id` is set, the split bit of
`(j, id / 2^(j-L))` is set for every `L < j <= MAXENTRY`, and every other alloc or split bit
has the value it had before the call. -/
theorem bd_malloc_marks (s : State) (_hns : 1 ≤ s.nsizes) (_hH : HEAP_SIZE s ≤ 2 ^ 31) :
    (∀ L p, L ≤ MAXENTRY s → ∃ r, set_blocks_above_as_split s.nsizes s L p = some r) ∧
    (∀ nbytes p s1, bd_malloc s nbytes = some (p, s1) → p ≠ 0 →
      ∃ L id, get_level nbytes = some L ∧ id < NBLK s L ∧ p = addr s L id ∧
        (∀ k i, alloc_bit s1 k i = true ↔
          (k = L ∧ i = id) ∨ (k < L ∧ i / 2 ^ (L - k) = id) ∨ alloc_bit s k i = true) ∧
        (∀ k i, split_bit s1 k i = true ↔
          (L < k ∧ k ≤ MAXENTRY s ∧ i = id / 2 ^ (k - L)) ∨ split_bit s k i = true)) := by
  constructor
  · intro L p hL
    obtain ⟨r, hr, _⟩ := set_blocks_above_spec s.nsizes s L p hL (by unfold MAXENTRY; omega)
    exact ⟨r, hr⟩
  · intro nbytes p s1 h hp
    obtain ⟨L, hL⟩ := bd_malloc_some_level h
    rcases bd_malloc_cases s nbytes L hL with ⟨h0, _⟩ | ⟨_, id, r, hid, _, _, hm, _, pa, ps⟩
    · rw [h0] at h
      injection h with h
      injection h with h1 _
      exact absurd h1.symm hp
    · rw [hm] at h
      injection h with h
      injection h with h1 h2
      subst h1; subst h2
      refine ⟨L, id, hL, hid, rfl, fun k i => pa k i, fun k i => ?_⟩
      rw [ps k i]
      unfold Above
      tauto

/-- Witness of C14: the request of 100 bytes in the arena `[0, 16384)`. -/
theorem bd_malloc_marks_witness :
    (∃ r, set_blocks_above_as_split (demo_init 16384).nsizes (demo_init 16384) 3 640 =
      some r) ∧
    ∃ L id, get_level 100 = some L ∧ id < NBLK (demo_init 16384) L ∧
      640 = addr (demo_init 16384) L id ∧
      (∀ k i, alloc_bit (demo_state (demo_init 16384) 100) k i = true ↔
        (k = L ∧ i = id) ∨ (k < L ∧ i / 2 ^ (L - k) = id) ∨
          alloc_bit (demo_init 16384) k i = true) ∧
      (∀ k i, split_bit (demo_state (demo_init 16384) 100) k i = true ↔
        (L < k ∧ k ≤ MAXENTRY (demo_init 16384) ∧ i = id / 2 ^ (k - L)) ∨
          split_bit (demo_init 16384) k i = true) :=
  ⟨(bd_malloc_marks (demo_init 16384) (by decide) (by decide)).1 3 640 (by decide),
    (bd_malloc_marks (demo_init 16384) (by decide) (by decide)).2 100 640
      (demo_state (demo_init 16384) 100) rfl (by decide)⟩

/-- C15: for an arena of fewer than `2^31` bytes, in every reachable state, for every
outstanding pointer `p` returned by
`bd_malloc(nbytes)`, `size(p) = get_level(nbytes)`. -/
theorem size_recovers_class (base end_ : Nat) (h1 : ROUNDUP base LEAF_SIZE ≤ end_)
    (h2 : end_ < 2 ^ 62)
    (_h3 : end_ - ROUNDUP base LEAF_SIZE < 2 ^ 31) (s : State) (out : List (Nat × Nat))
    (hreach : Reachable base end_ s out) (p nbytes : Nat) (hmem : (p, nbytes) ∈ out) :
    get_level nbytes = some (size s p) := by
  obtain ⟨s0, O, _, hm, hr, hw, ht⟩ := reachable_inv h1 h2 hreach
  obtain ⟨L, id, hL, hO, hp⟩ := ht.of_out _ _ hmem
  rw [hp, size_of_outstanding hm hr hw hO]
  exact hL

/-- Witness of C15: three outstanding 1024-byte blocks of the arena `[0, 16384)`. -/
theorem size_recovers_class_witness :
    get_level 900 =
      some (size (demo_state (demo_state (demo_state (demo_init 16384) 900) 900) 900) 2048) :=
  size_recovers_class 0 16384 (by decide) (by decide) (by decide) _ _ demo_reach3 2048 900
    (by decide)

/-- C18: in a state with `HEAP_SIZE <= 2^31`, for 16-aligned addresses `start < stop` with
`bd_base <= start` and `stop <= bd_base + HEAP_SIZE`, `bd_mark(start, stop)` returns, and afterwards for every
class `k < nsizes` and index `i < NBLK(k)` the alloc bit of `(k, i)` is set iff it was set
before or the block `[addr(k,i), addr(k,i)+BLK_SIZE(k))` intersects `[start, stop)`; for
`k >= 1` the same holds for the split bit; and no alloc or split bit of any class is
cleared. -/
theorem bd_mark_sets_intersecting (s : State) (_hH : HEAP_SIZE s ≤ 2 ^ 31) (start stop : Nat)
    (ha : start % LEAF_SIZE = 0) (hb : stop % LEAF_SIZE = 0) (_hlt : start < stop)
    (hlo : s.bd_base ≤ start) (_hhi : stop ≤ s.bd_base + HEAP_SIZE s) :
    ∃ s1, bd_mark s start stop = Except.ok s1 ∧
      (∀ k i, k < s.nsizes → i < NBLK s k →
        (alloc_bit s1 k i = true ↔ alloc_bit s k i = true ∨
          (addr s k i < stop ∧ start < addr s k i + BLK_SIZE k))) ∧
      (∀ k i, 1 ≤ k → k < s.nsizes → i < NBLK s k →
        (split_bit s1 k i = true ↔ split_bit s k i = true ∨
          (addr s k i < stop ∧ start < addr s k i + BLK_SIZE k))) ∧
      (∀ k i, alloc_bit s k i = true → alloc_bit s1 k i = true) ∧
      (∀ k i, split_bit s k i = true → split_bit s1 k i = true) := by
  obtain ⟨_, al, sp⟩ := bd_mark_loop_spec start stop s.nsizes s 0 (by omega)
  have hit : ∀ k i, (blk_index s k start ≤ i ∧ i < blk_index_next s k stop) ↔
      (addr s k i < stop ∧ start < addr s k i + BLK_SIZE k) := by
    intro k i
    rw [mark_range_iff]
    unfold Hits addr
    have e : (i + 1) * BLK_SIZE k = i * BLK_SIZE k + BLK_SIZE k := by ring
    rw [e]
    constructor
    · rintro ⟨h1, h2⟩; exact ⟨by omega, by omega⟩
    · rintro ⟨h1, h2⟩; exact ⟨by omega, by omega⟩
  refine ⟨bd_mark_loop start stop s.nsizes s 0, ?_, fun k i hk _ => ?_, fun k i hk1 hk _ => ?_,
    fun k i h => (al k i).2 (Or.inr h), fun k i h => (sp k i).2 (Or.inr h)⟩
  · unfold bd_mark
    rw [if_neg (by rw [ha, hb]; simp)]
  · rw [al, ← hit]
    constructor
    · rintro (⟨_, _, h⟩ | h)
      · exact Or.inr h
      · exact Or.inl h
    · rintro (h | h)
      · exact Or.inr h
      · exact Or.inl ⟨Nat.zero_le _, hk, h⟩
  · rw [sp, ← hit]
    constructor
    · rintro (⟨_, _, _, h⟩ | h)
      · exact Or.inr h
      · exact Or.inl h
    · rintro (h | h)
      · exact Or.inr h
      · exact Or.inl ⟨Nat.zero_le _, hk, by omega, h⟩

/-- Witness of C18: marking `[32, 64)` in the all-zero state with three classes. -/
theorem bd_mark_sets_intersecting_witness :
    ∃ s1, bd_mark (zero_state 3) 32 64 = Except.ok s1 ∧
      (∀ k i, k < (zero_state 3).nsizes → i < NBLK (zero_state 3) k →
        (alloc_bit s1 k i = true ↔ alloc_bit (zero_state 3) k i = true ∨
          (addr (zero_state 3) k i < 64 ∧ 32 < addr (zero_state 3) k i + BLK_SIZE k))) ∧
      (∀ k i, 1 ≤ k → k < (zero_state 3).nsizes → i < NBLK (zero_state 3) k →
        (split_bit s1 k i = true ↔ split_bit (zero_state 3) k i = true ∨
          (addr (zero_state 3) k i < 64 ∧ 32 < addr (zero_state 3) k i + BLK_SIZE k))) ∧
      (∀ k i, alloc_bit (zero_state 3) k i = true → alloc_bit s1 k i = true) ∧
      (∀ k i, split_bit (zero_state 3) k i = true → split_bit s1 k i = true) :=
  bd_mark_sets_intersecting (zero_state 3) (by decide) 32 64 (by decide) (by decide)
    (by decide) (by decide) (by decide)

end Buddy

/-! # Theorems on the free-list variant -/

namespace BuddyMy

theorem my_BLK_SIZE_eq (k : Nat) : BLK_SIZE k = 16 * 2 ^ k := by
  unfold BLK_SIZE LEAF_SIZE
  rw [Nat.shiftLeft_eq, Nat.one_mul, Nat.mul_comm]

theorem find_list_spec (s : State) : ∀ (fuel k0 : Nat), s.nsizes - k0 ≤ fuel →
    k0 ≤ find_list s fuel k0 ∧
    (∀ j, k0 ≤ j → j < find_list s fuel k0 → j < s.nsizes →
      (s.size_infos j).free_list = []) ∧
    (find_list s fuel k0 < s.nsizes → (s.size_infos (find_list s fuel k0)).free_list ≠ []) := by
  intro fuel
  induction fuel with
  | zero =>
    intro k0 h
    simp only [find_list]
    exact ⟨le_refl _, fun j h1 h2 _ => by omega, fun h1 => by omega⟩
  | succ fuel ih =>
    intro k0 h
    simp only [find_list]
    by_cases hk : k0 < s.nsizes
    · rw [if_pos hk]
      cases hl : (s.size_infos k0).free_list with
      | nil =>
        have he : lst_empty s k0 = true := by unfold lst_empty; rw [hl]; rfl
        simp only [he, Bool.not_true, Bool.false_eq_true, if_false]
        obtain ⟨a, b, c⟩ := ih (k0 + 1) (by omega)
        refine ⟨by omega, fun j h1 h2 h3 => ?_, c⟩
        by_cases hj : j = k0
        · rw [hj]; exact hl
        · exact b j (by omega) h2 h3
      | cons x xs =>
        have he : lst_empty s k0 = false := by unfold lst_empty; rw [hl]; rfl
        simp only [he, Bool.not_false, if_true]
        exact ⟨le_refl _, fun j h1 h2 _ => by omega, fun _ => by rw [hl]; exact List.cons_ne_nil _ _⟩
    · rw [if_neg hk]
      exact ⟨le_refl _, fun j h1 h2 _ => by omega, fun h1 => by omega⟩

theorem find_a_size_spec (n : Nat) (hn : n ≤ 2 ^ 63) :
    ∃ k, find_a_size n = some k ∧ n ≤ BLK_SIZE k ∧ ∀ j, j < k → BLK_SIZE j < n := by
  obtain ⟨r, h1, _, h3, h4⟩ := Buddy.get_level_spec n hn
  refine ⟨r, by rw [Buddy.find_a_size_eq]; exact h1, by rw [my_BLK_SIZE_eq]; exact h3, fun j hj => ?_⟩
  rw [my_BLK_SIZE_eq]; exact h4 j hj

/-- C12: for every state whose free lists hold no null address and every `num_bytes <=
2^63`, `bd_malloc(num_bytes)` returns, and it returns 0 if and only if the free list of
every class `j` with `find_a_size(num_bytes) <= j < nsizes` is empty; when it returns 0 the
state (every allocated bit, split bit and free list) is unchanged. -/
theorem bd_malloc_zero_iff (s : State) (num_bytes : Nat) (hn : num_bytes ≤ 2 ^ 63)
    (hwf : ∀ j, 0 ∉ (s.size_infos j).free_list) :
    ∃ k p s1, find_a_size num_bytes = some k ∧ bd_malloc s num_bytes = some (p, s1) ∧
      (p = 0 ↔ ∀ j, k ≤ j → j < s.nsizes → (s.size_infos j).free_list = []) ∧
      (p = 0 → s1 = s) := by
  obtain ⟨k, hk, _⟩ := find_a_size_spec num_bytes hn
  obtain ⟨a, b, c⟩ := find_list_spec s (s.nsizes - k) k (le_refl _)
  unfold bd_malloc
  rw [hk]
  simp only []
  generalize find_list s (s.nsizes - k) k = r at a b c
  by_cases hr : r ≥ s.nsizes
  · rw [if_pos hr]
    exact ⟨k, 0, s, rfl, rfl, ⟨fun _ j h1 h2 => b j h1 (by omega) h2, fun _ => rfl⟩, fun _ => rfl⟩
  · rw [if_neg hr]
    have hne := c (by omega)
    unfold lst_pop
    cases hl : (s.size_infos r).free_list with
    | nil => exact absurd hl hne
    | cons x xs =>
      simp only []
      have hx : x ≠ 0 := by
        intro h0
        apply hwf r
        rw [hl, h0]
        exact List.mem_cons_self _ _
      refine ⟨k, x, _, rfl, rfl, ⟨fun h => absurd h hx, fun h => ?_⟩, fun h => absurd h hx⟩
      exact absurd (h r a (by omega)) hne

/-- Witness of C12: a request of 16 bytes in `my_state`, which succeeds. -/
theorem bd_malloc_zero_iff_witness :
    ∃ k p s1, find_a_size 16 = some k ∧ bd_malloc my_state 16 = some (p, s1) ∧
      (p = 0 ↔ ∀ j, k ≤ j → j < my_state.nsizes → (my_state.size_infos j).free_list = []) ∧
      (p = 0 → s1 = my_state) :=
  bd_malloc_zero_iff my_state 16 (by decide) (fun j => by
    unfold my_state
    by_cases h : j = 2
    · simp [h]
    · simp [h])

/-- C20: with the macro `BLK_SIZE(k)` expanded textually, so that `offset / BLK_SIZE(k)` is
`(offset / 2^k) * 16`, converting index `i` of class `k` to an address and back gives
`256 * i` (all values within `int`), which differs from `i` for every `i >= 1`. -/
theorem index_round_trip_scaled (s : State) (k i : Nat) (_h1 : i * 2 ^ k * 16 < 2 ^ 31)
    (_h2 : 256 * i < 2 ^ 31) :
    get_block_index_from_addr s k (get_addr_from_block_index s k i) = 256 * i ∧
    (1 ≤ i → get_block_index_from_addr s k (get_addr_from_block_index s k i) ≠ i) := by
  have e : get_block_index_from_addr s k (get_addr_from_block_index s k i) = 256 * i := by
    unfold get_block_index_from_addr get_addr_from_block_index LEAF_SIZE
    rw [Nat.add_sub_cancel_left, Nat.shiftLeft_eq, Nat.one_mul,
      show i * 2 ^ k * 16 = i * 16 * 2 ^ k by ring, Nat.mul_div_cancel _ (Nat.two_pow_pos k)]
    omega
  exact ⟨e, fun h => by rw [e]; omega⟩

/-- Witness of C20: class 0 and index 1 of `my_state` (`NBLK(0) = 8`): the address is
`start + 16` and the index read back is 256. -/
theorem index_round_trip_scaled_witness :
    get_block_index_from_addr my_state 0 (get_addr_from_block_index my_state 0 1) = 256 * 1 ∧
    (1 ≤ 1 → get_block_index_from_addr my_state 0 (get_addr_from_block_index my_state 0 1) ≠ 1) :=
  index_round_trip_scaled my_state 0 1 (by decide) (by decide)

end BuddyMy

/-! # Bit helpers, the scan order, the range of `size`, and the diagnostics -/

namespace Buddy

theorem my_isset_eq_testBit (a : Nat → Nat) (i : Nat) :
    BuddyMy.isset a i = ((a (i / 8)).testBit (i % 8)).toNat := by
  unfold BuddyMy.isset
  rw [Nat.toNat_testBit, Nat.and_one_is_mod, Nat.shiftRight_eq_div_pow]

theorem my_isset_eq (a : Nat → Nat) (i : Nat) : BuddyMy.isset a i = (isset a i).toNat := by
  rw [my_isset_eq_testBit, isset_eq_testBit]

/-- C21: for the bit helpers of `buddy.c` and of `buddy_my.c`, every array `a` and bit
indices `j != i`: `isset(a, i)` is true (nonzero) after `set(a, i)` and false (0) after
`unset(a, i)`, and `isset(a, j)` has the same value before and after `set(a, i)` and before
and after `unset(a, i)`. -/
theorem bit_helpers_exact (a : Nat → Nat) (i j : Nat) (hij : j ≠ i) :
    (isset (set a i) i = true ∧ isset (unset a i) i = false ∧
      isset (set a i) j = isset a j ∧ isset (unset a i) j = isset a j) ∧
    (BuddyMy.isset (BuddyMy.set a i) i ≠ 0 ∧ BuddyMy.isset (BuddyMy.unset a i) i = 0 ∧
      BuddyMy.isset (BuddyMy.set a i) j = BuddyMy.isset a j ∧
      BuddyMy.isset (BuddyMy.unset a i) j = BuddyMy.isset a j) := by
  have e1 : BuddyMy.set a i = set a i := rfl
  have e2 : BuddyMy.unset a i = unset a i := rfl
  have s1 : isset (set a i) i = true := by rw [isset_set]; simp
  have s2 : isset (unset a i) i = false := by rw [isset_unset]; simp
  have s3 : isset (set a i) j = isset a j := by rw [isset_set]; simp [hij]
  have s4 : isset (unset a i) j = isset a j := by rw [isset_unset]; simp [hij]
  refine ⟨⟨s1, s2, s3, s4⟩, ?_, ?_, ?_, ?_⟩
  · rw [e1, my_isset_eq, s1]; decide
  · rw [e2, my_isset_eq, s2]; rfl
  · rw [e1, my_isset_eq, my_isset_eq, s3]
  · rw [e2, my_isset_eq, my_isset_eq, s4]

/-- Witness of C21: bit 7 of a byte `0x7f` (mask `0x80`) against bit 6. -/
theorem bit_helpers_exact_witness :
    (isset (set (fun _ => 127) 7) 7 = true ∧ isset (unset (fun _ => 127) 7) 7 = false ∧
      isset (set (fun _ => 127) 7) 6 = isset (fun _ => 127) 6 ∧
      isset (unset (fun _ => 127) 7) 6 = isset (fun _ => 127) 6) ∧
    (BuddyMy.isset (BuddyMy.set (fun _ => 127) 7) 7 ≠ 0 ∧
      BuddyMy.isset (BuddyMy.unset (fun _ => 127) 7) 7 = 0 ∧
      BuddyMy.isset (BuddyMy.set (fun _ => 127) 7) 6 = BuddyMy.isset (fun _ => 127) 6 ∧
      BuddyMy.isset (BuddyMy.unset (fun _ => 127) 7) 6 = BuddyMy.isset (fun _ => 127) 6) :=
  bit_helpers_exact (fun _ => 127) 7 6 (by decide)

/-- C22: in a state with `HEAP_SIZE <= 2^31`, when `bd_malloc(nbytes)` returns the non-null
block `id` of class
`L = get_level(nbytes)`, that block was free and every index `i < id` of class `L` had,
before the call, its alloc bit set or (when `L >= 1`) its split bit set: the block handed
out is the free block of the class with the lowest address. -/
theorem bd_malloc_lowest_free (s : State) (_hH : HEAP_SIZE s ≤ 2 ^ 31) (nbytes p : Nat)
    (s1 : State)
    (h : bd_malloc s nbytes = some (p, s1)) (hp : p ≠ 0) :
    ∃ L id, get_level nbytes = some L ∧ L < s.nsizes ∧ id < NBLK s L ∧ p = addr s L id ∧
      alloc_bit s L id = false ∧ (1 ≤ L → split_bit s L id = false) ∧
      (∀ i, i < id → alloc_bit s L i = true ∨ (1 ≤ L ∧ split_bit s L i = true)) ∧
      (∀ i, i < id → addr s L i < p) := by
  obtain ⟨L, hL⟩ := bd_malloc_some_level h
  rcases bd_malloc_cases s nbytes L hL with ⟨h0, _⟩ | ⟨hlt, id, r, hid, hfree, hmin, hm, _⟩
  · rw [h0] at h
    injection h with h
    injection h with h1 _
    exact absurd h1.symm hp
  · rw [hm] at h
    injection h with h
    injection h with h1 _
    refine ⟨L, id, hL, hlt, hid, h1.symm, hfree.1, fun h1 => hfree.2 (by omega),
      fun i hi => ?_, fun i hi => ?_⟩
    · have hn := hmin i hi
      unfold Free at hn
      cases ha : alloc_bit s L i
      · right
        by_cases h0 : L = 0
        · exact absurd ⟨ha, fun hne => absurd h0 hne⟩ hn
        · refine ⟨by omega, ?_⟩
          cases hs : split_bit s L i
          · exact absurd ⟨ha, fun _ => hs⟩ hn
          · rfl
      · left; rfl
    · rw [← h1]
      unfold addr
      have := BLK_SIZE_pos L
      have : i * BLK_SIZE L < id * BLK_SIZE L := Nat.mul_lt_mul_of_pos_right hi this
      omega

/-- Witness of C22: the request of 100 bytes in the arena `[0, 16384)` gets block 5 of
class 3, at address 640. -/
theorem bd_malloc_lowest_free_witness :
    ∃ L id, get_level 100 = some L ∧ L < (demo_init 16384).nsizes ∧
      id < NBLK (demo_init 16384) L ∧ 640 = addr (demo_init 16384) L id ∧
      alloc_bit (demo_init 16384) L id = false ∧
      (1 ≤ L → split_bit (demo_init 16384) L id = false) ∧
      (∀ i, i < id → alloc_bit (demo_init 16384) L i = true ∨
        (1 ≤ L ∧ split_bit (demo_init 16384) L i = true)) ∧
      (∀ i, i < id → addr (demo_init 16384) L i < 640) :=
  bd_malloc_lowest_free (demo_init 16384) (by decide) 100 640
    (demo_state (demo_init 16384) 100) rfl (by decide)

theorem size_least (s : State) (p L : Nat) (hL : L < s.nsizes)
    (hset : split_bit s (L + 1) (blk_index s (L + 1) p) = true) :
    size s p ≤ L ∧ split_bit s (size s p + 1) (blk_index s (size s p + 1) p) = true ∧
    ∀ j, j < size s p → split_bit s (j + 1) (blk_index s (j + 1) p) = false := by
  have hex : ∃ k, split_bit s (k + 1) (blk_index s (k + 1) p) = true := ⟨L, hset⟩
  have hk1 := Nat.find_spec hex
  have hk2 : Nat.find hex ≤ L := Nat.find_min' hex hset
  have hk3 : ∀ j, j < Nat.find hex → split_bit s (j + 1) (blk_index s (j + 1) p) = false := by
    intro j hj
    have := Nat.find_min hex hj
    cases hb : split_bit s (j + 1) (blk_index s (j + 1) p)
    · rfl
    · exact absurd hb this
  have e : size s p = Nat.find hex :=
    size_loop_spec s p (Nat.find hex) (by omega) hk1 s.nsizes 0 (Nat.zero_le _) (by omega)
      (fun j _ hj => hk3 j hj)
  rw [e]
  exact ⟨hk2, hk1, hk3⟩

/-- C23: for an arena of fewer than `2^31` bytes, in every state reachable from `bd_init`
with `nsizes >= 2` and for every address
`p` of the arena, the split bit of the single top-class block, which contains `p`, is set;
so the loop of `size(p)` returns at a round `k` with `k + 1 <= MAXENTRY`, having read split
bits of classes `1 .. k+1` only, and whatever is stored in the out-of-range entry
`bd_sizes[nsizes]` does not change the result. -/
theorem size_stays_in_range (base end_ : Nat) (h1 : ROUNDUP base LEAF_SIZE ≤ end_)
    (h2 : end_ < 2 ^ 62)
    (_h3 : end_ - ROUNDUP base LEAF_SIZE < 2 ^ 31) (s : State) (out : List (Nat × Nat))
    (hreach : Reachable base end_ s out) (hn : 2 ≤ s.nsizes) (p : Nat)
    (hp1 : s.bd_base ≤ p) (hp2 : p < s.bd_base + HEAP_SIZE s) :
    split_bit s (MAXENTRY s) 0 = true ∧ blk_index s (MAXENTRY s) p = 0 ∧
    size s p + 1 ≤ MAXENTRY s ∧
    split_bit s (size s p + 1) (blk_index s (size s p + 1) p) = true ∧
    (∀ j, j < size s p → split_bit s (j + 1) (blk_index s (j + 1) p) = false) ∧
    ∀ e, size ⟨s.nsizes, s.bd_base, Function.update s.bd_sizes s.nsizes e⟩ p = size s p := by
  obtain ⟨s0, O, _, hm, hr, _, _⟩ := reachable_inv h1 h2 hreach
  have hf := hr.frame
  have hM : MAXENTRY s = s.nsizes - 1 := rfl
  have htop0 : split_bit s0 (MAXENTRY s) 0 = true := by
    rw [hm.split_eq (MAXENTRY s) 0 (by omega) (by rw [← hf.1]; omega)]
    exact hm.first _ (by rw [← hf.1]; omega)
  have htop : split_bit s (MAXENTRY s) 0 = true := (hr.split _ _).2 (Or.inl htop0)
  have hidx : blk_index s (MAXENTRY s) p = 0 := by
    unfold blk_index
    unfold HEAP_SIZE at hp2
    exact Nat.div_eq_of_lt (by omega)
  have hset : split_bit s (MAXENTRY s - 1 + 1) (blk_index s (MAXENTRY s - 1 + 1) p) = true := by
    have e : MAXENTRY s - 1 + 1 = MAXENTRY s := by omega
    rw [e, hidx]
    exact htop
  obtain ⟨a, b, c⟩ := size_least s p (MAXENTRY s - 1) (by omega) hset
  refine ⟨htop, hidx, by omega, b, c, fun e => ?_⟩
  have hsame : ∀ j i, j < s.nsizes →
      split_bit ⟨s.nsizes, s.bd_base, Function.update s.bd_sizes s.nsizes e⟩ j i =
        split_bit s j i := by
    intro j i hj
    unfold split_bit
    simp only []
    rw [Function.update_noteq (by omega)]
  have hb2 : split_bit ⟨s.nsizes, s.bd_base, Function.update s.bd_sizes s.nsizes e⟩
      (size s p + 1) (blk_index s (size s p + 1) p) = true := by
    rw [hsame _ _ (by omega)]
    exact b
  exact size_loop_spec ⟨s.nsizes, s.bd_base, Function.update s.bd_sizes s.nsizes e⟩ p
    (size s p) (show size s p < s.nsizes by omega) hb2 s.nsizes 0
    (Nat.zero_le _) (show size s p - 0 < s.nsizes by omega)
    (fun j _ hj => by
      show split_bit ⟨s.nsizes, s.bd_base, Function.update s.bd_sizes s.nsizes e⟩ (j + 1)
        (blk_index s (j + 1) p) = false
      rw [hsame _ _ (by omega)]
      exact c j hj)

/-- Witness of C23: the state right after `bd_init(0, 16384)` (11 classes) and the address
8192. -/
theorem size_stays_in_range_witness :
    split_bit (demo_init 16384) (MAXENTRY (demo_init 16384)) 0 = true ∧
    blk_index (demo_init 16384) (MAXENTRY (demo_init 16384)) 8192 = 0 ∧
    size (demo_init 16384) 8192 + 1 ≤ MAXENTRY (demo_init 16384) ∧
    split_bit (demo_init 16384) (size (demo_init 16384) 8192 + 1)
      (blk_index (demo_init 16384) (size (demo_init 16384) 8192 + 1) 8192) = true ∧
    (∀ j, j < size (demo_init 16384) 8192 →
      split_bit (demo_init 16384) (j + 1) (blk_index (demo_init 16384) (j + 1) 8192) = false) ∧
    ∀ e, size ⟨(demo_init 16384).nsizes, (demo_init 16384).bd_base,
      Function.update (demo_init 16384).bd_sizes (demo_init 16384).nsizes e⟩ 8192 =
        size (demo_init 16384) 8192 :=
  size_stays_in_range 0 16384 (by decide) (by decide) (by decide) (demo_init 16384) []
    (Reachable.init demo_init_ok) (by decide) 8192 (by decide) (by decide)

/-- C24: for `end > ROUNDUP(base, 16)` and an arena of fewer than `2^31` bytes (so that the
`int unavailable` is exact), `base` and `end` aligned or not, both calls of `bd_mark` made by
`bd_init` get multiples of 16: `bd_mark_data_structures` passes `bd_base` and the rounded
cursor, `bd_mark_unavailable` passes `bd_end` and `bd_base + BLK_SIZE(MAXENTRY)`; neither
call takes the `bd_mark` panic, so `bd_init` does not end in it, and `bd_end <= end`. -/
theorem bd_init_marks_aligned (base end_ : Nat) (h1 : ROUNDUP base LEAF_SIZE < end_)
    (h2 : end_ < 2 ^ 62)
    (_h3 : end_ - ROUNDUP base LEAF_SIZE < 2 ^ 31) :
    (init_state base end_).bd_base % LEAF_SIZE = 0 ∧ meta_end base end_ % LEAF_SIZE = 0 ∧
    ∃ s1, bd_mark_data_structures (init_state base end_) (meta_end base end_) = Except.ok s1 ∧
      (s1.bd_base + BLK_SIZE (MAXENTRY s1) - unavailable s1 end_) % LEAF_SIZE = 0 ∧
      (s1.bd_base + BLK_SIZE (MAXENTRY s1)) % LEAF_SIZE = 0 ∧
      s1.bd_base + BLK_SIZE (MAXENTRY s1) - unavailable s1 end_ ≤ end_ ∧
      (∃ s2, bd_mark_unavailable s1 end_ = Except.ok s2) ∧
      bd_init base end_ ≠ Except.error "bd_mark" := by
  have hb : (init_state base end_).bd_base % 16 = 0 := ROUNDUP_mod base
  have hme : meta_end base end_ % 16 = 0 := by unfold meta_end; exact ROUNDUP_mod _
  have hH : BLK_SIZE (MAXENTRY (init_state base end_)) % 16 = 0 := by
    rw [BLK_SIZE_eq]; omega
  obtain ⟨f1, _, _⟩ := bd_mark_loop_spec (init_state base end_).bd_base (meta_end base end_)
    (init_state base end_).nsizes (init_state base end_) 0 (by omega)
  generalize hs1 : bd_mark_loop (init_state base end_).bd_base (meta_end base end_)
    (init_state base end_).nsizes (init_state base end_) 0 = s1 at f1
  have e1 : bd_mark_data_structures (init_state base end_) (meta_end base end_) =
      Except.ok s1 := by
    unfold bd_mark_data_structures bd_mark
    simp only [LEAF_SIZE, hb, hme, ne_eq, not_true_eq_false, or_self, if_false, hs1]
  have ets : s1.bd_base + BLK_SIZE (MAXENTRY s1) - unavailable s1 end_ = tail_start base end_ := by
    unfold tail_start unavailable
    rw [f1.2, f1.maxentry]
  have ht1 := tail_start_mod base end_
  have ht2 : (s1.bd_base + BLK_SIZE (MAXENTRY s1)) % 16 = 0 := by
    rw [f1.2, f1.maxentry]; omega
  have e2 : bd_mark_unavailable s1 end_ = Except.ok (bd_mark_loop (tail_start base end_)
      (s1.bd_base + BLK_SIZE (MAXENTRY s1)) s1.nsizes s1 0) := by
    unfold bd_mark_unavailable bd_mark
    simp only [ets]
    simp only [LEAF_SIZE, ht1, ht2, ne_eq, not_true_eq_false, or_self, if_false]
  refine ⟨hb, hme, s1, e1, ?_, ht2, ?_, ⟨_, e2⟩, ?_⟩
  · rw [ets]; exact ht1
  · rw [ets]; exact tail_start_le (Nat.le_of_lt h1) h2
  · have e0 : bd_init base end_ =
        (match bd_mark_data_structures (init_state base end_) (meta_end base end_) with
          | Except.error e => Except.error e
          | Except.ok s1 =>
            match bd_mark_unavailable s1 end_ with
            | Except.error e => Except.error e
            | Except.ok s2 => Except.ok (print_level s2 10).1) := rfl
    rw [e0, e1]
    simp only [e2]
    exact fun h => Except.noConfusion h

/-- Witness of C24: `bd_init(3, 16001)`, an arena of 11 classes where neither `base` nor
`end` is a multiple of 16. -/
theorem bd_init_marks_aligned_witness :
    (init_state 3 16001).bd_base % LEAF_SIZE = 0 ∧ meta_end 3 16001 % LEAF_SIZE = 0 ∧
    ∃ s1, bd_mark_data_structures (init_state 3 16001) (meta_end 3 16001) = Except.ok s1 ∧
      (s1.bd_base + BLK_SIZE (MAXENTRY s1) - unavailable s1 16001) % LEAF_SIZE = 0 ∧
      (s1.bd_base + BLK_SIZE (MAXENTRY s1)) % LEAF_SIZE = 0 ∧
      s1.bd_base + BLK_SIZE (MAXENTRY s1) - unavailable s1 16001 ≤ 16001 ∧
      (∃ s2, bd_mark_unavailable s1 16001 = Except.ok s2) ∧
      bd_init 3 16001 ≠ Except.error "bd_mark" :=
  bd_init_marks_aligned 3 16001 (by decide) (by decide) (by decide)

theorem countP_range_succ (q : Nat → Bool) (n : Nat) :
    (List.range (n + 1)).countP q = (List.range n).countP q + if q n then 1 else 0 := by
  rw [List.range_succ, List.countP_append, List.countP_singleton]

theorem countP_range_le (q : Nat → Bool) (n : Nat) : (List.range n).countP q ≤ n := by
  have := List.countP_le_length q (l := List.range n)
  rw [List.length_range] at this
  exact this

theorem print_level_loop_spec (s : State) (level : Nat) (hN : NBLK s level < 2 ^ 32) :
    ∀ (fuel i : Nat), i ≤ NBLK s level → NBLK s level - i ≤ fuel →
      print_level_loop s level fuel i
        ((List.range i).countP (shown_alloc s level), (List.range i).countP (shown_split s level),
          (List.range i).countP (shown_free s level)) =
        ((List.range (NBLK s level)).countP (shown_alloc s level),
          (List.range (NBLK s level)).countP (shown_split s level),
          (List.range (NBLK s level)).countP (shown_free s level)) := by
  intro fuel
  induction fuel with
  | zero =>
    intro i h1 h2
    have : i = NBLK s level := by omega
    simp only [print_level_loop, this]
  | succ fuel ih =>
    intro i h1 h2
    simp only [print_level_loop]
    by_cases hi : i < NBLK s level
    · rw [if_pos hi]
      have hA := countP_range_le (shown_alloc s level) i
      have hS := countP_range_le (shown_split s level) i
      have hF := countP_range_le (shown_free s level) i
      have key := ih (i + 1) (by omega) (by omega)
      rw [countP_range_succ, countP_range_succ, countP_range_succ] at key
      by_cases hsp : level ≠ 0 ∧ split_bit s level i = true
      · rw [if_pos hsp, Nat.mod_eq_of_lt (by omega)]
        have e1 : shown_split s level i = true := by
          unfold shown_split; simp [hsp.1, hsp.2]
        have e2 : shown_alloc s level i = false := by unfold shown_alloc; simp [e1]
        have e3 : shown_free s level i = false := by unfold shown_free; simp [e1]
        simpa [e1, e2, e3] using key
      · rw [if_neg hsp]
        have e1 : shown_split s level i = false := by
          unfold shown_split
          by_cases h0 : level = 0
          · simp [h0]
          · have : split_bit s level i ≠ true := fun h => hsp ⟨h0, h⟩
            simp [this]
        by_cases hal : alloc_bit s level i = true
        · rw [if_pos hal, Nat.mod_eq_of_lt (by omega)]
          have e2 : shown_alloc s level i = true := by unfold shown_alloc; simp [e1, hal]
          have e3 : shown_free s level i = false := by unfold shown_free; simp [e1, hal]
          simpa [e1, e2, e3] using key
        · rw [if_neg hal, Nat.mod_eq_of_lt (by omega)]
          have e2 : shown_alloc s level i = false := by unfold shown_alloc; simp [e1, hal]
          have e3 : shown_free s level i = true := by unfold shown_free; simp [e1, hal]
          simpa [e1, e2, e3] using key
    · rw [if_neg hi]
      have : i = NBLK s level := by omega
      rw [this]

theorem shown_counts_sum (s : State) (level : Nat) : ∀ n,
    (List.range n).countP (shown_alloc s level) + (List.range n).countP (shown_split s level) +
      (List.range n).countP (shown_free s level) = n := by
  intro n
  induction n with
  | zero => simp
  | succ n ih =>
    rw [countP_range_succ, countP_range_succ, countP_range_succ]
    have : ((if shown_alloc s level n then 1 else 0) + (if shown_split s level n then 1 else 0) +
        (if shown_free s level n then 1 else 0) : Nat) = 1 := by
      unfold shown_alloc shown_free
      cases shown_split s level n <;> cases alloc_bit s level n <;> simp
    omega

/-- C25: for every state and class `level < nsizes` (with `NBLK(level)` within `int`),
`print_level(level)` leaves the state, hence every alloc and split bit, as it was, and its
counts satisfy `alls + splits + frees = NBLK(level)`, where `splits` counts the indices
`i < NBLK(level)` with `level != 0` and the split bit set, `alls` those not counted as split
whose alloc bit is set, and `frees` the others. -/
theorem print_level_counts (s : State) (level : Nat) (_hl : level < s.nsizes)
    (hN : NBLK s level < 2 ^ 31) :
    (print_level s level).1 = s ∧
    (print_level s level).2.1 + (print_level s level).2.2.1 + (print_level s level).2.2.2 =
      NBLK s level ∧
    (print_level s level).2.2.1 = (List.range (NBLK s level)).countP
      (fun i => decide (level ≠ 0) && split_bit s level i) ∧
    (print_level s level).2.1 = (List.range (NBLK s level)).countP
      (fun i => !(decide (level ≠ 0) && split_bit s level i) && alloc_bit s level i) ∧
    (print_level s level).2.2.2 = (List.range (NBLK s level)).countP
      (fun i => !(decide (level ≠ 0) && split_bit s level i) && !alloc_bit s level i) := by
  have h := print_level_loop_spec s level
    (lt_trans hN (by norm_num)) (NBLK s level) 0 (Nat.zero_le _) (by omega)
  have e : print_level s level = (s, (List.range (NBLK s level)).countP (shown_alloc s level),
      (List.range (NBLK s level)).countP (shown_split s level),
      (List.range (NBLK s level)).countP (shown_free s level)) := by
    unfold print_level
    rw [← h]
    rfl
  rw [e]
  exact ⟨rfl, shown_counts_sum s level _, rfl, rfl, rfl⟩

/-- Witness of C25: class 6 of the arena `[0, 4096)`, which has four blocks. -/
theorem print_level_counts_witness :
    (print_level (demo_init 4096) 6).1 = demo_init 4096 ∧
    (print_level (demo_init 4096) 6).2.1 + (print_level (demo_init 4096) 6).2.2.1 +
      (print_level (demo_init 4096) 6).2.2.2 = NBLK (demo_init 4096) 6 ∧
    (print_level (demo_init 4096) 6).2.2.1 = (List.range (NBLK (demo_init 4096) 6)).countP
      (fun i => decide (6 ≠ 0) && split_bit (demo_init 4096) 6 i) ∧
    (print_level (demo_init 4096) 6).2.1 = (List.range (NBLK (demo_init 4096) 6)).countP
      (fun i => !(decide (6 ≠ 0) && split_bit (demo_init 4096) 6 i) &&
        alloc_bit (demo_init 4096) 6 i) ∧
    (print_level (demo_init 4096) 6).2.2.2 = (List.range (NBLK (demo_init 4096) 6)).countP
      (fun i => !(decide (6 ≠ 0) && split_bit (demo_init 4096) 6 i) &&
        !alloc_bit (demo_init 4096) 6 i) :=
  print_level_counts (demo_init 4096) 6 (by decide) (by decide)

/-- The closing line of `print_level(6)` right after `bd_init(0, 4096)`: one block shown as
split, three as free. -/
theorem demo_print_level : (print_level (demo_init 4096) 6).2 = (0, 1, 3) := by decide

end Buddy
